import Mathlib

/-!
# Verification of the flowmark text-anchoring engine

This file gives a shallow embedding, in Lean 4, of the core algorithms of the
flowmark highlighting library (text normalization, similarity scoring,
positional search, restoration scanning, offset-to-range conversion, and the
storage/orchestration state transitions), together with theorems settling the
frozen specification claims.

Strings are modelled as `List Char`; the JavaScript regular-expression
replacements used by `normalizeText` are modelled as equivalent left-to-right
scanning state machines (one per `replace` call, in source order), and
JavaScript's `String.prototype.toLowerCase` is modelled on the ASCII range.
Machine integers/floats are modelled as `Nat`/`Int`/`Rat`.
-/

/-! ## Character classes

`isJsWs` is the JavaScript `\s` class (ECMA-262 WhiteSpace ∪ LineTerminator):
TAB LF VT FF CR SP NBSP, U+1680, U+2000..U+200A, U+2028, U+2029, U+202F,
U+205F, U+3000, U+FEFF. -/

def isJsWs (c : Char) : Bool :=
  c == ' ' || c == '\t' || c == '\n' || c == Char.ofNat 11 || c == Char.ofNat 12 ||
  c == '\r' || c == Char.ofNat 0xA0 || c == Char.ofNat 0x1680 ||
  (decide (0x2000 ≤ c.toNat) && decide (c.toNat ≤ 0x200A)) ||
  c == Char.ofNat 0x2028 || c == Char.ofNat 0x2029 || c == Char.ofNat 0x202F ||
  c == Char.ofNat 0x205F || c == Char.ofNat 0x3000 || c == Char.ofNat 0xFEFF

/-- Sentence-ending punctuation, the class `[.!?]` of the source regexes. -/
def isSentencePunct (c : Char) : Bool :=
  c == '.' || c == '!' || c == '?'

/-- List punctuation, the class `[,;:]` of the source regexes. -/
def isListPunct (c : Char) : Bool :=
  c == ',' || c == ';' || c == ':'

/-- ASCII quote characters, the class `["']` of the source regexes. -/
def isQuote (c : Char) : Bool :=
  c == '"' || c == '\''

/-- The double-quote variants `[“”„‟″‶]`. -/
def isDoubleQuoteVariant (c : Char) : Bool :=
  c == Char.ofNat 0x201C || c == Char.ofNat 0x201D || c == Char.ofNat 0x201E ||
  c == Char.ofNat 0x201F || c == Char.ofNat 0x2033 || c == Char.ofNat 0x2036

/-- The single-quote variants `[‘’‚‛′‵]`. -/
def isSingleQuoteVariant (c : Char) : Bool :=
  c == Char.ofNat 0x2018 || c == Char.ofNat 0x2019 || c == Char.ofNat 0x201A ||
  c == Char.ofNat 0x201B || c == Char.ofNat 0x2032 || c == Char.ofNat 0x2035

/-! ## The normalization pipeline (source: `normalizeText` in text-processor)

Stage 1/2: `.replace(/[“…]/g, '"')` and `.replace(/[‘…]/g, "'")` —
a character-wise map. -/

def quoteMapChar (c : Char) : Char :=
  if isDoubleQuoteVariant c then '"'
  else if isSingleQuoteVariant c then '\''
  else c

/-- Stage 3: `.replace(/[\n\r\t]+/g, ' ')` — each maximal run of
newline/carriage-return/tab characters becomes a single space.  The boolean
state records whether the previous character belonged to such a run. -/

def isNlTab (c : Char) : Bool :=
  c == '\n' || c == '\r' || c == '\t'

def nlTabGo (prevRun : Bool) : List Char → List Char
  | [] => []
  | c :: cs =>
    if isNlTab c then
      if prevRun then nlTabGo true cs else ' ' :: nlTabGo true cs
    else c :: nlTabGo false cs

def nlTabCollapse (l : List Char) : List Char := nlTabGo false l

/-- Stage 4: `.replace(/([.!?])\s*(?!["'])/g, '$1 ')`.

Scanning state: `none`, or `some (p, lw)` meaning a sentence-punctuation
character `p` has been read and we are inside the greedy `\s*` run, `lw` being
the most recently read whitespace character of the run (if any).  Resolution on
the first non-whitespace character `c` (or the end of input):
* `c` is a quote and the run is empty: the lookahead kills the match, `p` and
  `c` are emitted verbatim;
* `c` is a quote and the run is nonempty: the regex backtracks one whitespace
  character, so the match is `p` plus all but the last run character, replaced
  by `p` + space; the last run character `lw` and `c` are then re-scanned
  (neither can start a match, so they are emitted);
* otherwise the whole run is consumed and replaced by a single space. -/

def sentenceSpaceGo : Option (Char × Option Char) → List Char → List Char
  | none, [] => []
  | some (p, _), [] => [p, ' ']
  | none, c :: cs =>
    if isSentencePunct c then sentenceSpaceGo (some (c, none)) cs
    else c :: sentenceSpaceGo none cs
  | some (p, lw), c :: cs =>
    if isJsWs c then sentenceSpaceGo (some (p, some c)) cs
    else if isQuote c then
      match lw with
      | none => p :: c :: sentenceSpaceGo none cs
      | some w => p :: ' ' :: w :: c :: sentenceSpaceGo none cs
    else if isSentencePunct c then p :: ' ' :: sentenceSpaceGo (some (c, none)) cs
    else p :: ' ' :: c :: sentenceSpaceGo none cs

def sentenceSpace (l : List Char) : List Char := sentenceSpaceGo none l

/-- Stage 5: `.replace(/([.!?])\s+(["'])/g, '$1 $2')`.

State: `none`, or `some (p, run)` with `run` the whitespace characters read so
far after `p` (in order).  A quote resolving a nonempty run triggers the
replacement (punctuation, one space, quote); any other resolution emits the
pending characters verbatim. -/

def sentenceQuoteGo : Option (Char × List Char) → List Char → List Char
  | none, [] => []
  | some (p, run), [] => p :: run
  | none, c :: cs =>
    if isSentencePunct c then sentenceQuoteGo (some (c, [])) cs
    else c :: sentenceQuoteGo none cs
  | some (p, run), c :: cs =>
    if isJsWs c then sentenceQuoteGo (some (p, run ++ [c])) cs
    else if isQuote c && !run.isEmpty then p :: ' ' :: c :: sentenceQuoteGo none cs
    else if isSentencePunct c then (p :: run) ++ sentenceQuoteGo (some (c, [])) cs
    else (p :: run) ++ (c :: sentenceQuoteGo none cs)

def sentenceQuote (l : List Char) : List Char := sentenceQuoteGo none l

/-- Scanning state for stage 6, see `listSpaceGo`. -/
inductive ListSpaceState : Type
  | start : ListSpaceState
  | wsRun (run : List Char) : ListSpaceState
  | punct (run : List Char) (d : Char) (trail : List Char) : ListSpaceState
deriving DecidableEq

/-- Stage 6: `.replace(/\s*([,;:])\s*(?!["'])/g, '$1 ')`.

States: `start` (no pending characters); `wsRun run` (a pending whitespace run
that may become the leading `\s*` of a match); `punct run d trail` (pending
leading run, a list-punctuation character `d`, and the trailing `\s*` run read
so far).  Resolution of the `punct` state on the first non-whitespace
character `c` (or end of input):
* `c` is a quote and the trailing run is empty: the lookahead rejects every
  match attempt inside the pending region, everything is emitted verbatim;
* `c` is a quote and the trailing run is nonempty: the regex backtracks one
  whitespace character; the match (leading run, `d`, all but the last trailing
  character) is replaced by `d` + space, then the kept whitespace character and
  `c` are re-scanned — neither can open a new match, so they are emitted;
* otherwise the whole pending region is the match, replaced by `d` + space,
  and `c` is re-scanned from scratch (it may itself be list punctuation). -/

def listSpaceGo : ListSpaceState → List Char → List Char
  | .start, [] => []
  | .wsRun run, [] => run
  | .punct _ d _, [] => [d, ' ']
  | .start, c :: cs =>
    if isJsWs c then listSpaceGo (.wsRun [c]) cs
    else if isListPunct c then listSpaceGo (.punct [] c []) cs
    else c :: listSpaceGo .start cs
  | .wsRun run, c :: cs =>
    if isJsWs c then listSpaceGo (.wsRun (run ++ [c])) cs
    else if isListPunct c then listSpaceGo (.punct run c []) cs
    else run ++ (c :: listSpaceGo .start cs)
  | .punct run d trail, c :: cs =>
    if isJsWs c then listSpaceGo (.punct run d (trail ++ [c])) cs
    else if isQuote c then
      match trail.getLast? with
      | none => run ++ (d :: c :: listSpaceGo .start cs)
      | some w => d :: ' ' :: w :: c :: listSpaceGo .start cs
    else if isListPunct c then d :: ' ' :: listSpaceGo (.punct [] c []) cs
    else d :: ' ' :: c :: listSpaceGo .start cs

def listSpace (l : List Char) : List Char := listSpaceGo .start l

/-- Stage 7: `.replace(/([,;:])(["'])/g, '$1$2')` — the replacement text equals
the matched text, so the pass rewrites nothing; it is still modelled for
faithfulness to the source chain. -/

def listQuote : List Char → List Char
  | [] => []
  | [c] => [c]
  | c :: c2 :: cs =>
    if isListPunct c && isQuote c2 then c :: c2 :: listQuote cs
    else c :: listQuote (c2 :: cs)

/-- Stage 8: `.replace(/\s+/g, ' ')` — each maximal whitespace run becomes a
single space. -/

def wsCollapseGo (prevRun : Bool) : List Char → List Char
  | [] => []
  | c :: cs =>
    if isJsWs c then
      if prevRun then wsCollapseGo true cs else ' ' :: wsCollapseGo true cs
    else c :: wsCollapseGo false cs

def wsCollapse (l : List Char) : List Char := wsCollapseGo false l

/-- `String.prototype.trim()` — strips the same whitespace class from both
ends. -/

def jsTrim (l : List Char) : List Char :=
  ((l.dropWhile isJsWs).reverse.dropWhile isJsWs).reverse

/-- ASCII model of `String.prototype.toLowerCase`. -/
def jsToLowerChar (c : Char) : Char :=
  if 'A' ≤ c ∧ c ≤ 'Z' then Char.ofNat (c.toNat + 32) else c

def jsToLower (l : List Char) : List Char := l.map jsToLowerChar

/-- Options record of `normalizeText` (source: `NormalizeOptions`). -/
structure NormalizeOptions : Type where
  preserveSpacing : Bool
  preserveCase : Bool
deriving DecidableEq

def defaultNormalizeOptions : NormalizeOptions := ⟨false, false⟩

/-- The full `normalizeText` pipeline over `List Char`, stages in source
order: quote unification, newline/tab collapse, sentence-punctuation spacing,
sentence-punctuation/quote spacing, list-punctuation spacing,
list-punctuation/quote adjacency, whitespace collapse, then optional trim and
optional lowercasing. -/
def normalizeChars (l : List Char) (options : NormalizeOptions) : List Char :=
  let s1 := wsCollapse (listQuote (listSpace (sentenceQuote (sentenceSpace
    (nlTabCollapse (l.map quoteMapChar))))))
  let s2 := if options.preserveSpacing then s1 else jsTrim s1
  if options.preserveCase then s2 else jsToLower s2

/-- Source: `normalizeText(text, options)` in the text processor module. -/
def normalizeText (text : String) (options : NormalizeOptions) : String :=
  ⟨normalizeChars text.data options⟩

/-- `normalizeText` with the default (empty) options object. -/
def normalizeTextD (text : String) : String :=
  normalizeText text defaultNormalizeOptions

example : normalizeTextD "Hello\n\nWorld" = "hello world" := by decide
example : normalizeTextD "Hello    World" = "hello world" := by decide
example : normalizeTextD "Hello,World" = "hello, world" := by decide
example : normalizeTextD "Hello.World" = "hello. world" := by decide
example : normalizeTextD "test.  'q" = "test. 'q" := by decide

/-! ## Character class facts -/

theorem isSentencePunct_cases {p : Char} (h : isSentencePunct p = true) :
    p = '.' ∨ p = '!' ∨ p = '?' := by
  simp only [isSentencePunct, Bool.or_eq_true, beq_iff_eq] at h
  tauto

theorem isListPunct_cases {d : Char} (h : isListPunct d = true) :
    d = ',' ∨ d = ';' ∨ d = ':' := by
  simp only [isListPunct, Bool.or_eq_true, beq_iff_eq] at h
  tauto

theorem isQuote_cases {q : Char} (h : isQuote q = true) :
    q = '"' ∨ q = '\'' := by
  simp only [isQuote, Bool.or_eq_true, beq_iff_eq] at h
  tauto

theorem sp_not_ws {p : Char} (h : isSentencePunct p = true) : isJsWs p = false := by
  rcases isSentencePunct_cases h with rfl | rfl | rfl <;> decide

theorem sp_not_quote {p : Char} (h : isSentencePunct p = true) : isQuote p = false := by
  rcases isSentencePunct_cases h with rfl | rfl | rfl <;> decide

theorem sp_not_lp {p : Char} (h : isSentencePunct p = true) : isListPunct p = false := by
  rcases isSentencePunct_cases h with rfl | rfl | rfl <;> decide

theorem sp_not_nlTab {p : Char} (h : isSentencePunct p = true) : isNlTab p = false := by
  rcases isSentencePunct_cases h with rfl | rfl | rfl <;> decide

theorem lp_not_ws {d : Char} (h : isListPunct d = true) : isJsWs d = false := by
  rcases isListPunct_cases h with rfl | rfl | rfl <;> decide

theorem lp_not_quote {d : Char} (h : isListPunct d = true) : isQuote d = false := by
  rcases isListPunct_cases h with rfl | rfl | rfl <;> decide

theorem lp_not_sp {d : Char} (h : isListPunct d = true) : isSentencePunct d = false := by
  rcases isListPunct_cases h with rfl | rfl | rfl <;> decide

theorem lp_not_nlTab {d : Char} (h : isListPunct d = true) : isNlTab d = false := by
  rcases isListPunct_cases h with rfl | rfl | rfl <;> decide

theorem quote_not_ws {q : Char} (h : isQuote q = true) : isJsWs q = false := by
  rcases isQuote_cases h with rfl | rfl <;> decide

theorem quote_not_sp {q : Char} (h : isQuote q = true) : isSentencePunct q = false := by
  rcases isQuote_cases h with rfl | rfl <;> decide

theorem quote_not_lp {q : Char} (h : isQuote q = true) : isListPunct q = false := by
  rcases isQuote_cases h with rfl | rfl <;> decide

theorem quote_not_nlTab {q : Char} (h : isQuote q = true) : isNlTab q = false := by
  rcases isQuote_cases h with rfl | rfl <;> decide

theorem isNlTab_cases {c : Char} (h : isNlTab c = true) :
    c = '\n' ∨ c = '\r' ∨ c = '\t' := by
  simp only [isNlTab, Bool.or_eq_true, beq_iff_eq] at h
  tauto

theorem nlTab_ws {c : Char} (h : isNlTab c = true) : isJsWs c = true := by
  rcases isNlTab_cases h with rfl | rfl | rfl <;> decide

theorem quoteMapChar_sp {p : Char} (h : isSentencePunct p = true) : quoteMapChar p = p := by
  rcases isSentencePunct_cases h with rfl | rfl | rfl <;> decide

theorem quoteMapChar_quote {q : Char} (h : isQuote q = true) : quoteMapChar q = q := by
  rcases isQuote_cases h with rfl | rfl <;> decide

theorem jsToLowerChar_sp {p : Char} (h : isSentencePunct p = true) : jsToLowerChar p = p := by
  rcases isSentencePunct_cases h with rfl | rfl | rfl <;> decide

theorem jsToLowerChar_quote {q : Char} (h : isQuote q = true) : jsToLowerChar q = q := by
  rcases isQuote_cases h with rfl | rfl <;> decide

theorem space_ws : isJsWs ' ' = true := by decide

/-! ## Step equations for the scanners -/

theorem nlTabGo_nil (b : Bool) : nlTabGo b [] = [] := rfl

theorem nlTabGo_run_false {c : Char} (h : isNlTab c = true) (cs : List Char) :
    nlTabGo false (c :: cs) = ' ' :: nlTabGo true cs := by
  simp [nlTabGo, h]

theorem nlTabGo_run_true {c : Char} (h : isNlTab c = true) (cs : List Char) :
    nlTabGo true (c :: cs) = nlTabGo true cs := by
  simp [nlTabGo, h]

theorem nlTabGo_other {c : Char} (h : isNlTab c = false) (b : Bool) (cs : List Char) :
    nlTabGo b (c :: cs) = c :: nlTabGo false cs := by
  simp [nlTabGo, h]

theorem sentenceSpaceGo_none_nil : sentenceSpaceGo none [] = [] := rfl

theorem sentenceSpaceGo_pend_nil (p : Char) (lw : Option Char) :
    sentenceSpaceGo (some (p, lw)) [] = [p, ' '] := rfl

theorem sentenceSpaceGo_none_sp {c : Char} (h : isSentencePunct c = true) (cs : List Char) :
    sentenceSpaceGo none (c :: cs) = sentenceSpaceGo (some (c, none)) cs := by
  simp [sentenceSpaceGo, h]

theorem sentenceSpaceGo_none_other {c : Char} (h : isSentencePunct c = false) (cs : List Char) :
    sentenceSpaceGo none (c :: cs) = c :: sentenceSpaceGo none cs := by
  simp [sentenceSpaceGo, h]

theorem sentenceSpaceGo_pend_ws {c : Char} (h : isJsWs c = true) (p : Char) (lw : Option Char)
    (cs : List Char) :
    sentenceSpaceGo (some (p, lw)) (c :: cs) = sentenceSpaceGo (some (p, some c)) cs := by
  simp [sentenceSpaceGo, h]

theorem sentenceSpaceGo_pend_quote_none {c : Char} (hw : isJsWs c = false)
    (hq : isQuote c = true) (p : Char) (cs : List Char) :
    sentenceSpaceGo (some (p, none)) (c :: cs) = p :: c :: sentenceSpaceGo none cs := by
  simp [sentenceSpaceGo, hw, hq]

theorem sentenceSpaceGo_pend_quote_some {c : Char} (hw : isJsWs c = false)
    (hq : isQuote c = true) (p w : Char) (cs : List Char) :
    sentenceSpaceGo (some (p, some w)) (c :: cs) =
      p :: ' ' :: w :: c :: sentenceSpaceGo none cs := by
  simp [sentenceSpaceGo, hw, hq]

theorem sentenceSpaceGo_pend_sp {c : Char} (hw : isJsWs c = false) (hq : isQuote c = false)
    (hs : isSentencePunct c = true) (p : Char) (lw : Option Char) (cs : List Char) :
    sentenceSpaceGo (some (p, lw)) (c :: cs) =
      p :: ' ' :: sentenceSpaceGo (some (c, none)) cs := by
  simp [sentenceSpaceGo, hw, hq, hs]

theorem sentenceSpaceGo_pend_other {c : Char} (hw : isJsWs c = false) (hq : isQuote c = false)
    (hs : isSentencePunct c = false) (p : Char) (lw : Option Char) (cs : List Char) :
    sentenceSpaceGo (some (p, lw)) (c :: cs) = p :: ' ' :: c :: sentenceSpaceGo none cs := by
  simp [sentenceSpaceGo, hw, hq, hs]

theorem sentenceQuoteGo_none_nil : sentenceQuoteGo none [] = [] := rfl

theorem sentenceQuoteGo_pend_nil (p : Char) (run : List Char) :
    sentenceQuoteGo (some (p, run)) [] = p :: run := rfl

theorem sentenceQuoteGo_none_sp {c : Char} (h : isSentencePunct c = true) (cs : List Char) :
    sentenceQuoteGo none (c :: cs) = sentenceQuoteGo (some (c, [])) cs := by
  simp [sentenceQuoteGo, h]

theorem sentenceQuoteGo_none_other {c : Char} (h : isSentencePunct c = false) (cs : List Char) :
    sentenceQuoteGo none (c :: cs) = c :: sentenceQuoteGo none cs := by
  simp [sentenceQuoteGo, h]

theorem sentenceQuoteGo_pend_ws {c : Char} (h : isJsWs c = true) (p : Char) (run : List Char)
    (cs : List Char) :
    sentenceQuoteGo (some (p, run)) (c :: cs) = sentenceQuoteGo (some (p, run ++ [c])) cs := by
  simp [sentenceQuoteGo, h]

theorem sentenceQuoteGo_pend_quote_run {c : Char} (hw : isJsWs c = false)
    (hq : isQuote c = true) (p : Char) {run : List Char} (hr : run ≠ []) (cs : List Char) :
    sentenceQuoteGo (some (p, run)) (c :: cs) = p :: ' ' :: c :: sentenceQuoteGo none cs := by
  have : run.isEmpty = false := by
    cases run with
    | nil => exact absurd rfl hr
    | cons a l => rfl
  simp [sentenceQuoteGo, hw, hq, this]

theorem sentenceQuoteGo_pend_sp {c : Char} (hw : isJsWs c = false)
    (hqr : (isQuote c && !List.isEmpty run) = false)
    (hs : isSentencePunct c = true) (p : Char) (cs : List Char) :
    sentenceQuoteGo (some (p, run)) (c :: cs) =
      (p :: run) ++ sentenceQuoteGo (some (c, [])) cs := by
  simp only [sentenceQuoteGo, hw, hqr, hs]
  simp

theorem sentenceQuoteGo_pend_other {c : Char} (hw : isJsWs c = false)
    (hqr : (isQuote c && !List.isEmpty run) = false)
    (hs : isSentencePunct c = false) (p : Char) (cs : List Char) :
    sentenceQuoteGo (some (p, run)) (c :: cs) =
      (p :: run) ++ (c :: sentenceQuoteGo none cs) := by
  simp only [sentenceQuoteGo, hw, hqr, hs]
  simp

theorem listSpaceGo_start_nil : listSpaceGo .start [] = [] := rfl

theorem listSpaceGo_ws_nil (run : List Char) : listSpaceGo (.wsRun run) [] = run := rfl

theorem listSpaceGo_punct_nil (run : List Char) (d : Char) (trail : List Char) :
    listSpaceGo (.punct run d trail) [] = [d, ' '] := rfl

theorem listSpaceGo_start_ws {c : Char} (h : isJsWs c = true) (cs : List Char) :
    listSpaceGo .start (c :: cs) = listSpaceGo (.wsRun [c]) cs := by
  simp [listSpaceGo, h]

theorem listSpaceGo_start_lp {c : Char} (hw : isJsWs c = false) (hl : isListPunct c = true)
    (cs : List Char) :
    listSpaceGo .start (c :: cs) = listSpaceGo (.punct [] c []) cs := by
  simp [listSpaceGo, hw, hl]

theorem listSpaceGo_start_other {c : Char} (hw : isJsWs c = false) (hl : isListPunct c = false)
    (cs : List Char) :
    listSpaceGo .start (c :: cs) = c :: listSpaceGo .start cs := by
  simp [listSpaceGo, hw, hl]

theorem listSpaceGo_ws_ws {c : Char} (h : isJsWs c = true) (run cs : List Char) :
    listSpaceGo (.wsRun run) (c :: cs) = listSpaceGo (.wsRun (run ++ [c])) cs := by
  simp [listSpaceGo, h]

theorem listSpaceGo_ws_lp {c : Char} (hw : isJsWs c = false) (hl : isListPunct c = true)
    (run cs : List Char) :
    listSpaceGo (.wsRun run) (c :: cs) = listSpaceGo (.punct run c []) cs := by
  simp [listSpaceGo, hw, hl]

theorem listSpaceGo_ws_other {c : Char} (hw : isJsWs c = false) (hl : isListPunct c = false)
    (run cs : List Char) :
    listSpaceGo (.wsRun run) (c :: cs) = run ++ (c :: listSpaceGo .start cs) := by
  simp [listSpaceGo, hw, hl]

theorem listSpaceGo_punct_ws {c : Char} (h : isJsWs c = true) (run : List Char) (d : Char)
    (trail cs : List Char) :
    listSpaceGo (.punct run d trail) (c :: cs) =
      listSpaceGo (.punct run d (trail ++ [c])) cs := by
  simp [listSpaceGo, h]

theorem listSpaceGo_punct_quote_nil {c : Char} (hw : isJsWs c = false) (hq : isQuote c = true)
    (run : List Char) (d : Char) (cs : List Char) :
    listSpaceGo (.punct run d []) (c :: cs) = run ++ (d :: c :: listSpaceGo .start cs) := by
  simp [listSpaceGo, hw, hq]

theorem listSpaceGo_punct_quote_trail {c : Char} (hw : isJsWs c = false) (hq : isQuote c = true)
    (run : List Char) (d : Char) {trail : List Char} {w : Char}
    (ht : trail.getLast? = some w) (cs : List Char) :
    listSpaceGo (.punct run d trail) (c :: cs) =
      d :: ' ' :: w :: c :: listSpaceGo .start cs := by
  simp [listSpaceGo, hw, hq, ht]

theorem listSpaceGo_punct_lp {c : Char} (hw : isJsWs c = false) (hq : isQuote c = false)
    (hl : isListPunct c = true) (run : List Char) (d : Char) (trail cs : List Char) :
    listSpaceGo (.punct run d trail) (c :: cs) =
      d :: ' ' :: listSpaceGo (.punct [] c []) cs := by
  simp [listSpaceGo, hw, hq, hl]

theorem listSpaceGo_punct_other {c : Char} (hw : isJsWs c = false) (hq : isQuote c = false)
    (hl : isListPunct c = false) (run : List Char) (d : Char) (trail cs : List Char) :
    listSpaceGo (.punct run d trail) (c :: cs) = d :: ' ' :: c :: listSpaceGo .start cs := by
  simp [listSpaceGo, hw, hq, hl]

theorem listQuote_nil : listQuote [] = [] := rfl

theorem listQuote_single (c : Char) : listQuote [c] = [c] := rfl

theorem listQuote_pair {c c2 : Char} (h : (isListPunct c && isQuote c2) = true)
    (cs : List Char) :
    listQuote (c :: c2 :: cs) = c :: c2 :: listQuote cs := by
  simp [listQuote, h]

theorem listQuote_step {c c2 : Char} (h : (isListPunct c && isQuote c2) = false)
    (cs : List Char) :
    listQuote (c :: c2 :: cs) = c :: listQuote (c2 :: cs) := by
  simp [listQuote, h]

theorem wsCollapseGo_nil (b : Bool) : wsCollapseGo b [] = [] := rfl

theorem wsCollapseGo_ws_false {c : Char} (h : isJsWs c = true) (cs : List Char) :
    wsCollapseGo false (c :: cs) = ' ' :: wsCollapseGo true cs := by
  simp [wsCollapseGo, h]

theorem wsCollapseGo_ws_true {c : Char} (h : isJsWs c = true) (cs : List Char) :
    wsCollapseGo true (c :: cs) = wsCollapseGo true cs := by
  simp [wsCollapseGo, h]

theorem wsCollapseGo_other {c : Char} (h : isJsWs c = false) (b : Bool) (cs : List Char) :
    wsCollapseGo b (c :: cs) = c :: wsCollapseGo false cs := by
  simp [wsCollapseGo, h]

/-! ## Stage 7 rewrites nothing -/

theorem listQuote_id : ∀ l : List Char, listQuote l = l := by
  have H : ∀ n l, List.length l ≤ n → listQuote l = l := by
    intro n
    induction n with
    | zero =>
      intro l hl
      rw [List.length_eq_zero.mp (Nat.le_zero.mp hl)]
      rfl
    | succ n ih =>
      intro l hl
      match l with
      | [] => rfl
      | [c] => rfl
      | c :: c2 :: cs =>
        by_cases h : (isListPunct c && isQuote c2) = true
        · rw [listQuote_pair h cs, ih cs]
          simp only [List.length_cons] at hl
          omega
        · rw [listQuote_step (Bool.not_eq_true _ ▸ h) cs, ih (c2 :: cs)]
          simp only [List.length_cons] at hl ⊢
          omega
  intro l
  exact H l.length l le_rfl

/-! ## Step normal forms: one scanning step always emits a chunk and
continues in some state on the tail -/

theorem nlTabGo_step (b : Bool) (c : Char) :
    ∃ e b', ∀ cs, nlTabGo b (c :: cs) = e ++ nlTabGo b' cs := by
  by_cases h : isNlTab c = true
  · cases b
    · exact ⟨[' '], true, fun cs => nlTabGo_run_false h cs⟩
    · exact ⟨[], true, fun cs => nlTabGo_run_true h cs⟩
  · exact ⟨[c], false, fun cs => nlTabGo_other (Bool.not_eq_true _ ▸ h) b cs⟩

theorem sentenceSpaceGo_step (st : Option (Char × Option Char)) (c : Char) :
    ∃ e st', ∀ cs, sentenceSpaceGo st (c :: cs) = e ++ sentenceSpaceGo st' cs := by
  match st with
  | none =>
    by_cases h : isSentencePunct c = true
    · exact ⟨[], some (c, none), fun cs => sentenceSpaceGo_none_sp h cs⟩
    · exact ⟨[c], none, fun cs => sentenceSpaceGo_none_other (Bool.not_eq_true _ ▸ h) cs⟩
  | some (p, lw) =>
    by_cases hw : isJsWs c = true
    · exact ⟨[], some (p, some c), fun cs => sentenceSpaceGo_pend_ws hw p lw cs⟩
    by_cases hq : isQuote c = true
    · match lw with
      | none =>
        exact ⟨[p, c], none, fun cs =>
          sentenceSpaceGo_pend_quote_none (Bool.not_eq_true _ ▸ hw) hq p cs⟩
      | some w =>
        exact ⟨[p, ' ', w, c], none, fun cs =>
          sentenceSpaceGo_pend_quote_some (Bool.not_eq_true _ ▸ hw) hq p w cs⟩
    by_cases hs : isSentencePunct c = true
    · exact ⟨[p, ' '], some (c, none), fun cs =>
        sentenceSpaceGo_pend_sp (Bool.not_eq_true _ ▸ hw) (Bool.not_eq_true _ ▸ hq) hs p lw cs⟩
    · exact ⟨[p, ' ', c], none, fun cs =>
        sentenceSpaceGo_pend_other (Bool.not_eq_true _ ▸ hw) (Bool.not_eq_true _ ▸ hq)
          (Bool.not_eq_true _ ▸ hs) p lw cs⟩

theorem sentenceQuoteGo_step (st : Option (Char × List Char)) (c : Char) :
    ∃ e st', ∀ cs, sentenceQuoteGo st (c :: cs) = e ++ sentenceQuoteGo st' cs := by
  match st with
  | none =>
    by_cases h : isSentencePunct c = true
    · exact ⟨[], some (c, []), fun cs => sentenceQuoteGo_none_sp h cs⟩
    · exact ⟨[c], none, fun cs => sentenceQuoteGo_none_other (Bool.not_eq_true _ ▸ h) cs⟩
  | some (p, run) =>
    by_cases hw : isJsWs c = true
    · exact ⟨[], some (p, run ++ [c]), fun cs => sentenceQuoteGo_pend_ws hw p run cs⟩
    by_cases hqr : (isQuote c && !run.isEmpty) = true
    · have hq : isQuote c = true := (Bool.and_eq_true _ _ ▸ hqr).1
      have hr : run ≠ [] := by
        have h2 := (Bool.and_eq_true _ _ ▸ hqr).2
        intro hnil
        rw [hnil] at h2
        simp at h2
      exact ⟨[p, ' ', c], none, fun cs =>
        sentenceQuoteGo_pend_quote_run (Bool.not_eq_true _ ▸ hw) hq p hr cs⟩
    by_cases hs : isSentencePunct c = true
    · exact ⟨p :: run, some (c, []), fun cs =>
        sentenceQuoteGo_pend_sp (Bool.not_eq_true _ ▸ hw) (Bool.not_eq_true _ ▸ hqr) hs p cs⟩
    · refine ⟨(p :: run) ++ [c], none, fun cs => ?_⟩
      rw [sentenceQuoteGo_pend_other (Bool.not_eq_true _ ▸ hw) (Bool.not_eq_true _ ▸ hqr)
        (Bool.not_eq_true _ ▸ hs) p cs]
      simp

theorem listSpaceGo_step (st : ListSpaceState) (c : Char) :
    ∃ e st', ∀ cs, listSpaceGo st (c :: cs) = e ++ listSpaceGo st' cs := by
  match st with
  | .start =>
    by_cases hw : isJsWs c = true
    · exact ⟨[], .wsRun [c], fun cs => listSpaceGo_start_ws hw cs⟩
    by_cases hl : isListPunct c = true
    · exact ⟨[], .punct [] c [], fun cs =>
        listSpaceGo_start_lp (Bool.not_eq_true _ ▸ hw) hl cs⟩
    · exact ⟨[c], .start, fun cs =>
        listSpaceGo_start_other (Bool.not_eq_true _ ▸ hw) (Bool.not_eq_true _ ▸ hl) cs⟩
  | .wsRun run =>
    by_cases hw : isJsWs c = true
    · exact ⟨[], .wsRun (run ++ [c]), fun cs => listSpaceGo_ws_ws hw run cs⟩
    by_cases hl : isListPunct c = true
    · exact ⟨[], .punct run c [], fun cs =>
        listSpaceGo_ws_lp (Bool.not_eq_true _ ▸ hw) hl run cs⟩
    · refine ⟨run ++ [c], .start, fun cs => ?_⟩
      rw [listSpaceGo_ws_other (Bool.not_eq_true _ ▸ hw) (Bool.not_eq_true _ ▸ hl) run cs]
      simp
  | .punct run d trail =>
    by_cases hw : isJsWs c = true
    · exact ⟨[], .punct run d (trail ++ [c]), fun cs => listSpaceGo_punct_ws hw run d trail cs⟩
    by_cases hq : isQuote c = true
    · match htl : trail.getLast? with
      | none =>
        have htrail : trail = [] := by
          cases trail with
          | nil => rfl
          | cons a l => simp [List.getLast?_concat] at htl
        refine ⟨run ++ [d, c], .start, fun cs => ?_⟩
        rw [htrail, listSpaceGo_punct_quote_nil (Bool.not_eq_true _ ▸ hw) hq run d cs]
        simp
      | some w =>
        exact ⟨[d, ' ', w, c], .start, fun cs =>
          listSpaceGo_punct_quote_trail (Bool.not_eq_true _ ▸ hw) hq run d htl cs⟩
    by_cases hl : isListPunct c = true
    · exact ⟨[d, ' '], .punct [] c [], fun cs =>
        listSpaceGo_punct_lp (Bool.not_eq_true _ ▸ hw) (Bool.not_eq_true _ ▸ hq) hl run d trail cs⟩
    · exact ⟨[d, ' ', c], .start, fun cs =>
        listSpaceGo_punct_other (Bool.not_eq_true _ ▸ hw) (Bool.not_eq_true _ ▸ hq)
          (Bool.not_eq_true _ ▸ hl) run d trail cs⟩

theorem wsCollapseGo_step (b : Bool) (c : Char) :
    ∃ e b', ∀ cs, wsCollapseGo b (c :: cs) = e ++ wsCollapseGo b' cs := by
  by_cases h : isJsWs c = true
  · cases b
    · exact ⟨[' '], true, fun cs => wsCollapseGo_ws_false h cs⟩
    · exact ⟨[], true, fun cs => wsCollapseGo_ws_true h cs⟩
  · exact ⟨[c], false, fun cs => wsCollapseGo_other (Bool.not_eq_true _ ▸ h) b cs⟩

/-! ## Survival of a punctuation-quote adjacency

If a sentence-ending punctuation character is immediately followed by an ASCII
quote character, no stage of the pipeline separates the two: stage 4's
lookahead rejects the match, stage 5 requires at least one whitespace
character, and the remaining stages never write between two adjacent
non-whitespace characters. -/

theorem scanGo_adj {σ : Type} (go : σ → List Char → List Char) (p q : Char)
    (step : ∀ st c, ∃ e st', ∀ cs, go st (c :: cs) = e ++ go st' cs)
    (base : ∀ st v, ∃ u' v', go st (p :: q :: v) = u' ++ p :: q :: v') :
    ∀ (u : List Char) (st : σ) (v : List Char),
      ∃ u' v', go st (u ++ p :: q :: v) = u' ++ p :: q :: v' := by
  intro u
  induction u with
  | nil => intro st v; exact base st v
  | cons c u ih =>
    intro st v
    obtain ⟨e, st', hstep⟩ := step st c
    obtain ⟨u', v', h⟩ := ih st' v
    exact ⟨e ++ u', v', by rw [List.cons_append, hstep, h, List.append_assoc]⟩

theorem nlTab_adj {p q : Char} (hp : isSentencePunct p = true) (hq : isQuote q = true)
    (u : List Char) (b : Bool) (v : List Char) :
    ∃ u' v', nlTabGo b (u ++ p :: q :: v) = u' ++ p :: q :: v' := by
  refine scanGo_adj nlTabGo p q nlTabGo_step (fun b v => ?_) u b v
  refine ⟨[], nlTabGo false v, ?_⟩
  rw [nlTabGo_other (sp_not_nlTab hp) b, nlTabGo_other (quote_not_nlTab hq) false]
  rfl

theorem sentenceSpace_adj {p q : Char} (hp : isSentencePunct p = true)
    (hq : isQuote q = true) (u : List Char) (st : Option (Char × Option Char))
    (v : List Char) :
    ∃ u' v', sentenceSpaceGo st (u ++ p :: q :: v) = u' ++ p :: q :: v' := by
  refine scanGo_adj sentenceSpaceGo p q sentenceSpaceGo_step (fun st v => ?_) u st v
  match st with
  | none =>
    refine ⟨[], sentenceSpaceGo none v, ?_⟩
    rw [sentenceSpaceGo_none_sp hp, sentenceSpaceGo_pend_quote_none (quote_not_ws hq) hq]
    rfl
  | some (p2, lw) =>
    refine ⟨[p2, ' '], sentenceSpaceGo none v, ?_⟩
    rw [sentenceSpaceGo_pend_sp (sp_not_ws hp) (sp_not_quote hp) hp p2 lw,
      sentenceSpaceGo_pend_quote_none (quote_not_ws hq) hq]
    rfl

theorem sentenceQuote_adj {p q : Char} (hp : isSentencePunct p = true)
    (hq : isQuote q = true) (u : List Char) (st : Option (Char × List Char))
    (v : List Char) :
    ∃ u' v', sentenceQuoteGo st (u ++ p :: q :: v) = u' ++ p :: q :: v' := by
  have hq2 : (isQuote q && !List.isEmpty ([] : List Char)) = false := by
    simp
  match st with
  | none =>
    refine scanGo_adj sentenceQuoteGo p q sentenceQuoteGo_step (fun st v => ?_) u none v
    match st with
    | none =>
      refine ⟨[], sentenceQuoteGo none v, ?_⟩
      rw [sentenceQuoteGo_none_sp hp,
        sentenceQuoteGo_pend_other (quote_not_ws hq) hq2 (quote_not_sp hq) p]
      rfl
    | some (p2, run) =>
      refine ⟨p2 :: run, sentenceQuoteGo none v, ?_⟩
      have hpq : (isQuote p && !List.isEmpty run) = false := by
        rw [sp_not_quote hp]
        rfl
      rw [sentenceQuoteGo_pend_sp (sp_not_ws hp) hpq hp p2,
        sentenceQuoteGo_pend_other (quote_not_ws hq) hq2 (quote_not_sp hq) p]
      simp
  | some st0 =>
    refine scanGo_adj sentenceQuoteGo p q sentenceQuoteGo_step (fun st v => ?_) u (some st0) v
    match st with
    | none =>
      refine ⟨[], sentenceQuoteGo none v, ?_⟩
      rw [sentenceQuoteGo_none_sp hp,
        sentenceQuoteGo_pend_other (quote_not_ws hq) hq2 (quote_not_sp hq) p]
      rfl
    | some (p2, run) =>
      refine ⟨p2 :: run, sentenceQuoteGo none v, ?_⟩
      have hpq : (isQuote p && !List.isEmpty run) = false := by
        rw [sp_not_quote hp]
        rfl
      rw [sentenceQuoteGo_pend_sp (sp_not_ws hp) hpq hp p2,
        sentenceQuoteGo_pend_other (quote_not_ws hq) hq2 (quote_not_sp hq) p]
      simp

theorem listSpace_adj {p q : Char} (hp : isSentencePunct p = true)
    (hq : isQuote q = true) (u : List Char) (st : ListSpaceState) (v : List Char) :
    ∃ u' v', listSpaceGo st (u ++ p :: q :: v) = u' ++ p :: q :: v' := by
  refine scanGo_adj listSpaceGo p q listSpaceGo_step (fun st v => ?_) u st v
  have hqstep : listSpaceGo .start (q :: v) = q :: listSpaceGo .start v :=
    listSpaceGo_start_other (quote_not_ws hq) (quote_not_lp hq) v
  match st with
  | .start =>
    refine ⟨[], listSpaceGo .start v, ?_⟩
    rw [listSpaceGo_start_other (sp_not_ws hp) (sp_not_lp hp), hqstep]
    rfl
  | .wsRun run =>
    refine ⟨run, listSpaceGo .start v, ?_⟩
    rw [listSpaceGo_ws_other (sp_not_ws hp) (sp_not_lp hp), hqstep]
  | .punct run d trail =>
    refine ⟨[d, ' '], listSpaceGo .start v, ?_⟩
    rw [listSpaceGo_punct_other (sp_not_ws hp) (sp_not_quote hp) (sp_not_lp hp), hqstep]
    rfl

theorem wsCollapse_adj {p q : Char} (hp : isSentencePunct p = true)
    (hq : isQuote q = true) (u : List Char) (b : Bool) (v : List Char) :
    ∃ u' v', wsCollapseGo b (u ++ p :: q :: v) = u' ++ p :: q :: v' := by
  refine scanGo_adj wsCollapseGo p q wsCollapseGo_step (fun b v => ?_) u b v
  refine ⟨[], wsCollapseGo false v, ?_⟩
  rw [wsCollapseGo_other (sp_not_ws hp) b, wsCollapseGo_other (quote_not_ws hq) false]
  rfl

theorem dropWhile_ws_adj {a : Char} (ha : isJsWs a = false) :
    ∀ (u w : List Char), ∃ u', List.dropWhile isJsWs (u ++ a :: w) = u' ++ a :: w := by
  intro u w
  induction u with
  | nil =>
    refine ⟨[], ?_⟩
    rw [List.nil_append, List.dropWhile_cons_of_neg (by simp [ha])]
  | cons c u ih =>
    by_cases hc : isJsWs c = true
    · obtain ⟨u', h⟩ := ih
      exact ⟨u', by rw [List.cons_append, List.dropWhile_cons_of_pos (by simp [hc]), h]⟩
    · exact ⟨c :: u, by
        rw [List.cons_append, List.dropWhile_cons_of_neg (by simp [hc])]⟩

theorem jsTrim_adj {p q : Char} (hp : isJsWs p = false) (hq : isJsWs q = false)
    (u v : List Char) :
    ∃ u' v', jsTrim (u ++ p :: q :: v) = u' ++ p :: q :: v' := by
  obtain ⟨u', h1⟩ := dropWhile_ws_adj hp u (q :: v)
  obtain ⟨v'', h2⟩ := dropWhile_ws_adj hq v.reverse (p :: u'.reverse)
  refine ⟨u'.reverse.reverse, v''.reverse, ?_⟩
  unfold jsTrim
  rw [h1]
  have : (u' ++ p :: q :: v).reverse = v.reverse ++ q :: p :: u'.reverse := by
    simp
  rw [this, h2]
  simp

theorem map_pair_adj {f : Char → Char} {p q : Char} (hfp : f p = p) (hfq : f q = q)
    (u v : List Char) :
    (u ++ p :: q :: v).map f = u.map f ++ p :: q :: v.map f := by
  simp [hfp, hfq]

/-- Claim C6, amended: when sentence punctuation is immediately followed by an
ASCII quote character, `normalizeText` (default options) keeps the two
characters adjacent — no space is inserted between them (stage 4's lookahead
rejects the match and stage 5 requires preexisting whitespace). -/
theorem normalizeText_punct_quote_adjacent (u v : List Char) (p q : Char)
    (hp : isSentencePunct p = true) (hq : isQuote q = true) :
    ∃ u' v', (normalizeText ⟨u ++ p :: q :: v⟩ defaultNormalizeOptions).data =
      u' ++ p :: q :: v' := by
  show ∃ u' v', normalizeChars (u ++ p :: q :: v) defaultNormalizeOptions = _
  unfold normalizeChars defaultNormalizeOptions
  rw [map_pair_adj (quoteMapChar_sp hp) (quoteMapChar_quote hq)]
  obtain ⟨u1, v1, h1⟩ := nlTab_adj hp hq (u.map quoteMapChar) false (v.map quoteMapChar)
  obtain ⟨u2, v2, h2⟩ := sentenceSpace_adj hp hq u1 none v1
  obtain ⟨u3, v3, h3⟩ := sentenceQuote_adj hp hq u2 none v2
  obtain ⟨u4, v4, h4⟩ := listSpace_adj hp hq u3 .start v3
  obtain ⟨u5, v5, h5⟩ := wsCollapse_adj hp hq u4 false v4
  obtain ⟨u6, v6, h6⟩ := jsTrim_adj (sp_not_ws hp) (quote_not_ws hq) u5 v5
  refine ⟨u6.map jsToLowerChar, v6.map jsToLowerChar, ?_⟩
  show jsToLower (jsTrim (wsCollapse (listQuote (listSpace (sentenceQuote (sentenceSpace
    (nlTabCollapse _))))))) = _
  unfold nlTabCollapse sentenceSpace sentenceQuote listSpace wsCollapse
  rw [h1, h2, h3, h4, listQuote_id, h5, h6]
  unfold jsToLower
  rw [map_pair_adj (jsToLowerChar_sp hp) (jsToLowerChar_quote hq)]

/-- Counterexample to claim C6 as stated: for the input consisting of `.`
immediately followed by a single quote, the output of `normalizeText` with
default options is the same two adjacent characters — there is no occurrence
of punctuation-space-quote in the output, i.e. no space was produced between
the punctuation mark and the quote. -/
theorem normalizeText_punct_quote_counterexample :
    (normalizeText ⟨['.', '\'']⟩ defaultNormalizeOptions).data = ['.', '\''] ∧
    ¬ ∃ u' v', (normalizeText ⟨['.', '\'']⟩ defaultNormalizeOptions).data =
      u' ++ '.' :: ' ' :: '\'' :: v' := by
  refine ⟨by decide, ?_⟩
  rintro ⟨u', v', h⟩
  have hd : (normalizeText ⟨['.', '\'']⟩ defaultNormalizeOptions).data = ['.', '\''] := by
    decide
  rw [hd] at h
  have hlen := congrArg List.length h
  simp [List.length_append] at hlen
  omega

/-- Witness for `normalizeText_punct_quote_adjacent` at the concrete input
`.'`. -/
theorem normalizeText_punct_quote_adjacent_witness :
    ∃ u' v', (normalizeText ⟨[] ++ '.' :: '\'' :: []⟩ defaultNormalizeOptions).data =
      u' ++ '.' :: '\'' :: v' :=
  normalizeText_punct_quote_adjacent [] [] '.' '\'' (by decide) (by decide)

/-! ## The canonical form of normalized text

`canon` characterizes the image of `normalizeText` with default options (up to
the lowercase and smart-quote conditions, which are handled separately):
* the only whitespace character is a single space, never doubled, and never at
  either end;
* sentence punctuation is followed by end-of-string, a quote, a space, or a
  list-punctuation character that is itself followed by a space or the end;
* list punctuation is followed by end-of-string, a quote, or a space;
* a space directly before list punctuation occurs only when the preceding
  character is itself list punctuation (comma chains), or when the list
  punctuation is immediately followed by a quote (the lookahead-rejected
  pattern). -/

def afterP : List Char → Bool
  | [] => true
  | h :: r2 =>
    if isQuote h then true
    else if h = ' ' then true
    else if isListPunct h then
      match r2 with
      | [] => true
      | h2 :: _ => h2 == ' '
    else false

def afterD : List Char → Bool
  | [] => true
  | h :: _ => isQuote h || h == ' '

def noSpLP : List Char → Bool
  | ' ' :: d :: r3 =>
    if isListPunct d then
      match r3 with
      | q :: _ => isQuote q
      | [] => false
    else true
  | _ => true

def spaceNext : List Char → Bool
  | [] => false
  | c2 :: _ => !(c2 == ' ')

def canonStepOk (c : Char) (rest : List Char) : Bool :=
  if c = ' ' then spaceNext rest
  else if isJsWs c then false
  else if isSentencePunct c then afterP rest && noSpLP rest
  else if isListPunct c then afterD rest
  else noSpLP rest

def canonAux : List Char → Bool
  | [] => true
  | c :: rest => canonStepOk c rest && canonAux rest

def canon (l : List Char) : Bool :=
  (match l with
   | ' ' :: _ => false
   | _ => true) && canonAux l && noSpLP l

/-! Extraction helpers for `canonAux`. -/

theorem canonAux_cons {c : Char} {rest : List Char} (h : canonAux (c :: rest) = true) :
    canonStepOk c rest = true ∧ canonAux rest = true := by
  have := h
  rw [canonAux, Bool.and_eq_true] at this
  exact this

theorem canon_not_ws {c : Char} {rest : List Char} (h : canonStepOk c rest = true)
    (hc : c ≠ ' ') : isJsWs c = false := by
  simp only [canonStepOk, if_neg hc] at h
  by_cases hw : isJsWs c = true
  · rw [if_pos hw] at h
    exact absurd h (by simp)
  · exact Bool.not_eq_true _ ▸ hw

theorem canon_space_next {rest : List Char} (h : canonStepOk ' ' rest = true) :
    ∃ c2 r2, rest = c2 :: r2 ∧ c2 ≠ ' ' := by
  simp only [canonStepOk, if_pos rfl] at h
  match rest with
  | [] => exact absurd h (by simp [spaceNext])
  | c2 :: r2 =>
    refine ⟨c2, r2, rfl, ?_⟩
    simp only [spaceNext] at h
    simpa using h

theorem canon_sp_parts {c : Char} {rest : List Char} (hc : isSentencePunct c = true)
    (h : canonStepOk c rest = true) : afterP rest = true ∧ noSpLP rest = true := by
  have hne : c ≠ ' ' := by
    intro hcc
    rw [hcc] at hc
    exact absurd hc (by decide)
  simp only [canonStepOk, if_neg hne, if_neg (by simp [sp_not_ws hc] : ¬isJsWs c = true),
    if_pos hc, Bool.and_eq_true] at h
  exact h

theorem canon_lp_parts {c : Char} {rest : List Char} (hc : isListPunct c = true)
    (h : canonStepOk c rest = true) : afterD rest = true := by
  have hne : c ≠ ' ' := by
    intro hcc
    rw [hcc] at hc
    exact absurd hc (by decide)
  simp only [canonStepOk, if_neg hne, if_neg (by simp [lp_not_ws hc] : ¬isJsWs c = true),
    if_neg (by simp [lp_not_sp hc] : ¬isSentencePunct c = true), if_pos hc] at h
  exact h

theorem canon_other_parts {c : Char} {rest : List Char} (hs : isSentencePunct c = false)
    (hl : isListPunct c = false) (hc : c ≠ ' ') (hw : isJsWs c = false)
    (h : canonStepOk c rest = true) : noSpLP rest = true := by
  simp only [canonStepOk, if_neg hc, if_neg (by simp [hw] : ¬isJsWs c = true),
    if_neg (by simp [hs] : ¬isSentencePunct c = true),
    if_neg (by simp [hl] : ¬isListPunct c = true)] at h
  exact h

/-! ## Explicit description of stage 4 on canonical text

On a canonical string, stage 4 (`sentenceSpace`) acts as `e4`: after each
sentence-punctuation character it inserts one space when the next character is
neither a quote nor a space (or the string ends), inserts an extra space into
a punctuation-space-quote pattern (the backtracking case), and leaves
everything else unchanged. -/

def e4 : List Char → List Char
  | [] => []
  | c :: rest =>
    if isSentencePunct c then
      match rest with
      | [] => [c, ' ']
      | h :: r2 =>
        if isQuote h then c :: h :: e4 r2
        else if h = ' ' then
          match r2 with
          | [] => [c, ' ']
          | h2 :: r3 =>
            if isQuote h2 then c :: ' ' :: ' ' :: h2 :: e4 r3
            else c :: ' ' :: e4 (h2 :: r3)
        else c :: ' ' :: e4 (h :: r2)
    else c :: e4 rest

/-- Net effect of stages 4 and 5 on canonical text: a single space is inserted
after sentence punctuation exactly when the next character is neither a quote
nor a space, or the string ends there (the double space produced by stage 4 in
the punctuation-space-quote pattern is collapsed back by stage 5). -/
def e45 : List Char → List Char
  | [] => []
  | c :: rest =>
    if isSentencePunct c then
      match rest with
      | [] => [c, ' ']
      | h :: r2 =>
        if isQuote h then c :: h :: e45 r2
        else if h = ' ' then
          match r2 with
          | [] => [c, ' ']
          | h2 :: r3 =>
            if isQuote h2 then c :: ' ' :: h2 :: e45 r3
            else c :: ' ' :: e45 (h2 :: r3)
        else c :: ' ' :: e45 (h :: r2)
    else c :: e45 rest

theorem isQuote_space : isQuote ' ' = false := by decide

theorem e4_nil : e4 [] = [] := rfl

theorem e4_not_sp {c : Char} (hc : isSentencePunct c = false) (rest : List Char) :
    e4 (c :: rest) = c :: e4 rest := by
  rw [e4.eq_def]
  simp [hc]

theorem e4_sp_nil {c : Char} (hc : isSentencePunct c = true) : e4 [c] = [c, ' '] := by
  rw [e4.eq_def]
  simp [hc]

theorem e4_sp_quote {c h : Char} (hc : isSentencePunct c = true) (hq : isQuote h = true)
    (r2 : List Char) : e4 (c :: h :: r2) = c :: h :: e4 r2 := by
  rw [e4.eq_def]
  simp [hc, hq]

theorem e4_sp_space_nil {c : Char} (hc : isSentencePunct c = true) :
    e4 [c, ' '] = [c, ' '] := by
  rw [e4.eq_def]
  simp [hc, isQuote_space]

theorem e4_sp_space_quote {c h2 : Char} (hc : isSentencePunct c = true)
    (hq2 : isQuote h2 = true) (r3 : List Char) :
    e4 (c :: ' ' :: h2 :: r3) = c :: ' ' :: ' ' :: h2 :: e4 r3 := by
  rw [e4.eq_def]
  simp [hc, hq2, isQuote_space]

theorem e4_sp_space_other {c h2 : Char} (hc : isSentencePunct c = true)
    (hq2 : isQuote h2 = false) (r3 : List Char) :
    e4 (c :: ' ' :: h2 :: r3) = c :: ' ' :: e4 (h2 :: r3) := by
  rw [e4.eq_def]
  simp [hc, hq2]

theorem e4_sp_other {c h : Char} (hc : isSentencePunct c = true) (hq : isQuote h = false)
    (hsp : h ≠ ' ') (r2 : List Char) :
    e4 (c :: h :: r2) = c :: ' ' :: e4 (h :: r2) := by
  rw [e4.eq_def]
  simp [hc, hq, hsp]

theorem e45_nil : e45 [] = [] := rfl

theorem e45_not_sp {c : Char} (hc : isSentencePunct c = false) (rest : List Char) :
    e45 (c :: rest) = c :: e45 rest := by
  rw [e45.eq_def]
  simp [hc]

theorem e45_sp_nil {c : Char} (hc : isSentencePunct c = true) : e45 [c] = [c, ' '] := by
  rw [e45.eq_def]
  simp [hc]

theorem e45_sp_quote {c h : Char} (hc : isSentencePunct c = true) (hq : isQuote h = true)
    (r2 : List Char) : e45 (c :: h :: r2) = c :: h :: e45 r2 := by
  rw [e45.eq_def]
  simp [hc, hq]

theorem e45_sp_space_nil {c : Char} (hc : isSentencePunct c = true) :
    e45 [c, ' '] = [c, ' '] := by
  rw [e45.eq_def]
  simp [hc, isQuote_space]

theorem e45_sp_space_quote {c h2 : Char} (hc : isSentencePunct c = true)
    (hq2 : isQuote h2 = true) (r3 : List Char) :
    e45 (c :: ' ' :: h2 :: r3) = c :: ' ' :: h2 :: e45 r3 := by
  rw [e45.eq_def]
  simp [hc, hq2, isQuote_space]

theorem e45_sp_space_other {c h2 : Char} (hc : isSentencePunct c = true)
    (hq2 : isQuote h2 = false) (r3 : List Char) :
    e45 (c :: ' ' :: h2 :: r3) = c :: ' ' :: e45 (h2 :: r3) := by
  rw [e45.eq_def]
  simp [hc, hq2]

theorem e45_sp_other {c h : Char} (hc : isSentencePunct c = true) (hq : isQuote h = false)
    (hsp : h ≠ ' ') (r2 : List Char) :
    e45 (c :: h :: r2) = c :: ' ' :: e45 (h :: r2) := by
  rw [e45.eq_def]
  simp [hc, hq, hsp]

theorem e45_head (c : Char) (rest : List Char) : ∃ t2, e45 (c :: rest) = c :: t2 := by
  by_cases hc : isSentencePunct c = true
  · match rest with
    | [] => exact ⟨[' '], e45_sp_nil hc⟩
    | h :: r2 =>
      by_cases hq : isQuote h = true
      · exact ⟨h :: e45 r2, e45_sp_quote hc hq r2⟩
      by_cases hsp : h = ' '
      · subst hsp
        match r2 with
        | [] => exact ⟨[' '], e45_sp_space_nil hc⟩
        | h2 :: r3 =>
          by_cases hq2 : isQuote h2 = true
          · exact ⟨_, e45_sp_space_quote hc hq2 r3⟩
          · exact ⟨_, e45_sp_space_other hc (Bool.not_eq_true _ ▸ hq2) r3⟩
      · exact ⟨_, e45_sp_other hc (Bool.not_eq_true _ ▸ hq) hsp r2⟩
  · exact ⟨_, e45_not_sp (Bool.not_eq_true _ ▸ hc) rest⟩

theorem canon_space_next_cons {x : Char} {xs : List Char}
    (h : canonStepOk ' ' (x :: xs) = true) : x ≠ ' ' := by
  simp only [canonStepOk, if_pos rfl, spaceNext] at h
  simpa using h

/-- Stage 4 acts as `e4` on canonical text. -/
theorem sentenceSpace_on_canon : ∀ t, canonAux t = true → sentenceSpaceGo none t = e4 t := by
  have H : ∀ n t, List.length t ≤ n → canonAux t = true →
      sentenceSpaceGo none t = e4 t := by
    intro n
    induction n with
    | zero =>
      intro t ht _
      rw [List.length_eq_zero.mp (Nat.le_zero.mp ht)]
      rfl
    | succ n ih =>
      intro t ht hc
      match t with
      | [] => rfl
      | c :: rest =>
        obtain ⟨hstep, hrest⟩ := canonAux_cons hc
        have hlrest : rest.length ≤ n := by
          simp only [List.length_cons] at ht
          omega
        by_cases hsp : isSentencePunct c = true
        · rw [sentenceSpaceGo_none_sp hsp]
          match rest with
          | [] => rw [sentenceSpaceGo_pend_nil, e4_sp_nil hsp]
          | h :: r2 =>
            obtain ⟨hstep2, hr2⟩ := canonAux_cons hrest
            have hlr2 : r2.length ≤ n := by
              simp only [List.length_cons] at hlrest ⊢
              omega
            by_cases hq : isQuote h = true
            · rw [sentenceSpaceGo_pend_quote_none (quote_not_ws hq) hq,
                e4_sp_quote hsp hq, ih r2 (by omega) hr2]
            by_cases hspc : h = ' '
            · subst hspc
              rw [sentenceSpaceGo_pend_ws space_ws]
              match r2 with
              | [] => rw [sentenceSpaceGo_pend_nil, e4_sp_space_nil hsp]
              | h2 :: r3 =>
                obtain ⟨hstep3, hr3⟩ := canonAux_cons hr2
                have hh2 : h2 ≠ ' ' := canon_space_next_cons hstep2
                have hw2 : isJsWs h2 = false := canon_not_ws hstep3 hh2
                by_cases hq2 : isQuote h2 = true
                · rw [sentenceSpaceGo_pend_quote_some hw2 hq2,
                    e4_sp_space_quote hsp hq2,
                    ih r3 (by simp only [List.length_cons] at hlr2; omega) hr3]
                · have hq2f : isQuote h2 = false := Bool.not_eq_true _ ▸ hq2
                  rw [e4_sp_space_other hsp hq2f]
                  have key : sentenceSpaceGo (some (c, some ' ')) (h2 :: r3) =
                      c :: ' ' :: sentenceSpaceGo none (h2 :: r3) := by
                    by_cases hsp2 : isSentencePunct h2 = true
                    · rw [sentenceSpaceGo_pend_sp hw2 hq2f hsp2,
                        sentenceSpaceGo_none_sp hsp2]
                    · have hsp2f := Bool.not_eq_true _ ▸ hsp2
                      rw [sentenceSpaceGo_pend_other hw2 hq2f hsp2f,
                        sentenceSpaceGo_none_other hsp2f]
                  rw [key, ih (h2 :: r3) hlr2 hr2]
            · have hqf : isQuote h = false := Bool.not_eq_true _ ▸ hq
              have hwh : isJsWs h = false := canon_not_ws hstep2 hspc
              rw [e4_sp_other hsp hqf hspc]
              have key : sentenceSpaceGo (some (c, none)) (h :: r2) =
                  c :: ' ' :: sentenceSpaceGo none (h :: r2) := by
                by_cases hsp2 : isSentencePunct h = true
                · rw [sentenceSpaceGo_pend_sp hwh hqf hsp2, sentenceSpaceGo_none_sp hsp2]
                · have hsp2f := Bool.not_eq_true _ ▸ hsp2
                  rw [sentenceSpaceGo_pend_other hwh hqf hsp2f,
                    sentenceSpaceGo_none_other hsp2f]
              rw [key, ih (h :: r2) hlrest hrest]
        · have hspf : isSentencePunct c = false := Bool.not_eq_true _ ▸ hsp
          rw [sentenceSpaceGo_none_other hspf, e4_not_sp hspf, ih rest hlrest hrest]
  intro t
  exact H t.length t le_rfl

theorem e4_head (c : Char) (rest : List Char) : ∃ t2, e4 (c :: rest) = c :: t2 := by
  by_cases hc : isSentencePunct c = true
  · match rest with
    | [] => exact ⟨[' '], e4_sp_nil hc⟩
    | h :: r2 =>
      by_cases hq : isQuote h = true
      · exact ⟨h :: e4 r2, e4_sp_quote hc hq r2⟩
      by_cases hsp : h = ' '
      · subst hsp
        match r2 with
        | [] => exact ⟨[' '], e4_sp_space_nil hc⟩
        | h2 :: r3 =>
          by_cases hq2 : isQuote h2 = true
          · exact ⟨_, e4_sp_space_quote hc hq2 r3⟩
          · exact ⟨_, e4_sp_space_other hc (Bool.not_eq_true _ ▸ hq2) r3⟩
      · exact ⟨_, e4_sp_other hc (Bool.not_eq_true _ ▸ hq) hsp r2⟩
  · exact ⟨_, e4_not_sp (Bool.not_eq_true _ ▸ hc) rest⟩

/-- Resolving stage 5's pending punctuation-plus-one-space state on a
non-whitespace, non-quote character emits the pending characters verbatim. -/
theorem sentenceQuoteGo_resolve (p h : Char) (hw : isJsWs h = false)
    (hq : isQuote h = false) (t2 : List Char) :
    sentenceQuoteGo (some (p, [' '])) (h :: t2) =
      p :: ' ' :: sentenceQuoteGo none (h :: t2) := by
  have hqr : (isQuote h && !List.isEmpty [' ']) = false := by
    rw [hq]
    rfl
  by_cases hsp : isSentencePunct h = true
  · rw [sentenceQuoteGo_pend_sp hw hqr hsp, sentenceQuoteGo_none_sp hsp]
    rfl
  · have hspf := Bool.not_eq_true _ ▸ hsp
    rw [sentenceQuoteGo_pend_other hw hqr hspf, sentenceQuoteGo_none_other hspf]
    rfl

/-- Stage 5 applied to the stage-4 image of canonical text acts as `e45`. -/
theorem sentenceQuote_on_e4 : ∀ t, canonAux t = true →
    sentenceQuoteGo none (e4 t) = e45 t := by
  have H : ∀ n t, List.length t ≤ n → canonAux t = true →
      sentenceQuoteGo none (e4 t) = e45 t := by
    intro n
    induction n with
    | zero =>
      intro t ht _
      rw [List.length_eq_zero.mp (Nat.le_zero.mp ht)]
      rfl
    | succ n ih =>
      intro t ht hc
      match t with
      | [] => rfl
      | c :: rest =>
        obtain ⟨hstep, hrest⟩ := canonAux_cons hc
        have hlrest : rest.length ≤ n := by
          simp only [List.length_cons] at ht
          omega
        by_cases hsp : isSentencePunct c = true
        · have hcq : (isQuote c && !List.isEmpty ([] : List Char)) = false := by
            rw [sp_not_quote hsp]
            rfl
          match rest with
          | [] =>
            rw [e4_sp_nil hsp, e45_sp_nil hsp, sentenceQuoteGo_none_sp hsp,
              sentenceQuoteGo_pend_ws space_ws, sentenceQuoteGo_pend_nil]
            rfl
          | h :: r2 =>
            obtain ⟨hstep2, hr2⟩ := canonAux_cons hrest
            have hlr2 : r2.length ≤ n := by
              simp only [List.length_cons] at hlrest ⊢
              omega
            by_cases hq : isQuote h = true
            · have hhq : (isQuote h && !List.isEmpty ([] : List Char)) = false := by
                simp
              rw [e4_sp_quote hsp hq, e45_sp_quote hsp hq, sentenceQuoteGo_none_sp hsp,
                sentenceQuoteGo_pend_other (quote_not_ws hq) hhq (quote_not_sp hq),
                ih r2 (by omega) hr2]
              rfl
            by_cases hspc : h = ' '
            · subst hspc
              match r2 with
              | [] =>
                rw [e4_sp_space_nil hsp, e45_sp_space_nil hsp, sentenceQuoteGo_none_sp hsp,
                  sentenceQuoteGo_pend_ws space_ws, sentenceQuoteGo_pend_nil]
                rfl
              | h2 :: r3 =>
                obtain ⟨hstep3, hr3⟩ := canonAux_cons hr2
                have hh2 : h2 ≠ ' ' := canon_space_next_cons hstep2
                have hw2 : isJsWs h2 = false := canon_not_ws hstep3 hh2
                by_cases hq2 : isQuote h2 = true
                · have hrun : ([' ', ' '] : List Char) ≠ [] := by simp
                  rw [e4_sp_space_quote hsp hq2, e45_sp_space_quote hsp hq2,
                    sentenceQuoteGo_none_sp hsp, sentenceQuoteGo_pend_ws space_ws,
                    sentenceQuoteGo_pend_ws space_ws]
                  simp only [List.nil_append, List.singleton_append]
                  rw [sentenceQuoteGo_pend_quote_run hw2 hq2 c hrun,
                    ih r3 (by simp only [List.length_cons] at hlr2; omega) hr3]
                · have hq2f : isQuote h2 = false := Bool.not_eq_true _ ▸ hq2
                  rw [e4_sp_space_other hsp hq2f, e45_sp_space_other hsp hq2f]
                  obtain ⟨t2, ht2⟩ := e4_head h2 r3
                  rw [sentenceQuoteGo_none_sp hsp, sentenceQuoteGo_pend_ws space_ws, ht2]
                  simp only [List.nil_append]
                  rw [sentenceQuoteGo_resolve c h2 hw2 hq2f t2, ← ht2,
                    ih (h2 :: r3) hlr2 hr2]
            · have hqf : isQuote h = false := Bool.not_eq_true _ ▸ hq
              have hwh : isJsWs h = false := canon_not_ws hstep2 hspc
              rw [e4_sp_other hsp hqf hspc, e45_sp_other hsp hqf hspc]
              obtain ⟨t2, ht2⟩ := e4_head h r2
              rw [sentenceQuoteGo_none_sp hsp, sentenceQuoteGo_pend_ws space_ws, ht2]
              simp only [List.nil_append]
              rw [sentenceQuoteGo_resolve c h hwh hqf t2, ← ht2,
                ih (h :: r2) hlrest hrest]
        · have hspf : isSentencePunct c = false := Bool.not_eq_true _ ▸ hsp
          rw [e4_not_sp hspf, e45_not_sp hspf, sentenceQuoteGo_none_other hspf,
            ih rest hlrest hrest]
  intro t
  exact H t.length t le_rfl

/-! ## Explicit description of stage 6 on the stage-4/5 image

`e6 t` describes `listSpace (e45 t)` for canonical `t`; `lpGroup d rest`
describes the processing of a pending list-punctuation character `d` whose
match (if any) has already consumed every character before `d`.  Stage 6
deletes the spaces stage 4 inserted before list punctuation, re-emits a space
after each matched list-punctuation character, duplicates the space of a
list-punctuation/space/quote pattern (its backtracking case, collapsed later
by stage 8), and appends a space when the string ends in punctuation. -/

mutual

def e6 : List Char → List Char
  | [] => []
  | c :: rest =>
    if isSentencePunct c then
      match rest with
      | [] => [c, ' ']
      | h :: r2 =>
        if isQuote h then c :: h :: e6 r2
        else if h = ' ' then
          match r2 with
          | [] => [c, ' ']
          | h2 :: r3 =>
            if isQuote h2 then c :: ' ' :: h2 :: e6 r3
            else if isListPunct h2 then
              match r3 with
              | [] => [c, ' ', h2, ' ']
              | q :: r4 =>
                if isQuote q then c :: ' ' :: h2 :: q :: e6 r4
                else c :: ' ' :: h2 :: ' ' :: e6 (q :: r4)
            else c :: ' ' :: e6 (h2 :: r3)
        else if isListPunct h then c :: lpGroup h r2
        else c :: ' ' :: e6 (h :: r2)
    else if isListPunct c then lpGroup c rest
    else if c = ' ' then
      match rest with
      | [] => [' ']
      | d :: r2 =>
        if isListPunct d then
          match r2 with
          | [] => [' ', d]
          | q :: r3 =>
            if isQuote q then ' ' :: d :: q :: e6 r3
            else ' ' :: d :: e6 (q :: r3)
        else ' ' :: e6 (d :: r2)
    else c :: e6 rest
termination_by l => (l.length, 0)
decreasing_by all_goals simp_arith [Prod.lex_def, List.length_cons]

def lpGroup (d : Char) : List Char → List Char
  | [] => [d, ' ']
  | h :: r2 =>
    if isQuote h then d :: h :: e6 r2
    else if h = ' ' then
      match r2 with
      | [] => [d, ' ']
      | h2 :: r3 =>
        if isQuote h2 then d :: ' ' :: ' ' :: h2 :: e6 r3
        else if isListPunct h2 then d :: ' ' :: lpGroup h2 r3
        else d :: ' ' :: e6 (h2 :: r3)
    else if isListPunct h then d :: ' ' :: lpGroup h r2
    else d :: ' ' :: e6 (h :: r2)
termination_by l => (l.length, 1)
decreasing_by all_goals simp_arith [Prod.lex_def, List.length_cons]

end

theorem e6_nil : e6 [] = [] := by rw [e6.eq_def]

theorem e6_sp_nil {c : Char} (hc : isSentencePunct c = true) : e6 [c] = [c, ' '] := by
  rw [e6.eq_def]
  simp [hc]

theorem e6_sp_quote {c h : Char} (hc : isSentencePunct c = true) (hq : isQuote h = true)
    (r2 : List Char) : e6 (c :: h :: r2) = c :: h :: e6 r2 := by
  rw [e6.eq_def]
  simp [hc, hq]

theorem e6_sp_space_nil {c : Char} (hc : isSentencePunct c = true) :
    e6 [c, ' '] = [c, ' '] := by
  rw [e6.eq_def]
  simp [hc, isQuote_space]

theorem e6_sp_space_quote {c h2 : Char} (hc : isSentencePunct c = true)
    (hq2 : isQuote h2 = true) (r3 : List Char) :
    e6 (c :: ' ' :: h2 :: r3) = c :: ' ' :: h2 :: e6 r3 := by
  rw [e6.eq_def]
  simp [hc, hq2, isQuote_space]

theorem e6_sp_space_lp_quote {c h2 q : Char} (hc : isSentencePunct c = true)
    (hq2 : isQuote h2 = false) (hl2 : isListPunct h2 = true) (hq : isQuote q = true)
    (r4 : List Char) :
    e6 (c :: ' ' :: h2 :: q :: r4) = c :: ' ' :: h2 :: q :: e6 r4 := by
  rw [e6.eq_def]
  simp [hc, hq2, hl2, hq, isQuote_space]

theorem e6_sp_space_other {c h2 : Char} (hc : isSentencePunct c = true)
    (hq2 : isQuote h2 = false) (hl2 : isListPunct h2 = false) (r3 : List Char) :
    e6 (c :: ' ' :: h2 :: r3) = c :: ' ' :: e6 (h2 :: r3) := by
  rw [e6.eq_def]
  simp [hc, hq2, hl2, isQuote_space]

theorem e6_sp_lp {c h : Char} (hc : isSentencePunct c = true) (hq : isQuote h = false)
    (hsp : h ≠ ' ') (hl : isListPunct h = true) (r2 : List Char) :
    e6 (c :: h :: r2) = c :: lpGroup h r2 := by
  rw [e6.eq_def]
  simp [hc, hq, hsp, hl]

theorem e6_sp_other {c h : Char} (hc : isSentencePunct c = true) (hq : isQuote h = false)
    (hsp : h ≠ ' ') (hl : isListPunct h = false) (r2 : List Char) :
    e6 (c :: h :: r2) = c :: ' ' :: e6 (h :: r2) := by
  rw [e6.eq_def]
  simp [hc, hq, hsp, hl]

theorem sp_space : isSentencePunct ' ' = false := by decide

theorem lp_space : isListPunct ' ' = false := by decide

theorem e6_lp {c : Char} (hc : isListPunct c = true) (rest : List Char) :
    e6 (c :: rest) = lpGroup c rest := by
  rw [e6.eq_def]
  simp [lp_not_sp hc, hc]

theorem e6_space_nil : e6 [' '] = [' '] := by
  rw [e6.eq_def]
  simp [sp_space, lp_space]

theorem e6_space_lp_quote {d q : Char} (hd : isListPunct d = true) (hq : isQuote q = true)
    (r3 : List Char) : e6 (' ' :: d :: q :: r3) = ' ' :: d :: q :: e6 r3 := by
  rw [e6.eq_def]
  simp [sp_space, lp_space, hd, hq]

theorem e6_space_other {h : Char} (hl : isListPunct h = false) (r2 : List Char) :
    e6 (' ' :: h :: r2) = ' ' :: e6 (h :: r2) := by
  rw [e6.eq_def]
  simp [sp_space, lp_space, hl]

theorem e6_other {c : Char} (hs : isSentencePunct c = false) (hl : isListPunct c = false)
    (hsp : c ≠ ' ') (rest : List Char) : e6 (c :: rest) = c :: e6 rest := by
  rw [e6.eq_def]
  simp [hs, hl, hsp]

theorem lpGroup_nil (d : Char) : lpGroup d [] = [d, ' '] := by rw [lpGroup.eq_def]

theorem lpGroup_quote {h : Char} (hq : isQuote h = true) (d : Char) (r2 : List Char) :
    lpGroup d (h :: r2) = d :: h :: e6 r2 := by
  rw [lpGroup.eq_def]
  simp [hq]

theorem lpGroup_space_nil (d : Char) : lpGroup d [' '] = [d, ' '] := by
  rw [lpGroup.eq_def]
  simp [isQuote_space]

theorem lpGroup_space_quote {h2 : Char} (hq2 : isQuote h2 = true) (d : Char)
    (r3 : List Char) :
    lpGroup d (' ' :: h2 :: r3) = d :: ' ' :: ' ' :: h2 :: e6 r3 := by
  rw [lpGroup.eq_def]
  simp [hq2, isQuote_space]

theorem lpGroup_space_lp {h2 : Char} (hq2 : isQuote h2 = false) (hl2 : isListPunct h2 = true)
    (d : Char) (r3 : List Char) :
    lpGroup d (' ' :: h2 :: r3) = d :: ' ' :: lpGroup h2 r3 := by
  rw [lpGroup.eq_def]
  simp [hq2, hl2, isQuote_space]

theorem lpGroup_space_other {h2 : Char} (hq2 : isQuote h2 = false)
    (hl2 : isListPunct h2 = false) (d : Char) (r3 : List Char) :
    lpGroup d (' ' :: h2 :: r3) = d :: ' ' :: e6 (h2 :: r3) := by
  rw [lpGroup.eq_def]
  simp [hq2, hl2, isQuote_space]

/-! Extraction lemmas for `noSpLP`, `afterP`, `afterD`. -/

theorem noSpLP_nil : noSpLP [] = true := rfl

theorem noSpLP_not_space {h : Char} (hh : h ≠ ' ') (xs : List Char) :
    noSpLP (h :: xs) = true := by
  rw [noSpLP.eq_def]
  match xs with
  | [] => simp [hh]
  | x :: xs' => simp [hh]

theorem noSpLP_space_lp {d : Char} {r3 : List Char} (hd : isListPunct d = true)
    (h : noSpLP (' ' :: d :: r3) = true) : ∃ q r4, r3 = q :: r4 ∧ isQuote q = true := by
  rw [noSpLP.eq_def] at h
  simp only [hd, if_pos] at h
  match r3 with
  | [] => exact absurd h (by simp)
  | q :: r4 => exact ⟨q, r4, rfl, by simpa using h⟩

theorem afterP_lp {h : Char} {r2 : List Char} (hl : isListPunct h = true)
    (hp : afterP (h :: r2) = true) :
    r2 = [] ∨ ∃ xs, r2 = ' ' :: xs := by
  have hsp : h ≠ ' ' := by
    intro hh
    rw [hh] at hl
    exact absurd hl (by decide)
  rw [afterP.eq_def] at hp
  simp only [lp_not_quote hl, hl, if_neg hsp] at hp
  match r2 with
  | [] => exact Or.inl rfl
  | x :: xs =>
    right
    refine ⟨xs, ?_⟩
    have hx : x = ' ' := by simpa using hp
    rw [hx]

theorem afterD_cases {h : Char} {r2 : List Char} (hd : afterD (h :: r2) = true) :
    isQuote h = true ∨ h = ' ' := by
  rw [afterD.eq_def] at hd
  simp only [Bool.or_eq_true, beq_iff_eq] at hd
  exact hd

theorem quote_not_space {q : Char} (hq : isQuote q = true) : q ≠ ' ' := by
  intro h
  rw [h] at hq
  exact absurd hq (by decide)

theorem canon_quote_noSpLP {h : Char} {r2 : List Char} (hq : isQuote h = true)
    (hstep : canonStepOk h r2 = true) : noSpLP r2 = true :=
  canon_other_parts (quote_not_sp hq) (quote_not_lp hq) (quote_not_space hq)
    (quote_not_ws hq) hstep

/-- Joint characterization of stage 6 on the stage-4/5 image of canonical
text: from a fresh state it acts as `e6`, and with a pending list-punctuation
match it acts as `lpGroup`. -/
theorem listSpace_on_e45_both : ∀ n : Nat,
    (∀ t : List Char, List.length t ≤ n → canonAux t = true → noSpLP t = true →
      listSpaceGo .start (e45 t) = e6 t) ∧
    (∀ (d : Char) (t run : List Char), List.length t ≤ n → afterD t = true →
      canonAux t = true → (∀ x xs, t = x :: xs → isQuote x = true → run = []) →
      listSpaceGo (.punct run d []) (e45 t) = lpGroup d t) := by
  intro n
  induction n with
  | zero =>
    constructor
    · intro t ht _ _
      rw [List.length_eq_zero.mp (Nat.le_zero.mp ht)]
      rw [show e45 [] = [] from rfl, listSpaceGo_start_nil, e6_nil]
    · intro d t run ht _ _ _
      rw [List.length_eq_zero.mp (Nat.le_zero.mp ht)]
      rw [show e45 [] = [] from rfl, listSpaceGo_punct_nil, lpGroup_nil]
  | succ n ihn =>
    obtain ⟨ihP, ihQ⟩ := ihn
    constructor
    · intro t ht hc hns
      match t with
      | [] => rw [show e45 [] = [] from rfl, listSpaceGo_start_nil, e6_nil]
      | c :: rest =>
        obtain ⟨hstep, hrest⟩ := canonAux_cons hc
        have hlr : rest.length ≤ n := by
          simp only [List.length_cons] at ht
          omega
        by_cases hsp : isSentencePunct c = true
        · have hcws : isJsWs c = false := sp_not_ws hsp
          have hclp : isListPunct c = false := sp_not_lp hsp
          obtain ⟨hap, hnsr⟩ := canon_sp_parts hsp hstep
          match rest with
          | [] =>
            rw [e45_sp_nil hsp, e6_sp_nil hsp, listSpaceGo_start_other hcws hclp,
              listSpaceGo_start_ws space_ws, listSpaceGo_ws_nil]
          | h :: r2 =>
            obtain ⟨hstep2, hr2⟩ := canonAux_cons hrest
            have hlr2 : r2.length ≤ n := by
              simp only [List.length_cons] at hlr ⊢
              omega
            by_cases hq : isQuote h = true
            · rw [e45_sp_quote hsp hq, e6_sp_quote hsp hq,
                listSpaceGo_start_other hcws hclp,
                listSpaceGo_start_other (quote_not_ws hq) (quote_not_lp hq),
                ihP r2 (by omega) hr2 (canon_quote_noSpLP hq hstep2)]
            by_cases hspc : h = ' '
            · subst hspc
              match r2 with
              | [] =>
                rw [e45_sp_space_nil hsp, e6_sp_space_nil hsp,
                  listSpaceGo_start_other hcws hclp, listSpaceGo_start_ws space_ws,
                  listSpaceGo_ws_nil]
              | h2 :: r3 =>
                obtain ⟨hstep3, hr3c⟩ := canonAux_cons hr2
                have hh2 : h2 ≠ ' ' := canon_space_next_cons hstep2
                have hw2 : isJsWs h2 = false := canon_not_ws hstep3 hh2
                have hlr3 : r3.length ≤ n := by
                  simp only [List.length_cons] at hlr2
                  omega
                by_cases hq2 : isQuote h2 = true
                · rw [e45_sp_space_quote hsp hq2, e6_sp_space_quote hsp hq2,
                    listSpaceGo_start_other hcws hclp, listSpaceGo_start_ws space_ws,
                    listSpaceGo_ws_other hw2 (quote_not_lp hq2),
                    ihP r3 (by omega) hr3c (canon_quote_noSpLP hq2 hstep3)]
                  rfl
                · have hq2f : isQuote h2 = false := Bool.not_eq_true _ ▸ hq2
                  by_cases hl2 : isListPunct h2 = true
                  · obtain ⟨q, r4, rfl, hqq⟩ := noSpLP_space_lp hl2 hnsr
                    obtain ⟨hstep4, hr4c⟩ := canonAux_cons hr3c
                    rw [e45_sp_space_other hsp hq2f, e45_not_sp (lp_not_sp hl2),
                      e45_not_sp (quote_not_sp hqq),
                      e6_sp_space_lp_quote hsp hq2f hl2 hqq,
                      listSpaceGo_start_other hcws hclp, listSpaceGo_start_ws space_ws,
                      listSpaceGo_ws_lp hw2 hl2,
                      listSpaceGo_punct_quote_nil (quote_not_ws hqq) hqq,
                      ihP r4 (by simp only [List.length_cons] at hlr3; omega) hr4c
                        (canon_quote_noSpLP hqq hstep4)]
                    rfl
                  · have hl2f : isListPunct h2 = false := Bool.not_eq_true _ ▸ hl2
                    rw [e45_sp_space_other hsp hq2f, e6_sp_space_other hsp hq2f hl2f]
                    obtain ⟨t2, ht2⟩ := e45_head h2 r3
                    rw [listSpaceGo_start_other hcws hclp, listSpaceGo_start_ws space_ws,
                      ht2, listSpaceGo_ws_other hw2 hl2f,
                      ← listSpaceGo_start_other hw2 hl2f, ← ht2,
                      ihP (h2 :: r3) hlr2 hr2 (noSpLP_not_space hh2 r3)]
                    rfl
            · have hqf : isQuote h = false := Bool.not_eq_true _ ▸ hq
              have hwh : isJsWs h = false := canon_not_ws hstep2 hspc
              by_cases hl : isListPunct h = true
              · rw [e45_sp_other hsp hqf hspc, e6_sp_lp hsp hqf hspc hl,
                  e45_not_sp (lp_not_sp hl), listSpaceGo_start_other hcws hclp,
                  listSpaceGo_start_ws space_ws, listSpaceGo_ws_lp hwh hl,
                  ihQ h r2 [' '] hlr2 (canon_lp_parts hl hstep2) hr2 ?hrun]
                case hrun =>
                  intro x xs hx hxq
                  exfalso
                  rcases afterP_lp hl hap with h0 | ⟨xs2, h0⟩
                  · rw [h0] at hx
                    exact List.noConfusion hx
                  · rw [h0] at hx
                    have : x = ' ' := (List.cons.injEq _ _ _ _ ▸ hx).1.symm
                    rw [this] at hxq
                    exact absurd hxq (by decide)
              · have hlf : isListPunct h = false := Bool.not_eq_true _ ▸ hl
                rw [e45_sp_other hsp hqf hspc, e6_sp_other hsp hqf hspc hlf]
                obtain ⟨t2, ht2⟩ := e45_head h r2
                rw [listSpaceGo_start_other hcws hclp, listSpaceGo_start_ws space_ws,
                  ht2, listSpaceGo_ws_other hwh hlf,
                  ← listSpaceGo_start_other hwh hlf, ← ht2,
                  ihP (h :: r2) hlr hrest (noSpLP_not_space hspc r2)]
                rfl
        · have hspf : isSentencePunct c = false := Bool.not_eq_true _ ▸ hsp
          by_cases hlp : isListPunct c = true
          · rw [e45_not_sp hspf, e6_lp hlp,
              listSpaceGo_start_lp (lp_not_ws hlp) hlp,
              ihQ c rest [] hlr (canon_lp_parts hlp hstep) hrest
                (fun _ _ _ _ => rfl)]
          · have hlpf : isListPunct c = false := Bool.not_eq_true _ ▸ hlp
            by_cases hspace : c = ' '
            · subst hspace
              match rest with
              | [] =>
                rw [show e45 [' '] = [' '] from rfl, e6_space_nil,
                  listSpaceGo_start_ws space_ws, listSpaceGo_ws_nil]
              | h :: r2 =>
                have hh : h ≠ ' ' := canon_space_next_cons hstep
                obtain ⟨hstep2, hr2⟩ := canonAux_cons hrest
                have hwh : isJsWs h = false := canon_not_ws hstep2 hh
                have hlr2 : r2.length ≤ n := by
                  simp only [List.length_cons] at hlr
                  omega
                by_cases hl : isListPunct h = true
                · obtain ⟨q, r3, rfl, hqq⟩ := noSpLP_space_lp hl hns
                  obtain ⟨hstep3, hr3c⟩ := canonAux_cons hr2
                  rw [e45_not_sp sp_space, e45_not_sp (lp_not_sp hl),
                    e45_not_sp (quote_not_sp hqq), e6_space_lp_quote hl hqq,
                    listSpaceGo_start_ws space_ws, listSpaceGo_ws_lp hwh hl,
                    listSpaceGo_punct_quote_nil (quote_not_ws hqq) hqq,
                    ihP r3 (by simp only [List.length_cons] at hlr2; omega) hr3c
                      (canon_quote_noSpLP hqq hstep3)]
                  rfl
                · have hlf : isListPunct h = false := Bool.not_eq_true _ ▸ hl
                  rw [e45_not_sp sp_space, e6_space_other hlf]
                  obtain ⟨t2, ht2⟩ := e45_head h r2
                  rw [listSpaceGo_start_ws space_ws, ht2, listSpaceGo_ws_other hwh hlf,
                    ← listSpaceGo_start_other hwh hlf, ← ht2,
                    ihP (h :: r2) hlr hrest (noSpLP_not_space hh r2)]
                  rfl
            · have hcws : isJsWs c = false := canon_not_ws hstep hspace
              rw [e45_not_sp hspf, e6_other hspf hlpf hspace,
                listSpaceGo_start_other hcws hlpf,
                ihP rest hlr hrest
                  (canon_other_parts hspf hlpf hspace hcws hstep)]
    · intro d t run ht had hc hrun
      match t with
      | [] => rw [show e45 [] = [] from rfl, listSpaceGo_punct_nil, lpGroup_nil]
      | h :: r2 =>
        obtain ⟨hstep, hr2⟩ := canonAux_cons hc
        have hlr2 : r2.length ≤ n := by
          simp only [List.length_cons] at ht
          omega
        rcases afterD_cases had with hq | hsp
        · have hr : run = [] := hrun h r2 rfl hq
          subst hr
          rw [e45_not_sp (quote_not_sp hq), lpGroup_quote hq,
            listSpaceGo_punct_quote_nil (quote_not_ws hq) hq,
            ihP r2 hlr2 hr2 (canon_quote_noSpLP hq hstep)]
          rfl
        · subst hsp
          rw [e45_not_sp sp_space, listSpaceGo_punct_ws space_ws]
          simp only [List.nil_append]
          match r2 with
          | [] =>
            rw [show e45 [] = [] from rfl, listSpaceGo_punct_nil, lpGroup_space_nil]
          | h2 :: r3 =>
            obtain ⟨hstep2, hr3c⟩ := canonAux_cons hr2
            have hh2 : h2 ≠ ' ' := canon_space_next_cons hstep
            have hw2 : isJsWs h2 = false := canon_not_ws hstep2 hh2
            have hlr3 : r3.length ≤ n := by
              simp only [List.length_cons] at hlr2
              omega
            by_cases hq2 : isQuote h2 = true
            · rw [e45_not_sp (quote_not_sp hq2),
                listSpaceGo_punct_quote_trail hw2 hq2 run d
                  (by simp : ([' '] : List Char).getLast? = some ' '),
                lpGroup_space_quote hq2,
                ihP r3 (by omega) hr3c (canon_quote_noSpLP hq2 hstep2)]
            · have hq2f : isQuote h2 = false := Bool.not_eq_true _ ▸ hq2
              by_cases hl2 : isListPunct h2 = true
              · rw [e45_not_sp (lp_not_sp hl2), listSpaceGo_punct_lp hw2 hq2f hl2,
                  lpGroup_space_lp hq2f hl2,
                  ihQ h2 r3 [] (by omega) (canon_lp_parts hl2 hstep2) hr3c
                    (fun _ _ _ _ => rfl)]
              · have hl2f : isListPunct h2 = false := Bool.not_eq_true _ ▸ hl2
                rw [lpGroup_space_other hq2f hl2f]
                obtain ⟨t2, ht2⟩ := e45_head h2 r3
                rw [ht2, listSpaceGo_punct_other hw2 hq2f hl2f,
                  ← listSpaceGo_start_other hw2 hl2f, ← ht2,
                  ihP (h2 :: r3) hlr2 hr2 (noSpLP_not_space hh2 r3)]

theorem wsCollapseGo_true_eq : ∀ l : List Char,
    wsCollapseGo true l = wsCollapseGo false (l.dropWhile isJsWs) := by
  intro l
  induction l with
  | nil => rfl
  | cons c cs ih =>
    by_cases h : isJsWs c = true
    · rw [wsCollapseGo_ws_true h, List.dropWhile_cons_of_pos (by simp [h]), ih]
    · have hf := Bool.not_eq_true _ ▸ h
      rw [wsCollapseGo_other hf, List.dropWhile_cons_of_neg (by simp [hf]),
        wsCollapseGo_other hf]

theorem wsGo_true_of_head {l : List Char} {x : Char} {xs : List Char}
    (h : wsCollapseGo false l = x :: xs) (hx : x ≠ ' ') :
    wsCollapseGo true l = wsCollapseGo false l := by
  match l with
  | [] => rfl
  | c :: cs =>
    by_cases hc : isJsWs c = true
    · rw [wsCollapseGo_ws_false hc] at h
      exact absurd (List.cons.injEq _ _ _ _ ▸ h).1.symm hx
    · have hf := Bool.not_eq_true _ ▸ hc
      rw [wsCollapseGo_other hf, wsCollapseGo_other hf]

theorem afterP_other_false {h : Char} (hq : isQuote h = false) (hsp : h ≠ ' ')
    (hl : isListPunct h = false) (r2 : List Char) : afterP (h :: r2) = false := by
  rw [afterP.eq_def]
  simp [hq, hsp, hl]

/-- Joint statement for stage 8 on the stage-6 image: collapsing whitespace in
`e6 t` (resp. `lpGroup d t`) recovers `t` (resp. `d :: t`), possibly with one
extra trailing space. -/
theorem wsCollapse_on_e6_both : ∀ n : Nat,
    (∀ t : List Char, List.length t ≤ n → canonAux t = true → noSpLP t = true →
      wsCollapseGo false (e6 t) = t ∨ wsCollapseGo false (e6 t) = t ++ [' ']) ∧
    (∀ (d : Char) (t : List Char), List.length t ≤ n → isListPunct d = true →
      afterD t = true → canonAux t = true →
      wsCollapseGo false (lpGroup d t) = d :: t ∨
      wsCollapseGo false (lpGroup d t) = (d :: t) ++ [' ']) := by
  intro n
  induction n with
  | zero =>
    constructor
    · intro t ht _ _
      rw [List.length_eq_zero.mp (Nat.le_zero.mp ht), e6_nil]
      exact Or.inl rfl
    · intro d t ht hd _ _
      rw [List.length_eq_zero.mp (Nat.le_zero.mp ht), lpGroup_nil,
        wsCollapseGo_other (lp_not_ws hd), wsCollapseGo_ws_false space_ws,
        wsCollapseGo_nil]
      exact Or.inr rfl
  | succ n ihn =>
    obtain ⟨ihP, ihQ⟩ := ihn
    constructor
    · intro t ht hc hns
      match t with
      | [] =>
        rw [e6_nil]
        exact Or.inl rfl
      | c :: rest =>
        obtain ⟨hstep, hrest⟩ := canonAux_cons hc
        have hlr : rest.length ≤ n := by
          simp only [List.length_cons] at ht
          omega
        by_cases hsp : isSentencePunct c = true
        · have hcws : isJsWs c = false := sp_not_ws hsp
          obtain ⟨hap, hnsr⟩ := canon_sp_parts hsp hstep
          match rest with
          | [] =>
            rw [e6_sp_nil hsp, wsCollapseGo_other hcws, wsCollapseGo_ws_false space_ws,
              wsCollapseGo_nil]
            exact Or.inr rfl
          | h :: r2 =>
            obtain ⟨hstep2, hr2⟩ := canonAux_cons hrest
            have hlr2 : r2.length ≤ n := by
              simp only [List.length_cons] at hlr ⊢
              omega
            by_cases hq : isQuote h = true
            · rw [e6_sp_quote hsp hq, wsCollapseGo_other hcws,
                wsCollapseGo_other (quote_not_ws hq)]
              rcases ihP r2 (by omega) hr2 (canon_quote_noSpLP hq hstep2) with h0 | h0 <;>
                rw [h0]
              · exact Or.inl rfl
              · exact Or.inr rfl
            by_cases hspc : h = ' '
            · subst hspc
              match r2 with
              | [] =>
                rw [e6_sp_space_nil hsp, wsCollapseGo_other hcws,
                  wsCollapseGo_ws_false space_ws, wsCollapseGo_nil]
                exact Or.inl rfl
              | h2 :: r3 =>
                obtain ⟨hstep3, hr3c⟩ := canonAux_cons hr2
                have hh2 : h2 ≠ ' ' := canon_space_next_cons hstep2
                have hw2 : isJsWs h2 = false := canon_not_ws hstep3 hh2
                have hlr3 : r3.length ≤ n := by
                  simp only [List.length_cons] at hlr2
                  omega
                by_cases hq2 : isQuote h2 = true
                · rw [e6_sp_space_quote hsp hq2, wsCollapseGo_other hcws,
                    wsCollapseGo_ws_false space_ws, wsCollapseGo_other hw2]
                  rcases ihP r3 (by omega) hr3c (canon_quote_noSpLP hq2 hstep3)
                    with h0 | h0 <;> rw [h0]
                  · exact Or.inl rfl
                  · exact Or.inr rfl
                · have hq2f : isQuote h2 = false := Bool.not_eq_true _ ▸ hq2
                  by_cases hl2 : isListPunct h2 = true
                  · obtain ⟨q, r4, rfl, hqq⟩ := noSpLP_space_lp hl2 hnsr
                    obtain ⟨hstep4, hr4c⟩ := canonAux_cons hr3c
                    rw [e6_sp_space_lp_quote hsp hq2f hl2 hqq, wsCollapseGo_other hcws,
                      wsCollapseGo_ws_false space_ws, wsCollapseGo_other hw2,
                      wsCollapseGo_other (quote_not_ws hqq)]
                    rcases ihP r4 (by simp only [List.length_cons] at hlr3; omega) hr4c
                      (canon_quote_noSpLP hqq hstep4) with h0 | h0 <;> rw [h0]
                    · exact Or.inl rfl
                    · exact Or.inr rfl
                  · have hl2f : isListPunct h2 = false := Bool.not_eq_true _ ▸ hl2
                    rw [e6_sp_space_other hsp hq2f hl2f, wsCollapseGo_other hcws,
                      wsCollapseGo_ws_false space_ws]
                    rcases ihP (h2 :: r3) hlr2 hr2 (noSpLP_not_space hh2 r3) with h0 | h0
                    · rw [wsGo_true_of_head h0 hh2, h0]
                      exact Or.inl rfl
                    · rw [wsGo_true_of_head (by rw [h0]; rfl) hh2, h0]
                      exact Or.inr rfl
            · have hqf : isQuote h = false := Bool.not_eq_true _ ▸ hq
              by_cases hl : isListPunct h = true
              · rw [e6_sp_lp hsp hqf hspc hl, wsCollapseGo_other hcws]
                rcases ihQ h r2 hlr2 hl (canon_lp_parts hl hstep2) hr2 with h0 | h0 <;>
                  rw [h0]
                · exact Or.inl rfl
                · exact Or.inr rfl
              · have hlf : isListPunct h = false := Bool.not_eq_true _ ▸ hl
                exact absurd hap (by rw [afterP_other_false hqf hspc hlf]; simp)
        · have hspf : isSentencePunct c = false := Bool.not_eq_true _ ▸ hsp
          by_cases hlp : isListPunct c = true
          · rw [e6_lp hlp]
            rcases ihQ c rest hlr hlp (canon_lp_parts hlp hstep) hrest with h0 | h0 <;>
              rw [h0]
            · exact Or.inl rfl
            · exact Or.inr rfl
          · have hlpf : isListPunct c = false := Bool.not_eq_true _ ▸ hlp
            by_cases hspace : c = ' '
            · subst hspace
              match rest with
              | [] =>
                rw [e6_space_nil, wsCollapseGo_ws_false space_ws, wsCollapseGo_nil]
                exact Or.inl rfl
              | h :: r2 =>
                have hh : h ≠ ' ' := canon_space_next_cons hstep
                obtain ⟨hstep2, hr2⟩ := canonAux_cons hrest
                have hwh : isJsWs h = false := canon_not_ws hstep2 hh
                have hlr2 : r2.length ≤ n := by
                  simp only [List.length_cons] at hlr
                  omega
                by_cases hl : isListPunct h = true
                · obtain ⟨q, r3, rfl, hqq⟩ := noSpLP_space_lp hl hns
                  obtain ⟨hstep3, hr3c⟩ := canonAux_cons hr2
                  rw [e6_space_lp_quote hl hqq, wsCollapseGo_ws_false space_ws,
                    wsCollapseGo_other hwh, wsCollapseGo_other (quote_not_ws hqq)]
                  rcases ihP r3 (by simp only [List.length_cons] at hlr2; omega) hr3c
                    (canon_quote_noSpLP hqq hstep3) with h0 | h0 <;> rw [h0]
                  · exact Or.inl rfl
                  · exact Or.inr rfl
                · have hlf : isListPunct h = false := Bool.not_eq_true _ ▸ hl
                  rw [e6_space_other hlf, wsCollapseGo_ws_false space_ws]
                  rcases ihP (h :: r2) hlr hrest (noSpLP_not_space hh r2) with h0 | h0
                  · rw [wsGo_true_of_head h0 hh, h0]
                    exact Or.inl rfl
                  · rw [wsGo_true_of_head (by rw [h0]; rfl) hh, h0]
                    exact Or.inr rfl
            · have hcws : isJsWs c = false := canon_not_ws hstep hspace
              rw [e6_other hspf hlpf hspace, wsCollapseGo_other hcws]
              rcases ihP rest hlr hrest
                (canon_other_parts hspf hlpf hspace hcws hstep) with h0 | h0 <;> rw [h0]
              · exact Or.inl rfl
              · exact Or.inr rfl
    · intro d t ht hd had hc
      have hdws : isJsWs d = false := lp_not_ws hd
      match t with
      | [] =>
        rw [lpGroup_nil, wsCollapseGo_other hdws, wsCollapseGo_ws_false space_ws,
          wsCollapseGo_nil]
        exact Or.inr rfl
      | h :: r2 =>
        obtain ⟨hstep, hr2⟩ := canonAux_cons hc
        have hlr2 : r2.length ≤ n := by
          simp only [List.length_cons] at ht
          omega
        rcases afterD_cases had with hq | hsp
        · rw [lpGroup_quote hq, wsCollapseGo_other hdws,
            wsCollapseGo_other (quote_not_ws hq)]
          rcases ihP r2 hlr2 hr2 (canon_quote_noSpLP hq hstep) with h0 | h0 <;> rw [h0]
          · exact Or.inl rfl
          · exact Or.inr rfl
        · subst hsp
          match r2 with
          | [] =>
            rw [lpGroup_space_nil, wsCollapseGo_other hdws,
              wsCollapseGo_ws_false space_ws, wsCollapseGo_nil]
            exact Or.inl rfl
          | h2 :: r3 =>
            obtain ⟨hstep2, hr3c⟩ := canonAux_cons hr2
            have hh2 : h2 ≠ ' ' := canon_space_next_cons hstep
            have hw2 : isJsWs h2 = false := canon_not_ws hstep2 hh2
            have hlr3 : r3.length ≤ n := by
              simp only [List.length_cons] at hlr2
              omega
            by_cases hq2 : isQuote h2 = true
            · rw [lpGroup_space_quote hq2, wsCollapseGo_other hdws,
                wsCollapseGo_ws_false space_ws, wsCollapseGo_ws_true space_ws,
                wsCollapseGo_other hw2]
              rcases ihP r3 (by omega) hr3c (canon_quote_noSpLP hq2 hstep2)
                with h0 | h0 <;> rw [h0]
              · exact Or.inl rfl
              · exact Or.inr rfl
            · have hq2f : isQuote h2 = false := Bool.not_eq_true _ ▸ hq2
              by_cases hl2 : isListPunct h2 = true
              · rw [lpGroup_space_lp hq2f hl2, wsCollapseGo_other hdws,
                  wsCollapseGo_ws_false space_ws]
                rcases ihQ h2 r3 (by omega) hl2 (canon_lp_parts hl2 hstep2) hr3c
                  with h0 | h0
                · rw [wsGo_true_of_head h0 hh2, h0]
                  exact Or.inl rfl
                · rw [wsGo_true_of_head (by rw [h0]; rfl) hh2, h0]
                  exact Or.inr rfl
              · have hl2f : isListPunct h2 = false := Bool.not_eq_true _ ▸ hl2
                rw [lpGroup_space_other hq2f hl2f, wsCollapseGo_other hdws,
                  wsCollapseGo_ws_false space_ws]
                rcases ihP (h2 :: r3) hlr2 hr2 (noSpLP_not_space hh2 r3) with h0 | h0
                · rw [wsGo_true_of_head h0 hh2, h0]
                  exact Or.inl rfl
                · rw [wsGo_true_of_head (by rw [h0]; rfl) hh2, h0]
                  exact Or.inr rfl

/-! ## Soundness of the pipeline: the image of `normalizeText` is canonical

`winOk f l` checks the window predicate `f c rest` at every tail `c :: rest`
of `l`. -/

def winOk (f : Char → List Char → Bool) : List Char → Bool
  | [] => true
  | c :: cs => f c cs && winOk f cs

theorem winOk_nil (f : Char → List Char → Bool) : winOk f [] = true := rfl

theorem winOk_cons_parts {f : Char → List Char → Bool} {c : Char} {cs : List Char}
    (h : winOk f (c :: cs) = true) : f c cs = true ∧ winOk f cs = true := by
  rw [winOk, Bool.and_eq_true] at h
  exact h

theorem winOk_intro {f : Char → List Char → Bool} {c : Char} {cs : List Char}
    (h1 : f c cs = true) (h2 : winOk f cs = true) : winOk f (c :: cs) = true := by
  rw [winOk, h1, h2]
  rfl

theorem winOk_append_right {f : Char → List Char → Bool} :
    ∀ l1 l2 : List Char, winOk f (l1 ++ l2) = true → winOk f l2 = true := by
  intro l1
  induction l1 with
  | nil => intro l2 h; exact h
  | cons a l ih =>
    intro l2 h
    exact ih l2 (winOk_cons_parts h).2

theorem winOk_dropWhile {f : Char → List Char → Bool} (p : Char → Bool) :
    ∀ l : List Char, winOk f l = true → winOk f (l.dropWhile p) = true := by
  intro l
  induction l with
  | nil => intro h; exact h
  | cons a l ih =>
    intro h
    rw [List.dropWhile_cons]
    by_cases hp : p a = true
    · rw [if_pos hp]
      exact ih (winOk_cons_parts h).2
    · rw [if_neg hp]
      exact h

/-- Invariant of the stage-4 and stage-5 outputs: every sentence-punctuation
character is followed by the end of the string, a quote, or a whitespace
character. -/
def spOk (c : Char) (rest : List Char) : Bool :=
  if isSentencePunct c then
    match rest with
    | [] => true
    | h :: _ => isQuote h || isJsWs h
  else true

theorem spOk_not_sp {c : Char} (h : isSentencePunct c = false) (rest : List Char) :
    spOk c rest = true := by
  simp [spOk, h]

theorem spOk_sp_nil {c : Char} (h : isSentencePunct c = true) : spOk c [] = true := by
  simp [spOk, h]

theorem spOk_sp_cons {c h : Char} (hc : isSentencePunct c = true) (r : List Char) :
    spOk c (h :: r) = (isQuote h || isJsWs h) := by
  simp [spOk, hc]

theorem ws_not_sp {c : Char} (h : isJsWs c = true) : isSentencePunct c = false := by
  by_cases hs : isSentencePunct c = true
  · rw [sp_not_ws hs] at h
    exact absurd h (by simp)
  · exact Bool.not_eq_true _ ▸ hs

theorem ws_not_quote {c : Char} (h : isJsWs c = true) : isQuote c = false := by
  by_cases hs : isQuote c = true
  · rw [quote_not_ws hs] at h
    exact absurd h (by simp)
  · exact Bool.not_eq_true _ ▸ hs

theorem ws_not_lp {c : Char} (h : isJsWs c = true) : isListPunct c = false := by
  by_cases hs : isListPunct c = true
  · rw [lp_not_ws hs] at h
    exact absurd h (by simp)
  · exact Bool.not_eq_true _ ▸ hs

theorem winOk_spOk_wsHead :
    ∀ u X : List Char, (∀ c ∈ u, isJsWs c = true) → winOk spOk X = true →
      winOk spOk (u ++ X) = true := by
  intro u
  induction u with
  | nil => intro X _ hX; exact hX
  | cons a l ih =>
    intro X hu hX
    exact winOk_intro (spOk_not_sp (ws_not_sp (hu a (by simp))) _)
      (ih X (fun c hc => hu c (by simp [hc])) hX)

/-- Stage 4 establishes the `spOk` windows everywhere in its output. -/
theorem winOk_spOk_sentenceSpace :
    ∀ (l : List Char) (st : Option (Char × Option Char)),
      (∀ p lw, st = some (p, lw) →
        isSentencePunct p = true ∧ ∀ w, lw = some w → isJsWs w = true) →
      winOk spOk (sentenceSpaceGo st l) = true := by
  intro l
  induction l with
  | nil =>
    intro st hst
    match st with
    | none => rfl
    | some (p, lw) =>
      obtain ⟨hp, _⟩ := hst p lw rfl
      rw [sentenceSpaceGo_pend_nil]
      exact winOk_intro (by rw [spOk_sp_cons hp]; simp [space_ws])
        (winOk_intro (spOk_not_sp sp_space _) (winOk_nil _))
  | cons c cs ih =>
    intro st hst
    match st with
    | none =>
      by_cases hs : isSentencePunct c = true
      · rw [sentenceSpaceGo_none_sp hs]
        exact ih _ (fun p lw h => by
          obtain ⟨rfl, h2⟩ := Prod.mk.injEq .. ▸ Option.some.injEq .. ▸ h
          exact ⟨hs, fun w hw => by rw [← h2] at hw; exact absurd hw (by simp)⟩)
      · have hs2 : isSentencePunct c = false := Bool.not_eq_true _ ▸ hs
        rw [sentenceSpaceGo_none_other hs2]
        exact winOk_intro (spOk_not_sp hs2 _) (ih none (by simp))
    | some (p, lw) =>
      obtain ⟨hp, hlw⟩ := hst p lw rfl
      by_cases hw : isJsWs c = true
      · rw [sentenceSpaceGo_pend_ws hw]
        exact ih _ (fun p2 lw2 h => by
          obtain ⟨h1, h2⟩ := Prod.mk.injEq .. ▸ Option.some.injEq .. ▸ h
          exact ⟨h1 ▸ hp, fun w hww => by
            rw [← h2] at hww
            exact (Option.some.injEq .. ▸ hww) ▸ hw⟩)
      · have hwf : isJsWs c = false := Bool.not_eq_true _ ▸ hw
        by_cases hq : isQuote c = true
        · match lw with
          | none =>
            rw [sentenceSpaceGo_pend_quote_none hwf hq]
            exact winOk_intro (by rw [spOk_sp_cons hp, hq]; rfl)
              (winOk_intro (spOk_not_sp (quote_not_sp hq) _) (ih none (by simp)))
          | some w =>
            have hwsw : isJsWs w = true := hlw w rfl
            rw [sentenceSpaceGo_pend_quote_some hwf hq]
            refine winOk_intro (by rw [spOk_sp_cons hp]; simp [space_ws]) ?_
            refine winOk_intro (spOk_not_sp sp_space _) ?_
            refine winOk_intro (spOk_not_sp (ws_not_sp hwsw) _) ?_
            exact winOk_intro (spOk_not_sp (quote_not_sp hq) _) (ih none (by simp))
        · have hqf : isQuote c = false := Bool.not_eq_true _ ▸ hq
          by_cases hs : isSentencePunct c = true
          · rw [sentenceSpaceGo_pend_sp hwf hqf hs]
            refine winOk_intro ?_ (winOk_intro (spOk_not_sp sp_space _) ?_)
            · rw [spOk_sp_cons hp]
              simp [space_ws]
            · exact ih _ (fun p2 lw2 h => by
                obtain ⟨h1, h2⟩ := Prod.mk.injEq .. ▸ Option.some.injEq .. ▸ h
                exact ⟨h1 ▸ hs, fun w hww => by
                  rw [← h2] at hww
                  exact absurd hww (by simp)⟩)
          · have hsf : isSentencePunct c = false := Bool.not_eq_true _ ▸ hs
            rw [sentenceSpaceGo_pend_other hwf hqf hsf]
            refine winOk_intro (by rw [spOk_sp_cons hp]; simp [space_ws]) ?_
            refine winOk_intro (spOk_not_sp sp_space _) ?_
            exact winOk_intro (spOk_not_sp hsf _) (ih none (by simp))

/-- Stage 5 preserves the `spOk` windows. -/
theorem winOk_spOk_sentenceQuote :
    ∀ (l : List Char) (st : Option (Char × List Char)),
      (st = none → winOk spOk l = true) →
      (∀ p run, st = some (p, run) →
        isSentencePunct p = true ∧ (∀ w ∈ run, isJsWs w = true) ∧
        winOk spOk (p :: (run ++ l)) = true) →
      winOk spOk (sentenceQuoteGo st l) = true := by
  intro l
  induction l with
  | nil =>
    intro st hn hs
    match st with
    | none => rfl
    | some (p, run) =>
      obtain ⟨_, _, hrec⟩ := hs p run rfl
      rw [sentenceQuoteGo_pend_nil]
      simpa using hrec
  | cons c cs ih =>
    intro st hn hs
    match st with
    | none =>
      have hl := hn rfl
      by_cases hsp : isSentencePunct c = true
      · rw [sentenceQuoteGo_none_sp hsp]
        exact ih _ (by simp) (fun p run h => by
          obtain ⟨h1, h2⟩ := Prod.mk.injEq .. ▸ Option.some.injEq .. ▸ h
          subst h1
          rw [← h2]
          exact ⟨hsp, by simp, by simpa using hl⟩)
      · have hsf : isSentencePunct c = false := Bool.not_eq_true _ ▸ hsp
        rw [sentenceQuoteGo_none_other hsf]
        exact winOk_intro (spOk_not_sp hsf _) (ih none (fun _ => (winOk_cons_parts hl).2)
          (by simp))
    | some (p, run) =>
      obtain ⟨hp, hws, hrec⟩ := hs p run rfl
      by_cases hw : isJsWs c = true
      · rw [sentenceQuoteGo_pend_ws hw]
        refine ih _ (by simp) (fun p2 run2 h => ?_)
        obtain ⟨h1, h2⟩ := Prod.mk.injEq .. ▸ Option.some.injEq .. ▸ h
        subst h1
        rw [← h2]
        refine ⟨hp, ?_, ?_⟩
        · intro w hwm
          rcases List.mem_append.mp hwm with h3 | h3
          · exact hws w h3
          · rw [List.mem_singleton.mp h3]
            exact hw
        · simpa [List.append_assoc] using hrec
      · have hwf : isJsWs c = false := Bool.not_eq_true _ ▸ hw
        have hcs : winOk spOk cs = true :=
          (winOk_cons_parts (winOk_append_right run _ (winOk_cons_parts hrec).2)).2
        by_cases hqr : (isQuote c && !run.isEmpty) = true
        · obtain ⟨hq, hre⟩ := Bool.and_eq_true .. ▸ hqr
          have hrne : run ≠ [] := by
            intro h0
            rw [h0] at hre
            exact absurd hre (by simp)
          rw [sentenceQuoteGo_pend_quote_run hwf hq p hrne]
          refine winOk_intro (by rw [spOk_sp_cons hp]; simp [space_ws]) ?_
          refine winOk_intro (spOk_not_sp sp_space _) ?_
          exact winOk_intro (spOk_not_sp (quote_not_sp hq) _) (ih none (fun _ => hcs)
            (by simp))
        · have hqrf : (isQuote c && !run.isEmpty) = false := Bool.not_eq_true _ ▸ hqr
          by_cases hsp : isSentencePunct c = true
          · rw [sentenceQuoteGo_pend_sp hwf hqrf hsp]
            match run with
            | [] =>
              exfalso
              have := (winOk_cons_parts hrec).1
              rw [List.nil_append, spOk_sp_cons hp, sp_not_quote hsp, sp_not_ws hsp] at this
              exact absurd this (by simp)
            | w :: run2 =>
              have hccs : winOk spOk (c :: cs) = true :=
                winOk_append_right (w :: run2) (c :: cs) (winOk_cons_parts hrec).2
              have hrest : winOk spOk (sentenceQuoteGo (some (c, [])) cs) = true := by
                refine ih _ (by simp) (fun p2 run3 h => ?_)
                obtain ⟨h1, h2⟩ := Prod.mk.injEq .. ▸ Option.some.injEq .. ▸ h
                subst h1
                rw [← h2]
                refine ⟨hsp, by simp, ?_⟩
                simpa using hccs
              rw [List.cons_append]
              refine winOk_intro ?_ ?_
              · rw [List.cons_append, spOk_sp_cons hp, hws w (by simp)]
                simp
              · exact winOk_spOk_wsHead (w :: run2) _ hws hrest
          · have hsf : isSentencePunct c = false := Bool.not_eq_true _ ▸ hsp
            rw [sentenceQuoteGo_pend_other hwf hqrf hsf]
            have hrest : winOk spOk (c :: sentenceQuoteGo none cs) = true :=
              winOk_intro (spOk_not_sp hsf _) (ih none (fun _ => hcs) (by simp))
            match run with
            | [] =>
              rw [List.singleton_append]
              refine winOk_intro ?_ hrest
              have := (winOk_cons_parts hrec).1
              rw [List.nil_append] at this
              rw [spOk_sp_cons hp]
              rw [spOk_sp_cons hp] at this
              exact this
            | w :: run2 =>
              rw [List.cons_append]
              refine winOk_intro ?_ (winOk_spOk_wsHead (w :: run2) _ hws hrest)
              rw [List.cons_append, spOk_sp_cons hp, hws w (by simp)]
              simp

/-! ## Windows guaranteed by stage 6 on its output -/

/-- In stage-6 output, when a whitespace run is followed by list punctuation,
that punctuation is immediately followed by a quote (the lookahead-rejected
shape that stage 6 keeps verbatim). -/
def wsLpOk : List Char → Bool
  | [] => true
  | h :: r2 =>
    if isJsWs h then
      match r2.dropWhile isJsWs with
      | [] => true
      | y :: cs3 =>
        if isListPunct y then
          match cs3 with
          | [] => false
          | y2 :: _ => isQuote y2
        else true
    else true

/-- Stage-6 window after a sentence-punctuation character. -/
def f6SP : List Char → Bool
  | [] => true
  | h :: r2 =>
    if isQuote h then true
    else if isListPunct h then
      match r2 with
      | [] => true
      | h2 :: _ => isJsWs h2
    else if isJsWs h then wsLpOk (h :: r2)
    else false

/-- Stage-6 window after a list-punctuation character. -/
def f6LP : List Char → Bool
  | [] => true
  | h :: _ => isQuote h || isJsWs h

/-- The full window predicate established by stage 6 on its output. -/
def f6 (c : Char) (rest : List Char) : Bool :=
  if isSentencePunct c then f6SP rest
  else if isListPunct c then f6LP rest
  else if isJsWs c then true
  else wsLpOk rest

theorem lp_not_space {d : Char} (hd : isListPunct d = true) : d ≠ ' ' := by
  intro h
  rw [h] at hd
  exact absurd hd (by decide)

theorem wsLpOk_nil : wsLpOk [] = true := rfl

theorem wsLpOk_not_ws {h : Char} (hw : isJsWs h = false) (r2 : List Char) :
    wsLpOk (h :: r2) = true := by
  rw [wsLpOk.eq_def]
  simp [hw]

theorem wsLpOk_of_drop_nil {h : Char} (hw : isJsWs h = true) {r2 : List Char}
    (hd : r2.dropWhile isJsWs = []) : wsLpOk (h :: r2) = true := by
  rw [wsLpOk.eq_def]
  simp [hw, hd]

theorem wsLpOk_of_drop_not_lp {h : Char} (hw : isJsWs h = true) {r2 : List Char}
    {y : Char} {cs3 : List Char} (hd : r2.dropWhile isJsWs = y :: cs3)
    (hy : isListPunct y = false) : wsLpOk (h :: r2) = true := by
  rw [wsLpOk.eq_def]
  simp [hw, hd, hy]

theorem wsLpOk_of_drop_quote {h : Char} (hw : isJsWs h = true) {r2 : List Char}
    {y y2 : Char} {cs4 : List Char} (hd : r2.dropWhile isJsWs = y :: y2 :: cs4)
    (hq : isQuote y2 = true) : wsLpOk (h :: r2) = true := by
  rw [wsLpOk.eq_def]
  by_cases hy : isListPunct y = true
  · simp [hw, hd, hy, hq]
  · simp [hw, hd, Bool.not_eq_true _ ▸ hy]

theorem wsLpOk_parts {h : Char} (hw : isJsWs h = true) {r2 : List Char}
    (hok : wsLpOk (h :: r2) = true) {y : Char} {cs3 : List Char}
    (hd : r2.dropWhile isJsWs = y :: cs3) (hy : isListPunct y = true) :
    ∃ y2 cs4, cs3 = y2 :: cs4 ∧ isQuote y2 = true := by
  rw [wsLpOk.eq_def] at hok
  simp only [hw, if_pos, hd, hy, if_true] at hok
  match cs3 with
  | [] => exact absurd hok (by simp)
  | y2 :: cs4 => exact ⟨y2, cs4, rfl, by simpa using hok⟩

theorem f6SP_nil : f6SP [] = true := rfl

theorem f6SP_quote {h : Char} (hq : isQuote h = true) (r2 : List Char) :
    f6SP (h :: r2) = true := by
  rw [f6SP.eq_def]
  simp [hq]

theorem f6SP_lp_nil {h : Char} (hq : isQuote h = false) (hl : isListPunct h = true) :
    f6SP [h] = true := by
  rw [f6SP.eq_def]
  simp [hq, hl]

theorem f6SP_lp_cons {h h2 : Char} (hq : isQuote h = false) (hl : isListPunct h = true)
    (hw2 : isJsWs h2 = true) (r3 : List Char) : f6SP (h :: h2 :: r3) = true := by
  rw [f6SP.eq_def]
  simp [hq, hl, hw2]

theorem f6SP_ws {h : Char} (hw : isJsWs h = true) (r2 : List Char) :
    f6SP (h :: r2) = wsLpOk (h :: r2) := by
  rw [f6SP.eq_def]
  simp [ws_not_quote hw, ws_not_lp hw, hw]

theorem f6SP_parts {h : Char} {r2 : List Char} (hok : f6SP (h :: r2) = true) :
    isQuote h = true ∨
    (isQuote h = false ∧ isListPunct h = true ∧
      (r2 = [] ∨ ∃ h2 r3, r2 = h2 :: r3 ∧ isJsWs h2 = true)) ∨
    (isJsWs h = true ∧ wsLpOk (h :: r2) = true) := by
  by_cases hq : isQuote h = true
  · exact Or.inl hq
  · have hqf : isQuote h = false := Bool.not_eq_true _ ▸ hq
    by_cases hl : isListPunct h = true
    · refine Or.inr (Or.inl ⟨hqf, hl, ?_⟩)
      rw [f6SP.eq_def] at hok
      simp only [hqf, hl, if_false, if_true, Bool.false_eq_true, if_neg] at hok
      match r2 with
      | [] => exact Or.inl rfl
      | h2 :: r3 => exact Or.inr ⟨h2, r3, rfl, by simpa using hok⟩
    · have hlf : isListPunct h = false := Bool.not_eq_true _ ▸ hl
      by_cases hw : isJsWs h = true
      · exact Or.inr (Or.inr ⟨hw, (f6SP_ws hw r2) ▸ hok⟩)
      · exfalso
        rw [f6SP.eq_def] at hok
        simp [hqf, hlf, Bool.not_eq_true _ ▸ hw] at hok

theorem f6LP_nil : f6LP [] = true := rfl

theorem f6LP_cons (h : Char) (r : List Char) : f6LP (h :: r) = (isQuote h || isJsWs h) := by
  rw [f6LP.eq_def]

theorem f6_sp {c : Char} (hs : isSentencePunct c = true) (rest : List Char) :
    f6 c rest = f6SP rest := by
  simp [f6, hs]

theorem f6_lp {c : Char} (hl : isListPunct c = true) (rest : List Char) :
    f6 c rest = f6LP rest := by
  simp [f6, lp_not_sp hl, hl]

theorem f6_ws {c : Char} (hw : isJsWs c = true) (rest : List Char) : f6 c rest = true := by
  simp [f6, ws_not_sp hw, ws_not_lp hw, hw]

theorem f6_other {c : Char} (hs : isSentencePunct c = false) (hl : isListPunct c = false)
    (hw : isJsWs c = false) (rest : List Char) : f6 c rest = wsLpOk rest := by
  simp [f6, hs, hl, hw]

theorem winOk_f6_allws :
    ∀ m : List Char, (∀ c ∈ m, isJsWs c = true) → winOk f6 m = true := by
  intro m
  induction m with
  | nil => intro _; rfl
  | cons a l ih =>
    intro h
    exact winOk_intro (f6_ws (h a (by simp)) l) (ih (fun c hc => h c (by simp [hc])))

theorem winOk_f6_wsHead :
    ∀ u X : List Char, (∀ c ∈ u, isJsWs c = true) → winOk f6 X = true →
      winOk f6 (u ++ X) = true := by
  intro u
  induction u with
  | nil => intro X _ hX; exact hX
  | cons a l ih =>
    intro X hu hX
    exact winOk_intro (f6_ws (hu a (by simp)) _)
      (ih X (fun c hc => hu c (by simp [hc])) hX)

theorem dropWhile_ws_append :
    ∀ u v : List Char, (∀ c ∈ u, isJsWs c = true) →
      (u ++ v).dropWhile isJsWs = v.dropWhile isJsWs := by
  intro u
  induction u with
  | nil => intro v _; rfl
  | cons a l ih =>
    intro v hu
    rw [List.cons_append, List.dropWhile_cons, if_pos (hu a (by simp))]
    exact ih v (fun c hc => hu c (by simp [hc]))

theorem dropWhile_ws_cons_nonws {c : Char} (h : isJsWs c = false) (l : List Char) :
    (c :: l).dropWhile isJsWs = c :: l := by
  rw [List.dropWhile_cons, if_neg (by simp [h])]

theorem dropWhile_ws_cases (l : List Char) :
    l.dropWhile isJsWs = [] ∨
    ∃ y ys, l.dropWhile isJsWs = y :: ys ∧ isJsWs y = false := by
  induction l with
  | nil => exact Or.inl rfl
  | cons a l ih =>
    by_cases hw : isJsWs a = true
    · rw [List.dropWhile_cons, if_pos hw]
      exact ih
    · have hwf : isJsWs a = false := Bool.not_eq_true _ ▸ hw
      exact Or.inr ⟨a, l, dropWhile_ws_cons_nonws hwf l, hwf⟩

/-- Output shape of the `punct` state of stage 6: either the lookahead-rejected
verbatim shape (quote right after the punctuation, empty trailing run), or a
block starting with the punctuation and a single space. -/
theorem listSpaceGo_punct_shape :
    ∀ (l run : List Char) (d : Char) (trail : List Char),
      (trail = [] ∧ ∃ q cs, l = q :: cs ∧ isQuote q = true ∧
        listSpaceGo (.punct run d trail) l = run ++ (d :: q :: listSpaceGo .start cs)) ∨
      (∃ tail, listSpaceGo (.punct run d trail) l = d :: ' ' :: tail) := by
  intro l
  induction l with
  | nil =>
    intro run d trail
    exact Or.inr ⟨[], rfl⟩
  | cons c cs ih =>
    intro run d trail
    by_cases hw : isJsWs c = true
    · rw [listSpaceGo_punct_ws hw]
      rcases ih run d (trail ++ [c]) with ⟨h0, _⟩ | h
      · exact absurd h0 (by simp)
      · exact Or.inr h
    · have hwf : isJsWs c = false := Bool.not_eq_true _ ▸ hw
      by_cases hq : isQuote c = true
      · match htl : trail.getLast? with
        | none =>
          have ht0 : trail = [] := by simpa using htl
          subst ht0
          exact Or.inl ⟨rfl, c, cs, rfl, hq, listSpaceGo_punct_quote_nil hwf hq run d cs⟩
        | some w =>
          exact Or.inr ⟨w :: c :: listSpaceGo .start cs,
            listSpaceGo_punct_quote_trail hwf hq run d htl cs⟩
      · have hqf : isQuote c = false := Bool.not_eq_true _ ▸ hq
        by_cases hl : isListPunct c = true
        · exact Or.inr ⟨listSpaceGo (.punct [] c []) cs, listSpaceGo_punct_lp hwf hqf hl _ _ _ _⟩
        · have hlf : isListPunct c = false := Bool.not_eq_true _ ▸ hl
          exact Or.inr ⟨c :: listSpaceGo .start cs, listSpaceGo_punct_other hwf hqf hlf _ _ _ _⟩

/-- Output shape of the `wsRun` state of stage 6: either the pending run plus
further whitespace and a block headed by a non-space non-punctuation character
or a punctuation-quote pair, or the pending run is dropped in favor of a
punctuation-space block. -/
theorem listSpaceGo_ws_shape :
    ∀ (l run : List Char),
      (∃ ext X, (∀ c ∈ ext, isJsWs c = true) ∧
        listSpaceGo (.wsRun run) l = run ++ (ext ++ X) ∧
        (X = [] ∨ (∃ y ys, X = y :: ys ∧ isJsWs y = false ∧ isListPunct y = false) ∨
         (∃ d q ys, X = d :: q :: ys ∧ isListPunct d = true ∧ isQuote q = true))) ∨
      (∃ d tail, isListPunct d = true ∧
        listSpaceGo (.wsRun run) l = d :: ' ' :: tail) := by
  intro l
  induction l with
  | nil =>
    intro run
    refine Or.inl ⟨[], [], by simp, ?_, Or.inl rfl⟩
    rw [listSpaceGo_ws_nil]
    simp
  | cons c cs ih =>
    intro run
    by_cases hw : isJsWs c = true
    · rw [listSpaceGo_ws_ws hw]
      rcases ih (run ++ [c]) with ⟨ext, X, hext, heq, hX⟩ | ⟨d, tail, hd, heq⟩
      · refine Or.inl ⟨c :: ext, X, ?_, ?_, hX⟩
        · intro x hx
          rcases List.mem_cons.mp hx with rfl | hx2
          · exact hw
          · exact hext x hx2
        · rw [heq]
          simp
      · exact Or.inr ⟨d, tail, hd, heq⟩
    · have hwf : isJsWs c = false := Bool.not_eq_true _ ▸ hw
      by_cases hl : isListPunct c = true
      · rw [listSpaceGo_ws_lp hwf hl]
        rcases listSpaceGo_punct_shape cs run c [] with ⟨_, q, cs2, hcs, hq, heq⟩ |
          ⟨tail, heq⟩
        · subst hcs
          refine Or.inl ⟨[], c :: q :: listSpaceGo .start cs2, by simp, ?_,
            Or.inr (Or.inr ⟨c, q, _, rfl, hl, hq⟩)⟩
          rw [heq]
          simp
        · exact Or.inr ⟨c, tail, hl, heq⟩
      · have hlf : isListPunct c = false := Bool.not_eq_true _ ▸ hl
        rw [listSpaceGo_ws_other hwf hlf]
        refine Or.inl ⟨[], c :: listSpaceGo .start cs, by simp, by simp,
          Or.inr (Or.inl ⟨c, _, rfl, hwf, hlf⟩)⟩

theorem wsLpOk_wsRun {w : Char} (hw : isJsWs w = true) (l : List Char) :
    wsLpOk (listSpaceGo (.wsRun [w]) l) = true := by
  rcases listSpaceGo_ws_shape l [w] with ⟨ext, X, hext, heq, hX⟩ | ⟨d, tail, hd, heq⟩
  · rw [heq, List.singleton_append]
    have hdrop : (ext ++ X).dropWhile isJsWs = X.dropWhile isJsWs :=
      dropWhile_ws_append ext X hext
    rcases hX with rfl | ⟨y, ys, rfl, hy, hyl⟩ | ⟨d, q, ys, rfl, hdl, hq⟩
    · exact wsLpOk_of_drop_nil hw (by rw [hdrop]; rfl)
    · exact wsLpOk_of_drop_not_lp hw (by rw [hdrop, dropWhile_ws_cons_nonws hy]) hyl
    · exact wsLpOk_of_drop_quote hw
        (by rw [hdrop, dropWhile_ws_cons_nonws (lp_not_ws hdl)]) hq
  · rw [heq]
    exact wsLpOk_not_ws (lp_not_ws hd) _

theorem wsLpOk_start : ∀ l : List Char, wsLpOk (listSpaceGo .start l) = true := by
  intro l
  match l with
  | [] => rfl
  | c :: cs =>
    by_cases hw : isJsWs c = true
    · rw [listSpaceGo_start_ws hw]
      exact wsLpOk_wsRun hw cs
    · have hwf : isJsWs c = false := Bool.not_eq_true _ ▸ hw
      by_cases hl : isListPunct c = true
      · rw [listSpaceGo_start_lp hwf hl]
        rcases listSpaceGo_punct_shape cs [] c [] with ⟨_, q, cs2, hcs, hq, heq⟩ |
          ⟨tail, heq⟩
        · rw [heq, List.nil_append]
          exact wsLpOk_not_ws hwf _
        · rw [heq]
          exact wsLpOk_not_ws hwf _
      · have hlf : isListPunct c = false := Bool.not_eq_true _ ▸ hl
        rw [listSpaceGo_start_other hwf hlf]
        exact wsLpOk_not_ws hwf _

theorem f6SP_wsRun {w : Char} (hw : isJsWs w = true) (l : List Char) :
    f6SP (listSpaceGo (.wsRun [w]) l) = true := by
  rcases listSpaceGo_ws_shape l [w] with ⟨ext, X, hext, heq, hX⟩ | ⟨d, tail, hd, heq⟩
  · rw [heq, List.singleton_append, f6SP_ws hw]
    rw [← List.singleton_append, ← heq]
    exact wsLpOk_wsRun hw l
  · rw [heq]
    exact f6SP_lp_cons (lp_not_quote hd) hd space_ws tail

/-- The window check at a kept (non-whitespace, non-list-punctuation) character
emitted by stage 6 ahead of a fresh-state continuation. -/
theorem winOk_f6_emit {c : Char} {cs : List Char} (hwf : isJsWs c = false)
    (hlf : isListPunct c = false) (hsp : winOk spOk (c :: cs) = true)
    (hrest : winOk f6 (listSpaceGo .start cs) = true) :
    winOk f6 (c :: listSpaceGo .start cs) = true := by
  refine winOk_intro ?_ hrest
  by_cases hs : isSentencePunct c = true
  · rw [f6_sp hs]
    have hwin := (winOk_cons_parts hsp).1
    match cs with
    | [] => exact f6SP_nil
    | h :: cs2 =>
      rw [spOk_sp_cons hs] at hwin
      rcases Bool.or_eq_true .. ▸ hwin with hq | hww
      · rw [listSpaceGo_start_other (quote_not_ws hq) (quote_not_lp hq)]
        exact f6SP_quote hq _
      · rw [listSpaceGo_start_ws hww]
        exact f6SP_wsRun hww cs2
  · have hsf : isSentencePunct c = false := Bool.not_eq_true _ ▸ hs
    rw [f6_other hsf hlf hwf]
    exact wsLpOk_start cs

/-- Stage 6 establishes the `f6` windows everywhere in its output, for any
input satisfying the stage-4/5 invariant. -/
theorem winOk_f6_listSpace :
    ∀ l : List Char,
      (winOk spOk l = true → winOk f6 (listSpaceGo .start l) = true) ∧
      (∀ run, (∀ c ∈ run, isJsWs c = true) → winOk spOk l = true →
        winOk f6 (listSpaceGo (.wsRun run) l) = true) ∧
      (∀ run d trail, isListPunct d = true → (∀ c ∈ run, isJsWs c = true) →
        (∀ c ∈ trail, isJsWs c = true) → winOk spOk l = true →
        winOk f6 (listSpaceGo (.punct run d trail) l) = true) := by
  intro l
  induction l with
  | nil =>
    refine ⟨fun _ => rfl, fun run hrun _ => ?_, fun run d trail hd _ _ _ => ?_⟩
    · rw [listSpaceGo_ws_nil]
      exact winOk_f6_allws run hrun
    · rw [listSpaceGo_punct_nil]
      refine winOk_intro ?_ (winOk_intro (f6_ws space_ws _) (winOk_nil _))
      rw [f6_lp hd, f6LP_cons]
      simp [space_ws]
  | cons c cs ih =>
    obtain ⟨ihS, ihW, ihP⟩ := ih
    have hmemsnoc : ∀ (u : List Char) (x : Char), (∀ y ∈ u, isJsWs y = true) →
        isJsWs x = true → ∀ y ∈ u ++ [x], isJsWs y = true := by
      intro u x hu hx y hy
      rcases List.mem_append.mp hy with h1 | h1
      · exact hu y h1
      · rw [List.mem_singleton.mp h1]
        exact hx
    refine ⟨?_, ?_, ?_⟩
    · intro hsp
      by_cases hw : isJsWs c = true
      · rw [listSpaceGo_start_ws hw]
        exact ihW [c] (by simp [hw]) (winOk_cons_parts hsp).2
      · have hwf : isJsWs c = false := Bool.not_eq_true _ ▸ hw
        by_cases hl : isListPunct c = true
        · rw [listSpaceGo_start_lp hwf hl]
          exact ihP [] c [] hl (by simp) (by simp) (winOk_cons_parts hsp).2
        · have hlf : isListPunct c = false := Bool.not_eq_true _ ▸ hl
          rw [listSpaceGo_start_other hwf hlf]
          exact winOk_f6_emit hwf hlf hsp (ihS (winOk_cons_parts hsp).2)
    · intro run hrun hsp
      by_cases hw : isJsWs c = true
      · rw [listSpaceGo_ws_ws hw]
        exact ihW (run ++ [c]) (hmemsnoc run c hrun hw) (winOk_cons_parts hsp).2
      · have hwf : isJsWs c = false := Bool.not_eq_true _ ▸ hw
        by_cases hl : isListPunct c = true
        · rw [listSpaceGo_ws_lp hwf hl]
          exact ihP run c [] hl hrun (by simp) (winOk_cons_parts hsp).2
        · have hlf : isListPunct c = false := Bool.not_eq_true _ ▸ hl
          rw [listSpaceGo_ws_other hwf hlf]
          exact winOk_f6_wsHead run _ hrun
            (winOk_f6_emit hwf hlf hsp (ihS (winOk_cons_parts hsp).2))
    · intro run d trail hd hrun htrail hsp
      by_cases hw : isJsWs c = true
      · rw [listSpaceGo_punct_ws hw]
        exact ihP run d (trail ++ [c]) hd hrun (hmemsnoc trail c htrail hw)
          (winOk_cons_parts hsp).2
      · have hwf : isJsWs c = false := Bool.not_eq_true _ ▸ hw
        by_cases hq : isQuote c = true
        · match htl : trail.getLast? with
          | none =>
            have ht0 : trail = [] := by simpa using htl
            subst ht0
            rw [listSpaceGo_punct_quote_nil hwf hq]
            refine winOk_f6_wsHead run _ hrun ?_
            refine winOk_intro (by rw [f6_lp hd, f6LP_cons, hq]; rfl) ?_
            refine winOk_intro ?_ (ihS (winOk_cons_parts hsp).2)
            rw [f6_other (quote_not_sp hq) (quote_not_lp hq) (quote_not_ws hq)]
            exact wsLpOk_start cs
          | some w =>
            have hwmem : w ∈ trail := by
              obtain ⟨hne, hwe⟩ := List.mem_getLast?_eq_getLast
                (show w ∈ trail.getLast? from by rw [htl]; rfl)
              rw [hwe]
              exact List.getLast_mem hne
            have hws : isJsWs w = true := htrail w hwmem
            rw [listSpaceGo_punct_quote_trail hwf hq run d htl cs]
            refine winOk_intro (by rw [f6_lp hd, f6LP_cons]; simp [space_ws]) ?_
            refine winOk_intro (f6_ws space_ws _) ?_
            refine winOk_intro (f6_ws hws _) ?_
            refine winOk_intro ?_ (ihS (winOk_cons_parts hsp).2)
            rw [f6_other (quote_not_sp hq) (quote_not_lp hq) (quote_not_ws hq)]
            exact wsLpOk_start cs
        · have hqf : isQuote c = false := Bool.not_eq_true _ ▸ hq
          by_cases hl : isListPunct c = true
          · rw [listSpaceGo_punct_lp hwf hqf hl]
            refine winOk_intro (by rw [f6_lp hd, f6LP_cons]; simp [space_ws]) ?_
            refine winOk_intro (f6_ws space_ws _) ?_
            exact ihP [] c [] hl (by simp) (by simp) (winOk_cons_parts hsp).2
          · have hlf : isListPunct c = false := Bool.not_eq_true _ ▸ hl
            rw [listSpaceGo_punct_other hwf hqf hlf]
            refine winOk_intro (by rw [f6_lp hd, f6LP_cons]; simp [space_ws]) ?_
            refine winOk_intro (f6_ws space_ws _) ?_
            exact winOk_f6_emit hwf hlf hsp (ihS (winOk_cons_parts hsp).2)

/-! ## From the stage-6 windows to canonicity of the collapsed, trimmed text -/

/-- `canonAux` up to one optional trailing space. -/
def canonAuxW : List Char → Bool
  | [] => true
  | [c] => c == ' ' || canonStepOk c []
  | c :: rest => canonStepOk c rest && canonAuxW rest

theorem canonAuxW_nil : canonAuxW [] = true := rfl

theorem canonAuxW_single (c : Char) : canonAuxW [c] = (c == ' ' || canonStepOk c []) := rfl

theorem canonAuxW_cons2 (c r : Char) (rs : List Char) :
    canonAuxW (c :: r :: rs) = (canonStepOk c (r :: rs) && canonAuxW (r :: rs)) := rfl

theorem nonws_ne_space {h : Char} (hw : isJsWs h = false) : h ≠ ' ' := by
  intro he
  rw [he] at hw
  exact absurd space_ws (by simp [hw])

theorem canonStepOk_space_intro {x : Char} (hx : x ≠ ' ') (xs : List Char) :
    canonStepOk ' ' (x :: xs) = true := by
  simp [canonStepOk, spaceNext, hx]

theorem canonStepOk_sp_intro {c : Char} (hs : isSentencePunct c = true) {rest : List Char}
    (h1 : afterP rest = true) (h2 : noSpLP rest = true) : canonStepOk c rest = true := by
  have hne : c ≠ ' ' := by
    intro h
    rw [h] at hs
    exact absurd hs (by decide)
  simp [canonStepOk, hne, sp_not_ws hs, hs, h1, h2]

theorem canonStepOk_lp_intro {c : Char} (hl : isListPunct c = true) {rest : List Char}
    (h1 : afterD rest = true) : canonStepOk c rest = true := by
  simp [canonStepOk, lp_not_space hl, lp_not_ws hl, lp_not_sp hl, hl, h1]

theorem canonStepOk_other_intro {c : Char} (hs : isSentencePunct c = false)
    (hl : isListPunct c = false) (hw : isJsWs c = false) (hne : c ≠ ' ')
    {rest : List Char} (h2 : noSpLP rest = true) : canonStepOk c rest = true := by
  simp [canonStepOk, hne, hw, hs, hl, h2]

theorem afterP_nil : afterP [] = true := rfl

theorem afterP_quote {h : Char} (hq : isQuote h = true) (r2 : List Char) :
    afterP (h :: r2) = true := by
  rw [afterP.eq_def]
  simp [hq]

theorem afterP_space (r2 : List Char) : afterP (' ' :: r2) = true := by
  rw [afterP.eq_def]
  simp [isQuote_space]

theorem afterP_lp_nil {h : Char} (hq : isQuote h = false) (hl : isListPunct h = true) :
    afterP [h] = true := by
  rw [afterP.eq_def]
  simp [hq, hl, lp_not_space hl]

theorem afterP_lp_space {h h2 : Char} (hq : isQuote h = false) (hl : isListPunct h = true)
    (h2e : h2 = ' ') (r3 : List Char) : afterP (h :: h2 :: r3) = true := by
  rw [afterP.eq_def]
  simp [hq, hl, lp_not_space hl, h2e]

theorem noSpLP_single (x : Char) : noSpLP [x] = true := by
  by_cases hx : x = ' '
  · subst hx
    rfl
  · exact noSpLP_not_space hx []

theorem noSpLP_space_cons_not_lp {d : Char} (hd : isListPunct d = false) (r3 : List Char) :
    noSpLP (' ' :: d :: r3) = true := by
  rw [noSpLP.eq_def]
  simp [hd]

theorem noSpLP_space_cons_quote {d q : Char} (r4 : List Char) (hq : isQuote q = true) :
    noSpLP (' ' :: d :: q :: r4) = true := by
  rw [noSpLP.eq_def]
  by_cases hd : isListPunct d = true
  · simp [hd, hq]
  · simp [Bool.not_eq_true _ ▸ hd]

theorem afterD_nil : afterD [] = true := rfl

theorem afterD_cons_quote {h : Char} (hq : isQuote h = true) (r : List Char) :
    afterD (h :: r) = true := by
  rw [afterD.eq_def]
  simp [hq]

theorem afterD_cons_space (r : List Char) : afterD (' ' :: r) = true := by
  rw [afterD.eq_def]
  simp

theorem noSpLP_collapse : ∀ cs : List Char, wsLpOk cs = true →
    noSpLP (wsCollapseGo false cs) = true := by
  intro cs hok
  match cs with
  | [] => rfl
  | h :: cs2 =>
    by_cases hw : isJsWs h = true
    · rw [wsCollapseGo_ws_false hw, wsCollapseGo_true_eq]
      rcases dropWhile_ws_cases cs2 with hnil | ⟨y, ys, hdrop, hy⟩
      · rw [hnil, wsCollapseGo_nil]
        exact noSpLP_single ' '
      · rw [hdrop, wsCollapseGo_other hy]
        by_cases hyl : isListPunct y = true
        · obtain ⟨y2, cs4, rfl, hq⟩ := wsLpOk_parts hw hok hdrop hyl
          rw [wsCollapseGo_other (quote_not_ws hq)]
          exact noSpLP_space_cons_quote _ hq
        · exact noSpLP_space_cons_not_lp (Bool.not_eq_true _ ▸ hyl) _
    · have hwf : isJsWs h = false := Bool.not_eq_true _ ▸ hw
      rw [wsCollapseGo_other hwf]
      exact noSpLP_not_space (nonws_ne_space hwf) _

theorem afterP_collapse : ∀ cs : List Char, f6SP cs = true →
    afterP (wsCollapseGo false cs) = true := by
  intro cs hok
  match cs with
  | [] => rfl
  | h :: cs2 =>
    rcases f6SP_parts hok with hq | ⟨hqf, hl, hr⟩ | ⟨hw, _⟩
    · rw [wsCollapseGo_other (quote_not_ws hq)]
      exact afterP_quote hq _
    · rw [wsCollapseGo_other (lp_not_ws hl)]
      rcases hr with rfl | ⟨h2, r3, rfl, hw2⟩
      · rw [wsCollapseGo_nil]
        exact afterP_lp_nil hqf hl
      · rw [wsCollapseGo_ws_false hw2]
        exact afterP_lp_space hqf hl rfl _
    · rw [wsCollapseGo_ws_false hw]
      exact afterP_space _

theorem afterD_collapse : ∀ cs : List Char, f6LP cs = true →
    afterD (wsCollapseGo false cs) = true := by
  intro cs hok
  match cs with
  | [] => rfl
  | h :: cs2 =>
    rw [f6LP_cons] at hok
    rcases Bool.or_eq_true .. ▸ hok with hq | hw
    · rw [wsCollapseGo_other (quote_not_ws hq)]
      exact afterD_cons_quote hq _
    · rw [wsCollapseGo_ws_false hw]
      exact afterD_cons_space _

/-- Stage 8 turns any list with the `f6` windows into canonical text with at
most one trailing space. -/
theorem canonAuxW_wsCollapse :
    ∀ n : Nat, ∀ m : List Char, m.length ≤ n → winOk f6 m = true →
      canonAuxW (wsCollapseGo false m) = true := by
  intro n
  induction n with
  | zero =>
    intro m hm _
    rw [List.length_eq_zero.mp (Nat.le_zero.mp hm)]
    rfl
  | succ n ihn =>
    intro m hm h6
    match m with
    | [] => rfl
    | c :: cs =>
      obtain ⟨hfc, hrest⟩ := winOk_cons_parts h6
      have hlcs : cs.length ≤ n := by
        simp only [List.length_cons] at hm
        omega
      by_cases hw : isJsWs c = true
      · rw [wsCollapseGo_ws_false hw, wsCollapseGo_true_eq]
        have hlen : (cs.dropWhile isJsWs).length ≤ n :=
          le_trans (List.dropWhile_sublist isJsWs).length_le hlcs
        have hrec := ihn _ hlen (winOk_dropWhile _ cs hrest)
        rcases dropWhile_ws_cases cs with hnil | ⟨y, ys, hdrop, hy⟩
        · rw [hnil, wsCollapseGo_nil]
          decide
        · rw [hdrop] at hrec ⊢
          rw [wsCollapseGo_other hy] at hrec ⊢
          rw [canonAuxW_cons2, canonStepOk_space_intro (nonws_ne_space hy), hrec]
          rfl
      · have hwf : isJsWs c = false := Bool.not_eq_true _ ▸ hw
        rw [wsCollapseGo_other hwf]
        have hrec := ihn cs hlcs hrest
        have hstep : canonStepOk c (wsCollapseGo false cs) = true := by
          by_cases hs : isSentencePunct c = true
          · rw [f6_sp hs] at hfc
            refine canonStepOk_sp_intro hs (afterP_collapse cs hfc) (noSpLP_collapse cs ?_)
            match cs with
            | [] => rfl
            | h :: cs2 =>
              by_cases hhw : isJsWs h = true
              · rw [← f6SP_ws hhw]
                exact hfc
              · exact wsLpOk_not_ws (Bool.not_eq_true _ ▸ hhw) _
          · have hsf : isSentencePunct c = false := Bool.not_eq_true _ ▸ hs
            by_cases hl : isListPunct c = true
            · rw [f6_lp hl] at hfc
              exact canonStepOk_lp_intro hl (afterD_collapse cs hfc)
            · have hlf : isListPunct c = false := Bool.not_eq_true _ ▸ hl
              rw [f6_other hsf hlf hwf] at hfc
              exact canonStepOk_other_intro hsf hlf hwf (nonws_ne_space hwf)
                (noSpLP_collapse cs hfc)
        match hz : wsCollapseGo false cs with
        | [] =>
          have hstep2 : canonStepOk c [] = true := hz ▸ hstep
          rw [canonAuxW_single, hstep2]
          simp
        | x :: xs =>
          have hstep2 : canonStepOk c (x :: xs) = true := hz ▸ hstep
          have hrec2 : canonAuxW (x :: xs) = true := hz ▸ hrec
          rw [canonAuxW_cons2, hstep2, hrec2]
          rfl

theorem spaceNext_drop_trailing : ∀ r0 : List Char,
    spaceNext (r0 ++ [' ']) = true → spaceNext r0 = true := by
  intro r0 h
  match r0 with
  | [] => exact absurd h (by decide)
  | c2 :: r2 =>
    rw [List.cons_append] at h
    exact h

theorem afterP_drop_trailing : ∀ r0 : List Char,
    afterP (r0 ++ [' ']) = true → afterP r0 = true := by
  intro r0 h
  match r0 with
  | [] => rfl
  | h1 :: r2 =>
    rw [List.cons_append] at h
    by_cases hq : isQuote h1 = true
    · exact afterP_quote hq r2
    · have hqf : isQuote h1 = false := Bool.not_eq_true _ ▸ hq
      by_cases hsp : h1 = ' '
      · subst hsp
        exact afterP_space r2
      · by_cases hl : isListPunct h1 = true
        · match r2 with
          | [] => exact afterP_lp_nil hqf hl
          | h2 :: r3 =>
            rw [List.cons_append, afterP.eq_def] at h
            simp only [hqf, hl, if_neg hsp, Bool.false_eq_true, if_false, if_true] at h
            exact afterP_lp_space hqf hl (by simpa using h) r3
        · exfalso
          rw [afterP.eq_def] at h
          simp [hqf, hsp, Bool.not_eq_true _ ▸ hl] at h

theorem noSpLP_drop_trailing : ∀ r0 : List Char,
    noSpLP (r0 ++ [' ']) = true → noSpLP r0 = true := by
  intro r0 h
  match r0 with
  | [] => rfl
  | [x] => exact noSpLP_single x
  | x :: y :: r =>
    by_cases hx : x = ' '
    · subst hx
      by_cases hy : isListPunct y = true
      · match r with
        | [] =>
          exfalso
          rw [List.cons_append, List.cons_append, List.nil_append, noSpLP.eq_def] at h
          simp [hy, isQuote_space] at h
        | q :: r2 =>
          rw [List.cons_append, List.cons_append, List.cons_append, noSpLP.eq_def] at h
          rw [noSpLP.eq_def]
          simp only [hy, if_true, if_pos] at h ⊢
          simpa using h
      · exact noSpLP_space_cons_not_lp (Bool.not_eq_true _ ▸ hy) r
    · exact noSpLP_not_space hx _

theorem afterD_drop_trailing : ∀ r0 : List Char,
    afterD (r0 ++ [' ']) = true → afterD r0 = true := by
  intro r0 h
  match r0 with
  | [] => rfl
  | x :: r =>
    rw [List.cons_append] at h
    exact h

theorem canonStepOk_drop_trailing {c : Char} : ∀ r0 : List Char,
    canonStepOk c (r0 ++ [' ']) = true → canonStepOk c r0 = true := by
  intro r0 h
  by_cases hsp : c = ' '
  · subst hsp
    simp only [canonStepOk, if_pos] at h ⊢
    exact spaceNext_drop_trailing r0 h
  · simp only [canonStepOk, if_neg hsp] at h ⊢
    by_cases hw : isJsWs c = true
    · rw [if_pos hw] at h
      exact absurd h (by simp)
    · rw [if_neg hw] at h ⊢
      by_cases hs : isSentencePunct c = true
      · rw [if_pos hs] at h ⊢
        rw [Bool.and_eq_true] at h ⊢
        exact ⟨afterP_drop_trailing r0 h.1, noSpLP_drop_trailing r0 h.2⟩
      · rw [if_neg hs] at h ⊢
        by_cases hl : isListPunct c = true
        · rw [if_pos hl] at h ⊢
          exact afterD_drop_trailing r0 h
        · rw [if_neg hl] at h ⊢
          exact noSpLP_drop_trailing r0 h

theorem canonAuxW_split : ∀ t : List Char, canonAuxW t = true →
    canonAux t = true ∨ ∃ t0, t = t0 ++ [' '] ∧ canonAux t0 = true := by
  intro t
  induction t with
  | nil => intro _; exact Or.inl rfl
  | cons c rest ih =>
    intro h
    match rest with
    | [] =>
      rw [canonAuxW_single] at h
      rcases Bool.or_eq_true .. ▸ h with hc | hstep
      · right
        refine ⟨[], ?_, rfl⟩
        rw [show c = ' ' from by simpa using hc]
        rfl
      · left
        rw [canonAux, hstep]
        rfl
    | r :: rs =>
      rw [canonAuxW_cons2] at h
      obtain ⟨hstep, hw2⟩ := Bool.and_eq_true .. ▸ h
      rcases ih hw2 with ha | ⟨t0, heq, h0⟩
      · left
        rw [canonAux, hstep, ha]
        rfl
      · right
        refine ⟨c :: t0, by rw [heq]; rfl, ?_⟩
        rw [heq] at hstep
        have hstep0 := canonStepOk_drop_trailing t0 hstep
        rw [canonAux, hstep0, h0]
        rfl

theorem canonAux_getLast : ∀ (t : List Char) (c : Char),
    canonAux t = true → t.getLast? = some c → isJsWs c = false := by
  intro t
  induction t with
  | nil =>
    intro c _ h
    exact absurd h (by simp)
  | cons x l ih =>
    intro c hc hl
    match l with
    | [] =>
      have hxc : x = c := by simpa using hl
      subst hxc
      obtain ⟨hstep, _⟩ := canonAux_cons hc
      by_cases hx : x = ' '
      · subst hx
        exfalso
        simp [canonStepOk, spaceNext] at hstep
      · exact canon_not_ws hstep hx
    | y :: l2 =>
      rw [List.getLast?_cons_cons] at hl
      exact ih c (canonAux_cons hc).2 hl

theorem reverse_dropWhile_ws_id {X : List Char}
    (h : ∀ y, X.getLast? = some y → isJsWs y = false) :
    (X.reverse.dropWhile isJsWs).reverse = X := by
  match hr : X.reverse with
  | [] =>
    have hX : X = [] := by simpa using congrArg List.reverse hr
    rw [hX]
    rfl
  | c :: t =>
    have hh : X.getLast? = some c := by
      rw [← List.head?_reverse, hr]
      rfl
    rw [dropWhile_ws_cons_nonws (h c hh), ← hr, List.reverse_reverse]

theorem canon_intro {c2 : Char} {r2 : List Char} (h1 : c2 ≠ ' ')
    (h2 : canonAux (c2 :: r2) = true) : canon (c2 :: r2) = true := by
  have hm : (match c2 :: r2 with | ' ' :: _ => false | _ => true) = true := by
    split
    · next heq =>
      exfalso
      exact h1 (List.cons.injEq .. ▸ heq).1
    · rfl
  simp only [canon, hm, h2, noSpLP_not_space h1 r2]
  rfl

theorem canon_parts {t : List Char} (h : canon t = true) :
    canonAux t = true ∧ noSpLP t = true ∧ ∀ c r, t = c :: r → c ≠ ' ' := by
  simp only [canon, Bool.and_eq_true] at h
  obtain ⟨⟨hm, ha⟩, hn⟩ := h
  refine ⟨ha, hn, ?_⟩
  intro c r ht hc
  subst ht
  subst hc
  simp at hm

theorem canon_jsTrim_of_canonAux : ∀ u : List Char, canonAux u = true →
    canon (jsTrim u) = true := by
  intro u hu
  match u with
  | [] => decide
  | c :: r =>
    obtain ⟨hstep, hr⟩ := canonAux_cons hu
    by_cases hc : c = ' '
    · subst hc
      obtain ⟨c2, r2, rfl, hc2⟩ := canon_space_next hstep
      have hw2 : isJsWs c2 = false := canon_not_ws (canonAux_cons hr).1 hc2
      have hdrop : ((' ' :: c2 :: r2).dropWhile isJsWs) = c2 :: r2 := by
        rw [List.dropWhile_cons, if_pos (by simp [space_ws])]
        exact dropWhile_ws_cons_nonws hw2 r2
      simp only [jsTrim]
      rw [hdrop, reverse_dropWhile_ws_id (fun y hy => canonAux_getLast _ y hr hy)]
      exact canon_intro hc2 hr
    · have hwc : isJsWs c = false := canon_not_ws hstep hc
      simp only [jsTrim]
      rw [dropWhile_ws_cons_nonws hwc r,
        reverse_dropWhile_ws_id (fun y hy => canonAux_getLast _ y hu hy)]
      exact canon_intro hc hu

theorem jsTrim_append_space (z0 : List Char) : jsTrim (z0 ++ [' ']) = jsTrim z0 := by
  simp only [jsTrim]
  rw [List.dropWhile_append]
  by_cases he : (z0.dropWhile isJsWs).isEmpty = true
  · rw [if_pos he]
    rw [List.isEmpty_iff] at he
    rw [he]
    rfl
  · rw [if_neg (by simp [he])]
    rw [List.reverse_append, show ([' '] : List Char).reverse = [' '] from rfl,
      List.singleton_append, List.dropWhile_cons, if_pos (by simp [space_ws])]

theorem canon_jsTrim_of_canonAuxW {z : List Char} (h : canonAuxW z = true) :
    canon (jsTrim z) = true := by
  rcases canonAuxW_split z h with ha | ⟨z0, heq, h0⟩
  · exact canon_jsTrim_of_canonAux z ha
  · rw [heq, jsTrim_append_space z0]
    exact canon_jsTrim_of_canonAux z0 h0

/-- The text produced by stages 1-8 plus trim is canonical. -/
theorem canon_pipeline (x : List Char) :
    canon (jsTrim (wsCollapse (listQuote (listSpace (sentenceQuote (sentenceSpace
      (nlTabCollapse (x.map quoteMapChar)))))))) = true := by
  have h4 := winOk_spOk_sentenceSpace (nlTabCollapse (x.map quoteMapChar)) none (by simp)
  have h45 := winOk_spOk_sentenceQuote (sentenceSpaceGo none
    (nlTabCollapse (x.map quoteMapChar))) none (fun _ => h4) (by simp)
  have h6 := (winOk_f6_listSpace _).1 h45
  rw [listQuote_id]
  have hW := canonAuxW_wsCollapse (listSpaceGo .start (sentenceQuoteGo none
    (sentenceSpaceGo none (nlTabCollapse (x.map quoteMapChar))))).length _ (le_refl _) h6
  exact canon_jsTrim_of_canonAuxW hW

/-! ## Character-level facts about lowercasing and quote mapping -/

theorem charToNat_inj {c d : Char} (h : c.toNat = d.toNat) : c = d := by
  apply Char.eq_of_val_eq
  apply UInt32.ext
  exact h

theorem char_ofNat_toNat {n : Nat} (h : n < 0xD800) : (Char.ofNat n).toNat = n := by
  have hv : n.isValidChar := Or.inl h
  simp [Char.ofNat, hv, Char.ofNatAux, Char.toNat, UInt32.toNat, UInt32.ofNat', Fin.ofNat']

theorem char_beq_false_of_toNat {c d : Char} (h : c.toNat ≠ d.toNat) : (c == d) = false := by
  rw [beq_eq_false_iff_ne]
  intro he
  exact h (by rw [he])

theorem isJsWs_letter {c : Char} (h1 : 65 ≤ c.toNat) (h2 : c.toNat ≤ 122) :
    isJsWs c = false := by
  simp only [isJsWs]
  rw [char_beq_false_of_toNat (show c.toNat ≠ (' ').toNat by simp; omega),
    char_beq_false_of_toNat (show c.toNat ≠ ('\t').toNat by simp; omega),
    char_beq_false_of_toNat (show c.toNat ≠ ('\n').toNat by simp; omega),
    char_beq_false_of_toNat (show c.toNat ≠ (Char.ofNat 11).toNat by simp; omega),
    char_beq_false_of_toNat (show c.toNat ≠ (Char.ofNat 12).toNat by simp; omega),
    char_beq_false_of_toNat (show c.toNat ≠ ('\r').toNat by simp; omega),
    char_beq_false_of_toNat (show c.toNat ≠ (Char.ofNat 0xA0).toNat by simp; omega),
    char_beq_false_of_toNat (show c.toNat ≠ (Char.ofNat 0x1680).toNat by simp; omega),
    char_beq_false_of_toNat (show c.toNat ≠ (Char.ofNat 0x2028).toNat by simp; omega),
    char_beq_false_of_toNat (show c.toNat ≠ (Char.ofNat 0x2029).toNat by simp; omega),
    char_beq_false_of_toNat (show c.toNat ≠ (Char.ofNat 0x202F).toNat by simp; omega),
    char_beq_false_of_toNat (show c.toNat ≠ (Char.ofNat 0x205F).toNat by simp; omega),
    char_beq_false_of_toNat (show c.toNat ≠ (Char.ofNat 0x3000).toNat by simp; omega),
    char_beq_false_of_toNat (show c.toNat ≠ (Char.ofNat 0xFEFF).toNat by simp; omega),
    decide_eq_false (show ¬(0x2000 ≤ c.toNat) by omega)]
  simp

theorem isSentencePunct_letter {c : Char} (h1 : 65 ≤ c.toNat) (h2 : c.toNat ≤ 122) :
    isSentencePunct c = false := by
  simp only [isSentencePunct]
  rw [char_beq_false_of_toNat (show c.toNat ≠ ('.').toNat by simp; omega),
    char_beq_false_of_toNat (show c.toNat ≠ ('!').toNat by simp; omega),
    char_beq_false_of_toNat (show c.toNat ≠ ('?').toNat by simp; omega)]
  simp

theorem isListPunct_letter {c : Char} (h1 : 65 ≤ c.toNat) (h2 : c.toNat ≤ 122) :
    isListPunct c = false := by
  simp only [isListPunct]
  rw [char_beq_false_of_toNat (show c.toNat ≠ (',').toNat by simp; omega),
    char_beq_false_of_toNat (show c.toNat ≠ (';').toNat by simp; omega),
    char_beq_false_of_toNat (show c.toNat ≠ (':').toNat by simp; omega)]
  simp

theorem isQuote_letter {c : Char} (h1 : 65 ≤ c.toNat) (h2 : c.toNat ≤ 122) :
    isQuote c = false := by
  simp only [isQuote]
  rw [char_beq_false_of_toNat (show c.toNat ≠ ('"').toNat by simp; omega),
    char_beq_false_of_toNat (show c.toNat ≠ ('\'').toNat by simp; omega)]
  simp

theorem isNlTab_letter {c : Char} (h1 : 65 ≤ c.toNat) (h2 : c.toNat ≤ 122) :
    isNlTab c = false := by
  simp only [isNlTab]
  rw [char_beq_false_of_toNat (show c.toNat ≠ ('\n').toNat by simp; omega),
    char_beq_false_of_toNat (show c.toNat ≠ ('\r').toNat by simp; omega),
    char_beq_false_of_toNat (show c.toNat ≠ ('\t').toNat by simp; omega)]
  simp

theorem isDoubleQuoteVariant_letter {c : Char} (h1 : 65 ≤ c.toNat) (h2 : c.toNat ≤ 122) :
    isDoubleQuoteVariant c = false := by
  simp only [isDoubleQuoteVariant]
  rw [char_beq_false_of_toNat (show c.toNat ≠ (Char.ofNat 0x201C).toNat by simp; omega),
    char_beq_false_of_toNat (show c.toNat ≠ (Char.ofNat 0x201D).toNat by simp; omega),
    char_beq_false_of_toNat (show c.toNat ≠ (Char.ofNat 0x201E).toNat by simp; omega),
    char_beq_false_of_toNat (show c.toNat ≠ (Char.ofNat 0x201F).toNat by simp; omega),
    char_beq_false_of_toNat (show c.toNat ≠ (Char.ofNat 0x2033).toNat by simp; omega),
    char_beq_false_of_toNat (show c.toNat ≠ (Char.ofNat 0x2036).toNat by simp; omega)]
  simp

theorem isSingleQuoteVariant_letter {c : Char} (h1 : 65 ≤ c.toNat) (h2 : c.toNat ≤ 122) :
    isSingleQuoteVariant c = false := by
  simp only [isSingleQuoteVariant]
  rw [char_beq_false_of_toNat (show c.toNat ≠ (Char.ofNat 0x2018).toNat by simp; omega),
    char_beq_false_of_toNat (show c.toNat ≠ (Char.ofNat 0x2019).toNat by simp; omega),
    char_beq_false_of_toNat (show c.toNat ≠ (Char.ofNat 0x201A).toNat by simp; omega),
    char_beq_false_of_toNat (show c.toNat ≠ (Char.ofNat 0x201B).toNat by simp; omega),
    char_beq_false_of_toNat (show c.toNat ≠ (Char.ofNat 0x2032).toNat by simp; omega),
    char_beq_false_of_toNat (show c.toNat ≠ (Char.ofNat 0x2035).toNat by simp; omega)]
  simp

theorem quoteMapChar_letter {c : Char} (h1 : 65 ≤ c.toNat) (h2 : c.toNat ≤ 122) :
    quoteMapChar c = c := by
  simp [quoteMapChar, isDoubleQuoteVariant_letter h1 h2, isSingleQuoteVariant_letter h1 h2]

theorem jsToLower_upper_toNat {c : Char} (h : 'A' ≤ c ∧ c ≤ 'Z') :
    (jsToLowerChar c).toNat = c.toNat + 32 ∧ 65 ≤ c.toNat ∧ c.toNat ≤ 90 := by
  obtain ⟨h1, h2⟩ := h
  have hb1 : 65 ≤ c.toNat := by exact h1
  have hb2 : c.toNat ≤ 90 := by exact h2
  refine ⟨?_, hb1, hb2⟩
  simp only [jsToLowerChar, if_pos (And.intro h1 h2)]
  exact char_ofNat_toNat (by omega)

theorem jsToLowerChar_not_upper {c : Char} (h : ¬('A' ≤ c ∧ c ≤ 'Z')) :
    jsToLowerChar c = c := by
  simp only [jsToLowerChar]
  rw [if_neg h]

theorem isJsWs_jsToLowerChar (c : Char) : isJsWs (jsToLowerChar c) = isJsWs c := by
  by_cases hU : 'A' ≤ c ∧ c ≤ 'Z'
  · obtain ⟨ht, hb1, hb2⟩ := jsToLower_upper_toNat hU
    rw [isJsWs_letter (by rw [ht]; omega) (by rw [ht]; omega),
      isJsWs_letter hb1 (by omega)]
  · rw [jsToLowerChar_not_upper hU]

theorem isSentencePunct_jsToLowerChar (c : Char) :
    isSentencePunct (jsToLowerChar c) = isSentencePunct c := by
  by_cases hU : 'A' ≤ c ∧ c ≤ 'Z'
  · obtain ⟨ht, hb1, hb2⟩ := jsToLower_upper_toNat hU
    rw [isSentencePunct_letter (by rw [ht]; omega) (by rw [ht]; omega),
      isSentencePunct_letter hb1 (by omega)]
  · rw [jsToLowerChar_not_upper hU]

theorem isListPunct_jsToLowerChar (c : Char) :
    isListPunct (jsToLowerChar c) = isListPunct c := by
  by_cases hU : 'A' ≤ c ∧ c ≤ 'Z'
  · obtain ⟨ht, hb1, hb2⟩ := jsToLower_upper_toNat hU
    rw [isListPunct_letter (by rw [ht]; omega) (by rw [ht]; omega),
      isListPunct_letter hb1 (by omega)]
  · rw [jsToLowerChar_not_upper hU]

theorem isQuote_jsToLowerChar (c : Char) : isQuote (jsToLowerChar c) = isQuote c := by
  by_cases hU : 'A' ≤ c ∧ c ≤ 'Z'
  · obtain ⟨ht, hb1, hb2⟩ := jsToLower_upper_toNat hU
    rw [isQuote_letter (by rw [ht]; omega) (by rw [ht]; omega),
      isQuote_letter hb1 (by omega)]
  · rw [jsToLowerChar_not_upper hU]

theorem isNlTab_jsToLowerChar (c : Char) : isNlTab (jsToLowerChar c) = isNlTab c := by
  by_cases hU : 'A' ≤ c ∧ c ≤ 'Z'
  · obtain ⟨ht, hb1, hb2⟩ := jsToLower_upper_toNat hU
    rw [isNlTab_letter (by rw [ht]; omega) (by rw [ht]; omega),
      isNlTab_letter hb1 (by omega)]
  · rw [jsToLowerChar_not_upper hU]

theorem jsToLowerChar_space_iff (c : Char) : jsToLowerChar c = ' ' ↔ c = ' ' := by
  by_cases hU : 'A' ≤ c ∧ c ≤ 'Z'
  · obtain ⟨ht, hb1, hb2⟩ := jsToLower_upper_toNat hU
    have h32 : (' ' : Char).toNat = 32 := rfl
    constructor
    · intro he
      exfalso
      have := congrArg Char.toNat he
      rw [ht, h32] at this
      omega
    · intro he
      exfalso
      have := congrArg Char.toNat he
      rw [h32] at this
      omega
  · rw [jsToLowerChar_not_upper hU]

theorem jsToLowerChar_beq_space (c : Char) : (jsToLowerChar c == ' ') = (c == ' ') := by
  by_cases hc : c = ' '
  · subst hc
    rw [show jsToLowerChar ' ' = ' ' from by decide]
  · have hc2 : jsToLowerChar c ≠ ' ' := fun he => hc ((jsToLowerChar_space_iff c).mp he)
    rw [beq_eq_false_iff_ne.mpr hc2, beq_eq_false_iff_ne.mpr hc]

theorem jsToLowerChar_idem (c : Char) :
    jsToLowerChar (jsToLowerChar c) = jsToLowerChar c := by
  by_cases hU : 'A' ≤ c ∧ c ≤ 'Z'
  · obtain ⟨ht, hb1, hb2⟩ := jsToLower_upper_toNat hU
    refine jsToLowerChar_not_upper ?_
    intro hU2
    have hz : (jsToLowerChar c).toNat ≤ 90 := by exact hU2.2
    omega
  · have he := jsToLowerChar_not_upper hU
    rw [he]
    exact he

theorem quoteMapChar_jsToLowerChar {c : Char} (h : quoteMapChar c = c) :
    quoteMapChar (jsToLowerChar c) = jsToLowerChar c := by
  by_cases hU : 'A' ≤ c ∧ c ≤ 'Z'
  · obtain ⟨ht, hb1, hb2⟩ := jsToLower_upper_toNat hU
    exact quoteMapChar_letter (by rw [ht]; omega) (by rw [ht]; omega)
  · rw [jsToLowerChar_not_upper hU]
    exact h

theorem quoteMapChar_idem (c : Char) : quoteMapChar (quoteMapChar c) = quoteMapChar c := by
  by_cases hd : isDoubleQuoteVariant c = true
  · rw [show quoteMapChar c = '"' from by simp [quoteMapChar, hd]]
    decide
  · have hdf : isDoubleQuoteVariant c = false := Bool.not_eq_true _ ▸ hd
    by_cases hs : isSingleQuoteVariant c = true
    · rw [show quoteMapChar c = '\'' from by simp [quoteMapChar, hdf, hs]]
      decide
    · have hsf : isSingleQuoteVariant c = false := Bool.not_eq_true _ ▸ hs
      have he : quoteMapChar c = c := by simp [quoteMapChar, hdf, hsf]
      rw [he]
      exact he

/-! ## Canonicity is preserved by the lowercasing pass -/

theorem spaceNext_map : ∀ r : List Char,
    spaceNext (r.map jsToLowerChar) = spaceNext r := by
  intro r
  match r with
  | [] => rfl
  | c2 :: r2 =>
    rw [List.map_cons]
    show (!(jsToLowerChar c2 == ' ')) = !(c2 == ' ')
    rw [jsToLowerChar_beq_space]

theorem afterD_map : ∀ r : List Char, afterD (r.map jsToLowerChar) = afterD r := by
  intro r
  match r with
  | [] => rfl
  | h :: r2 =>
    rw [List.map_cons]
    show (isQuote (jsToLowerChar h) || (jsToLowerChar h == ' ')) = (isQuote h || (h == ' '))
    rw [isQuote_jsToLowerChar, jsToLowerChar_beq_space]

theorem afterP_lp_eval {h : Char} (hq : isQuote h = false) (hsp : h ≠ ' ')
    (hl : isListPunct h = true) (h2 : Char) (r3 : List Char) :
    afterP (h :: h2 :: r3) = (h2 == ' ') := by
  rw [afterP.eq_def]
  simp [hq, hsp, hl]

theorem afterP_map : ∀ r : List Char, afterP (r.map jsToLowerChar) = afterP r := by
  intro r
  match r with
  | [] => rfl
  | h :: r2 =>
    rw [List.map_cons]
    by_cases hq : isQuote h = true
    · rw [afterP_quote (by rw [isQuote_jsToLowerChar]; exact hq) _, afterP_quote hq]
    · have hqf : isQuote h = false := Bool.not_eq_true _ ▸ hq
      have hqf2 : isQuote (jsToLowerChar h) = false := by
        rw [isQuote_jsToLowerChar]
        exact hqf
      by_cases hsp : h = ' '
      · subst hsp
        rw [show jsToLowerChar ' ' = ' ' from by decide, afterP_space, afterP_space]
      · have hsp2 : jsToLowerChar h ≠ ' ' := fun he => hsp ((jsToLowerChar_space_iff h).mp he)
        by_cases hl : isListPunct h = true
        · have hl2 : isListPunct (jsToLowerChar h) = true := by
            rw [isListPunct_jsToLowerChar]
            exact hl
          match r2 with
          | [] => rw [show (([] : List Char).map jsToLowerChar) = [] from rfl,
              afterP_lp_nil hqf2 hl2, afterP_lp_nil hqf hl]
          | h2 :: r3 =>
            rw [List.map_cons, afterP_lp_eval hqf2 hsp2 hl2, afterP_lp_eval hqf hsp hl,
              jsToLowerChar_beq_space]
        · have hlf : isListPunct h = false := Bool.not_eq_true _ ▸ hl
          have hlf2 : isListPunct (jsToLowerChar h) = false := by
            rw [isListPunct_jsToLowerChar]
            exact hlf
          rw [afterP_other_false hqf2 hsp2 hlf2 _, afterP_other_false hqf hsp hlf _]

theorem noSpLP_space_lp_nil {d : Char} (hd : isListPunct d = true) :
    noSpLP [' ', d] = false := by
  rw [noSpLP.eq_def]
  simp [hd]

theorem noSpLP_space_lp_cons {d q : Char} (hd : isListPunct d = true) (r4 : List Char) :
    noSpLP (' ' :: d :: q :: r4) = isQuote q := by
  rw [noSpLP.eq_def]
  simp [hd]

theorem noSpLP_map : ∀ r : List Char, noSpLP (r.map jsToLowerChar) = noSpLP r := by
  intro r
  match r with
  | [] => rfl
  | [x] =>
    rw [show ([x].map jsToLowerChar) = [jsToLowerChar x] from rfl, noSpLP_single,
      noSpLP_single]
  | x :: d :: r3 =>
    by_cases hx : x = ' '
    · subst hx
      rw [List.map_cons, List.map_cons, show jsToLowerChar ' ' = ' ' from by decide]
      by_cases hd : isListPunct d = true
      · have hd2 : isListPunct (jsToLowerChar d) = true := by
          rw [isListPunct_jsToLowerChar]
          exact hd
        match r3 with
        | [] => rw [show (([] : List Char).map jsToLowerChar) = [] from rfl,
            noSpLP_space_lp_nil hd2, noSpLP_space_lp_nil hd]
        | q :: r4 =>
          rw [List.map_cons, noSpLP_space_lp_cons hd2 _, noSpLP_space_lp_cons hd _,
            isQuote_jsToLowerChar]
      · have hdf : isListPunct d = false := Bool.not_eq_true _ ▸ hd
        have hdf2 : isListPunct (jsToLowerChar d) = false := by
          rw [isListPunct_jsToLowerChar]
          exact hdf
        rw [noSpLP_space_cons_not_lp hdf2 _, noSpLP_space_cons_not_lp hdf _]
    · have hx2 : jsToLowerChar x ≠ ' ' := fun he => hx ((jsToLowerChar_space_iff x).mp he)
      rw [List.map_cons, noSpLP_not_space hx2 _, noSpLP_not_space hx _]

theorem canonStepOk_map (c : Char) (r : List Char) :
    canonStepOk (jsToLowerChar c) (r.map jsToLowerChar) = canonStepOk c r := by
  by_cases hc : c = ' '
  · subst hc
    rw [show jsToLowerChar ' ' = ' ' from by decide]
    simp only [canonStepOk, if_pos]
    exact spaceNext_map r
  · have hc2 : jsToLowerChar c ≠ ' ' := fun he => hc ((jsToLowerChar_space_iff c).mp he)
    simp only [canonStepOk, if_neg hc, if_neg hc2]
    rw [isJsWs_jsToLowerChar]
    by_cases hw : isJsWs c = true
    · rw [if_pos hw, if_pos hw]
    · rw [if_neg hw, if_neg hw, isSentencePunct_jsToLowerChar]
      by_cases hs : isSentencePunct c = true
      · rw [if_pos hs, if_pos hs, afterP_map, noSpLP_map]
      · rw [if_neg hs, if_neg hs, isListPunct_jsToLowerChar]
        by_cases hl : isListPunct c = true
        · rw [if_pos hl, if_pos hl, afterD_map]
        · rw [if_neg hl, if_neg hl, noSpLP_map]

theorem canonAux_map : ∀ t : List Char, canonAux (t.map jsToLowerChar) = canonAux t := by
  intro t
  induction t with
  | nil => rfl
  | cons c r ih => rw [List.map_cons, canonAux, canonAux, canonStepOk_map, ih]

theorem canon_jsToLower {t : List Char} (h : canon t = true) : canon (jsToLower t) = true := by
  obtain ⟨ha, _, hh⟩ := canon_parts h
  match t with
  | [] => exact h
  | c :: r =>
    rw [jsToLower, List.map_cons]
    refine canon_intro (fun he => hh c r rfl ((jsToLowerChar_space_iff c).mp he)) ?_
    rw [show (jsToLowerChar c :: r.map jsToLowerChar) = (c :: r).map jsToLowerChar from rfl,
      canonAux_map]
    exact ha

/-! ## The character set of the normalization image -/

theorem mem_nlTabGo (P : Char → Prop) (hP : P ' ') :
    ∀ (l : List Char) (b : Bool), (∀ c ∈ l, isNlTab c = false → P c) →
      ∀ c ∈ nlTabGo b l, P c := by
  intro l
  induction l with
  | nil =>
    intro b _ c hc
    exact absurd hc (by simp [nlTabGo])
  | cons a l ih =>
    intro b hl c hc
    have hl2 : ∀ x ∈ l, isNlTab x = false → P x := fun x hx h => hl x (by simp [hx]) h
    by_cases ha : isNlTab a = true
    · match b with
      | true =>
        rw [nlTabGo_run_true ha] at hc
        exact ih true hl2 c hc
      | false =>
        rw [nlTabGo_run_false ha] at hc
        rcases List.mem_cons.mp hc with rfl | hc2
        · exact hP
        · exact ih true hl2 c hc2
    · have haf : isNlTab a = false := Bool.not_eq_true _ ▸ ha
      rw [nlTabGo_other haf] at hc
      rcases List.mem_cons.mp hc with rfl | hc2
      · exact hl _ (by simp) haf
      · exact ih false hl2 c hc2

theorem mem_sentenceSpaceGo (P : Char → Prop) (hP : P ' ') :
    ∀ (l : List Char) (st : Option (Char × Option Char)),
      (∀ c ∈ l, P c) →
      (∀ p lw, st = some (p, lw) → P p ∧ ∀ w, lw = some w → P w) →
      ∀ c ∈ sentenceSpaceGo st l, P c := by
  intro l
  induction l with
  | nil =>
    intro st hl hst c hc
    match st with
    | none => exact absurd hc (by simp [sentenceSpaceGo_none_nil])
    | some (p, lw) =>
      have hpp := (hst p lw rfl).1
      rw [sentenceSpaceGo_pend_nil] at hc
      rcases List.mem_cons.mp hc with rfl | hc2
      · exact hpp
      · rw [List.mem_singleton.mp hc2]
        exact hP
  | cons a l ih =>
    intro st hl hst c hc
    have hl2 : ∀ x ∈ l, P x := fun x hx => hl x (by simp [hx])
    have hpa : P a := hl a (by simp)
    match st with
    | none =>
      by_cases hs : isSentencePunct a = true
      · rw [sentenceSpaceGo_none_sp hs] at hc
        refine ih _ hl2 (fun p lw h => ?_) c hc
        obtain ⟨h1, h2⟩ := Prod.mk.injEq .. ▸ Option.some.injEq .. ▸ h
        subst h1
        exact ⟨hpa, fun w hw => by rw [← h2] at hw; exact absurd hw (by simp)⟩
      · rw [sentenceSpaceGo_none_other (Bool.not_eq_true _ ▸ hs)] at hc
        rcases List.mem_cons.mp hc with rfl | hc2
        · exact hpa
        · exact ih none hl2 (by simp) c hc2
    | some (p, lw) =>
      obtain ⟨hpp, hplw⟩ := hst p lw rfl
      by_cases hw : isJsWs a = true
      · rw [sentenceSpaceGo_pend_ws hw] at hc
        refine ih _ hl2 (fun p2 lw2 h => ?_) c hc
        obtain ⟨h1, h2⟩ := Prod.mk.injEq .. ▸ Option.some.injEq .. ▸ h
        subst h1
        refine ⟨hpp, fun w hww => ?_⟩
        rw [← h2] at hww
        exact (Option.some.injEq .. ▸ hww) ▸ hpa
      · have hwf : isJsWs a = false := Bool.not_eq_true _ ▸ hw
        by_cases hq : isQuote a = true
        · match lw with
          | none =>
            rw [sentenceSpaceGo_pend_quote_none hwf hq] at hc
            rcases List.mem_cons.mp hc with rfl | hc2
            · exact hpp
            · rcases List.mem_cons.mp hc2 with rfl | hc3
              · exact hpa
              · exact ih none hl2 (by simp) c hc3
          | some w =>
            have hpw : P w := hplw w rfl
            rw [sentenceSpaceGo_pend_quote_some hwf hq] at hc
            rcases List.mem_cons.mp hc with rfl | hc2
            · exact hpp
            rcases List.mem_cons.mp hc2 with rfl | hc3
            · exact hP
            rcases List.mem_cons.mp hc3 with rfl | hc4
            · exact hpw
            rcases List.mem_cons.mp hc4 with rfl | hc5
            · exact hpa
            exact ih none hl2 (by simp) c hc5
        · have hqf : isQuote a = false := Bool.not_eq_true _ ▸ hq
          by_cases hs : isSentencePunct a = true
          · rw [sentenceSpaceGo_pend_sp hwf hqf hs] at hc
            rcases List.mem_cons.mp hc with rfl | hc2
            · exact hpp
            rcases List.mem_cons.mp hc2 with rfl | hc3
            · exact hP
            refine ih _ hl2 (fun p2 lw2 h => ?_) c hc3
            obtain ⟨h1, h2⟩ := Prod.mk.injEq .. ▸ Option.some.injEq .. ▸ h
            subst h1
            exact ⟨hpa, fun w hw2 => by rw [← h2] at hw2; exact absurd hw2 (by simp)⟩
          · rw [sentenceSpaceGo_pend_other hwf hqf (Bool.not_eq_true _ ▸ hs)] at hc
            rcases List.mem_cons.mp hc with rfl | hc2
            · exact hpp
            rcases List.mem_cons.mp hc2 with rfl | hc3
            · exact hP
            rcases List.mem_cons.mp hc3 with rfl | hc4
            · exact hpa
            exact ih none hl2 (by simp) c hc4

theorem mem_sentenceQuoteGo (P : Char → Prop) (hP : P ' ') :
    ∀ (l : List Char) (st : Option (Char × List Char)),
      (∀ c ∈ l, P c) →
      (∀ p run, st = some (p, run) → P p ∧ ∀ w ∈ run, P w) →
      ∀ c ∈ sentenceQuoteGo st l, P c := by
  intro l
  induction l with
  | nil =>
    intro st hl hst c hc
    match st with
    | none => exact absurd hc (by simp [sentenceQuoteGo_none_nil])
    | some (p, run) =>
      obtain ⟨hpp, hrun⟩ := hst p run rfl
      rw [sentenceQuoteGo_pend_nil] at hc
      rcases List.mem_cons.mp hc with rfl | hc2
      · exact hpp
      · exact hrun c hc2
  | cons a l ih =>
    intro st hl hst c hc
    have hl2 : ∀ x ∈ l, P x := fun x hx => hl x (by simp [hx])
    have hpa : P a := hl a (by simp)
    match st with
    | none =>
      by_cases hs : isSentencePunct a = true
      · rw [sentenceQuoteGo_none_sp hs] at hc
        refine ih _ hl2 (fun p run h => ?_) c hc
        obtain ⟨h1, h2⟩ := Prod.mk.injEq .. ▸ Option.some.injEq .. ▸ h
        subst h1
        rw [← h2]
        exact ⟨hpa, by simp⟩
      · rw [sentenceQuoteGo_none_other (Bool.not_eq_true _ ▸ hs)] at hc
        rcases List.mem_cons.mp hc with rfl | hc2
        · exact hpa
        · exact ih none hl2 (by simp) c hc2
    | some (p, run) =>
      obtain ⟨hpp, hrun⟩ := hst p run rfl
      by_cases hw : isJsWs a = true
      · rw [sentenceQuoteGo_pend_ws hw] at hc
        refine ih _ hl2 (fun p2 run2 h => ?_) c hc
        obtain ⟨h1, h2⟩ := Prod.mk.injEq .. ▸ Option.some.injEq .. ▸ h
        subst h1
        rw [← h2]
        refine ⟨hpp, fun w hwm => ?_⟩
        rcases List.mem_append.mp hwm with h3 | h3
        · exact hrun w h3
        · rw [List.mem_singleton.mp h3]
          exact hpa
      · have hwf : isJsWs a = false := Bool.not_eq_true _ ▸ hw
        by_cases hqr : (isQuote a && !run.isEmpty) = true
        · obtain ⟨hq, hre⟩ := Bool.and_eq_true .. ▸ hqr
          have hrne : run ≠ [] := by
            intro h0
            rw [h0] at hre
            exact absurd hre (by simp)
          rw [sentenceQuoteGo_pend_quote_run hwf hq p hrne] at hc
          rcases List.mem_cons.mp hc with rfl | hc2
          · exact hpp
          rcases List.mem_cons.mp hc2 with rfl | hc3
          · exact hP
          rcases List.mem_cons.mp hc3 with rfl | hc4
          · exact hpa
          exact ih none hl2 (by simp) c hc4
        · have hqrf : (isQuote a && !run.isEmpty) = false := Bool.not_eq_true _ ▸ hqr
          by_cases hs : isSentencePunct a = true
          · rw [sentenceQuoteGo_pend_sp hwf hqrf hs] at hc
            rcases List.mem_append.mp hc with hc2 | hc2
            · rcases List.mem_cons.mp hc2 with rfl | hc3
              · exact hpp
              · exact hrun c hc3
            · refine ih _ hl2 (fun p2 run2 h => ?_) c hc2
              obtain ⟨h1, h2⟩ := Prod.mk.injEq .. ▸ Option.some.injEq .. ▸ h
              subst h1
              rw [← h2]
              exact ⟨hpa, by simp⟩
          · rw [sentenceQuoteGo_pend_other hwf hqrf (Bool.not_eq_true _ ▸ hs)] at hc
            rcases List.mem_append.mp hc with hc2 | hc2
            · rcases List.mem_cons.mp hc2 with rfl | hc3
              · exact hpp
              · exact hrun c hc3
            · rcases List.mem_cons.mp hc2 with rfl | hc3
              · exact hpa
              · exact ih none hl2 (by simp) c hc3

theorem mem_listSpaceGo (P : Char → Prop) (hP : P ' ') :
    ∀ (l : List Char) (st : ListSpaceState),
      (∀ c ∈ l, P c) →
      (∀ run, st = .wsRun run → ∀ w ∈ run, P w) →
      (∀ run d trail, st = .punct run d trail →
        P d ∧ (∀ w ∈ run, P w) ∧ ∀ w ∈ trail, P w) →
      ∀ c ∈ listSpaceGo st l, P c := by
  intro l
  induction l with
  | nil =>
    intro st hl hw hp c hc
    match st with
    | .start => exact absurd hc (by simp [listSpaceGo_start_nil])
    | .wsRun run =>
      rw [listSpaceGo_ws_nil] at hc
      exact hw run rfl c hc
    | .punct run d trail =>
      obtain ⟨hpd, _, _⟩ := hp run d trail rfl
      rw [listSpaceGo_punct_nil] at hc
      rcases List.mem_cons.mp hc with rfl | hc2
      · exact hpd
      · rw [List.mem_singleton.mp hc2]
        exact hP
  | cons a l ih =>
    intro st hl hst hp c hc
    have hl2 : ∀ x ∈ l, P x := fun x hx => hl x (by simp [hx])
    have hpa : P a := hl a (by simp)
    match st with
    | .start =>
      by_cases hw : isJsWs a = true
      · rw [listSpaceGo_start_ws hw] at hc
        refine ih _ hl2 (fun run h => ?_) (fun run d trail h => absurd h (by simp)) c hc
        cases h
        intro w hwm
        rw [List.mem_singleton.mp hwm]
        exact hpa
      · have hwf : isJsWs a = false := Bool.not_eq_true _ ▸ hw
        by_cases hlp : isListPunct a = true
        · rw [listSpaceGo_start_lp hwf hlp] at hc
          refine ih _ hl2 (fun run h => absurd h (by simp)) (fun run d trail h => ?_) c hc
          cases h
          exact ⟨hpa, by simp, by simp⟩
        · rw [listSpaceGo_start_other hwf (Bool.not_eq_true _ ▸ hlp)] at hc
          rcases List.mem_cons.mp hc with rfl | hc2
          · exact hpa
          · exact ih .start hl2 (fun run h => absurd h (by simp)) (fun run d trail h => absurd h (by simp))
              c hc2
    | .wsRun run =>
      have hrun := hst run rfl
      by_cases hw : isJsWs a = true
      · rw [listSpaceGo_ws_ws hw] at hc
        refine ih _ hl2 (fun run2 h => ?_) (fun run2 d trail h => absurd h (by simp)) c hc
        cases h
        intro w hwm
        rcases List.mem_append.mp hwm with h3 | h3
        · exact hrun w h3
        · rw [List.mem_singleton.mp h3]
          exact hpa
      · have hwf : isJsWs a = false := Bool.not_eq_true _ ▸ hw
        by_cases hlp : isListPunct a = true
        · rw [listSpaceGo_ws_lp hwf hlp] at hc
          refine ih _ hl2 (fun run2 h => absurd h (by simp)) (fun run2 d trail h => ?_) c hc
          cases h
          exact ⟨hpa, hrun, by simp⟩
        · rw [listSpaceGo_ws_other hwf (Bool.not_eq_true _ ▸ hlp)] at hc
          rcases List.mem_append.mp hc with hc2 | hc2
          · exact hrun c hc2
          · rcases List.mem_cons.mp hc2 with rfl | hc3
            · exact hpa
            · exact ih .start hl2 (fun run2 h => absurd h (by simp))
                (fun run2 d trail h => absurd h (by simp)) c hc3
    | .punct run d trail =>
      obtain ⟨hpd, hrun, htrail⟩ := hp run d trail rfl
      by_cases hw : isJsWs a = true
      · rw [listSpaceGo_punct_ws hw] at hc
        refine ih _ hl2 (fun run2 h => absurd h (by simp)) (fun run2 d2 trail2 h => ?_) c hc
        cases h
        refine ⟨hpd, hrun, fun w hwm => ?_⟩
        rcases List.mem_append.mp hwm with h3 | h3
        · exact htrail w h3
        · rw [List.mem_singleton.mp h3]
          exact hpa
      · have hwf : isJsWs a = false := Bool.not_eq_true _ ▸ hw
        by_cases hq : isQuote a = true
        · match htl : trail.getLast? with
          | none =>
            have ht0 : trail = [] := by simpa using htl
            subst ht0
            rw [listSpaceGo_punct_quote_nil hwf hq] at hc
            rcases List.mem_append.mp hc with hc2 | hc2
            · exact hrun c hc2
            rcases List.mem_cons.mp hc2 with rfl | hc3
            · exact hpd
            rcases List.mem_cons.mp hc3 with rfl | hc4
            · exact hpa
            exact ih .start hl2 (fun run2 h => absurd h (by simp))
              (fun run2 d2 trail2 h => absurd h (by simp)) c hc4
          | some w =>
            have hwmem : w ∈ trail := by
              obtain ⟨hne, hwe⟩ := List.mem_getLast?_eq_getLast
                (show w ∈ trail.getLast? from by rw [htl]; rfl)
              rw [hwe]
              exact List.getLast_mem hne
            rw [listSpaceGo_punct_quote_trail hwf hq run d htl l] at hc
            rcases List.mem_cons.mp hc with rfl | hc2
            · exact hpd
            rcases List.mem_cons.mp hc2 with rfl | hc3
            · exact hP
            rcases List.mem_cons.mp hc3 with rfl | hc4
            · exact htrail _ hwmem
            rcases List.mem_cons.mp hc4 with rfl | hc5
            · exact hpa
            exact ih .start hl2 (fun run2 h => absurd h (by simp))
              (fun run2 d2 trail2 h => absurd h (by simp)) c hc5
        · have hqf : isQuote a = false := Bool.not_eq_true _ ▸ hq
          by_cases hlp : isListPunct a = true
          · rw [listSpaceGo_punct_lp hwf hqf hlp] at hc
            rcases List.mem_cons.mp hc with rfl | hc2
            · exact hpd
            rcases List.mem_cons.mp hc2 with rfl | hc3
            · exact hP
            refine ih _ hl2 (fun run2 h => absurd h (by simp)) (fun run2 d2 trail2 h => ?_) c hc3
            cases h
            exact ⟨hpa, by simp, by simp⟩
          · rw [listSpaceGo_punct_other hwf hqf (Bool.not_eq_true _ ▸ hlp)] at hc
            rcases List.mem_cons.mp hc with rfl | hc2
            · exact hpd
            rcases List.mem_cons.mp hc2 with rfl | hc3
            · exact hP
            rcases List.mem_cons.mp hc3 with rfl | hc4
            · exact hpa
            exact ih .start hl2 (fun run2 h => absurd h (by simp))
              (fun run2 d2 trail2 h => absurd h (by simp)) c hc4

theorem mem_wsCollapseGo (P : Char → Prop) (hP : P ' ') :
    ∀ (l : List Char) (b : Bool), (∀ c ∈ l, P c) → ∀ c ∈ wsCollapseGo b l, P c := by
  intro l
  induction l with
  | nil =>
    intro b _ c hc
    exact absurd hc (by simp [wsCollapseGo_nil])
  | cons a l ih =>
    intro b hl c hc
    have hl2 : ∀ x ∈ l, P x := fun x hx => hl x (by simp [hx])
    by_cases hw : isJsWs a = true
    · match b with
      | true =>
        rw [wsCollapseGo_ws_true hw] at hc
        exact ih true hl2 c hc
      | false =>
        rw [wsCollapseGo_ws_false hw] at hc
        rcases List.mem_cons.mp hc with rfl | hc2
        · exact hP
        · exact ih true hl2 c hc2
    · rw [wsCollapseGo_other (Bool.not_eq_true _ ▸ hw)] at hc
      rcases List.mem_cons.mp hc with rfl | hc2
      · exact hl _ (by simp)
      · exact ih false hl2 c hc2

theorem mem_jsTrim {l : List Char} : ∀ c ∈ jsTrim l, c ∈ l := by
  intro c hc
  simp only [jsTrim] at hc
  rw [List.mem_reverse] at hc
  have h2 : c ∈ (l.dropWhile isJsWs).reverse := (List.dropWhile_sublist _).subset hc
  rw [List.mem_reverse] at h2
  exact (List.dropWhile_sublist _).subset h2

theorem charset_pipeline (x : List Char) :
    ∀ c ∈ jsTrim (wsCollapse (listQuote (listSpace (sentenceQuote (sentenceSpace
      (nlTabCollapse (x.map quoteMapChar))))))),
      quoteMapChar c = c ∧ isNlTab c = false := by
  have hP : (fun c => quoteMapChar c = c ∧ isNlTab c = false) ' ' := by
    exact ⟨by decide, by decide⟩
  have hbase : ∀ c ∈ nlTabCollapse (x.map quoteMapChar),
      quoteMapChar c = c ∧ isNlTab c = false := by
    refine mem_nlTabGo _ hP _ false (fun y hy hnl => ?_)
    obtain ⟨a, _, rfl⟩ := List.mem_map.mp hy
    exact ⟨quoteMapChar_idem a, hnl⟩
  have h4m := mem_sentenceSpaceGo _ hP _ none hbase (by simp)
  have h45m := mem_sentenceQuoteGo _ hP _ none h4m (by simp)
  have h6m := mem_listSpaceGo _ hP _ .start h45m (fun run h => absurd h (by simp))
    (fun run d trail h => absurd h (by simp))
  rw [listQuote_id]
  have h8m := mem_wsCollapseGo _ hP _ false h6m
  intro c hc
  exact h8m c (mem_jsTrim c hc)

/-! ## Canonical, character-set-clean text is a fixed point of the pipeline -/

theorem map_fixed {f : Char → Char} : ∀ l : List Char, (∀ c ∈ l, f c = c) →
    l.map f = l := by
  intro l
  induction l with
  | nil => intro _; rfl
  | cons a t ih =>
    intro h
    rw [List.map_cons, h a (by simp), ih (fun c hc => h c (by simp [hc]))]

theorem nlTabGo_id : ∀ l : List Char, (∀ c ∈ l, isNlTab c = false) →
    nlTabGo false l = l := by
  intro l
  induction l with
  | nil => intro _; rfl
  | cons a t ih =>
    intro h
    rw [nlTabGo_other (h a (by simp)), ih (fun c hc => h c (by simp [hc]))]

theorem jsTrim_canon_id {t : List Char} (hc : canon t = true) : jsTrim t = t := by
  obtain ⟨ha, _, hhead⟩ := canon_parts hc
  match t with
  | [] => rfl
  | c :: r =>
    have hcne : c ≠ ' ' := hhead c r rfl
    have hw : isJsWs c = false := canon_not_ws (canonAux_cons ha).1 hcne
    simp only [jsTrim]
    rw [dropWhile_ws_cons_nonws hw,
      reverse_dropWhile_ws_id (fun y hy => canonAux_getLast _ y ha hy)]

theorem normalizeChars_fixed {t : List Char} (hc : canon t = true)
    (hq : ∀ c ∈ t, quoteMapChar c = c) (hn : ∀ c ∈ t, isNlTab c = false)
    (hlow : ∀ c ∈ t, jsToLowerChar c = c) :
    normalizeChars t defaultNormalizeOptions = t := by
  obtain ⟨ha, hnsp, _⟩ := canon_parts hc
  have hmap : t.map quoteMapChar = t := map_fixed t hq
  show jsToLower (jsTrim (wsCollapse (listQuote (listSpace (sentenceQuote (sentenceSpace
    (nlTabCollapse (t.map quoteMapChar)))))))) = t
  rw [hmap, show nlTabCollapse t = nlTabGo false t from rfl, nlTabGo_id t hn,
    show sentenceSpace t = e4 t from sentenceSpace_on_canon t ha,
    show sentenceQuote (e4 t) = e45 t from sentenceQuote_on_e4 t ha,
    show listSpace (e45 t) = e6 t from
      (listSpace_on_e45_both t.length).1 t (le_refl _) ha hnsp,
    listQuote_id]
  rcases (wsCollapse_on_e6_both t.length).1 t (le_refl _) ha hnsp with h8 | h8
  · rw [show wsCollapse (e6 t) = t from h8, jsTrim_canon_id hc, show jsToLower t = t from
      map_fixed t hlow]
  · rw [show wsCollapse (e6 t) = t ++ [' '] from h8, jsTrim_append_space,
      jsTrim_canon_id hc, show jsToLower t = t from map_fixed t hlow]

theorem normalizeChars_idem (x : List Char) :
    normalizeChars (normalizeChars x defaultNormalizeOptions) defaultNormalizeOptions =
      normalizeChars x defaultNormalizeOptions := by
  have hzdef : normalizeChars x defaultNormalizeOptions =
      jsToLower (jsTrim (wsCollapse (listQuote (listSpace (sentenceQuote (sentenceSpace
        (nlTabCollapse (x.map quoteMapChar)))))))) := rfl
  have hcw := canon_pipeline x
  have hchar := charset_pipeline x
  rw [hzdef]
  refine normalizeChars_fixed (canon_jsToLower hcw) ?_ ?_ ?_
  · intro c hcm
    obtain ⟨a, ham, rfl⟩ := List.mem_map.mp hcm
    exact quoteMapChar_jsToLowerChar (hchar a ham).1
  · intro c hcm
    obtain ⟨a, ham, rfl⟩ := List.mem_map.mp hcm
    rw [isNlTab_jsToLowerChar]
    exact (hchar a ham).2
  · intro c hcm
    obtain ⟨a, _, rfl⟩ := List.mem_map.mp hcm
    exact jsToLowerChar_idem a

/-- C5: `normalizeText` with the default options is idempotent: applying it a
second time to its own output returns the output unchanged. -/
theorem normalizeText_idem (s : String) :
    normalizeText (normalizeText s defaultNormalizeOptions) defaultNormalizeOptions =
      normalizeText s defaultNormalizeOptions := by
  show (⟨normalizeChars (normalizeChars s.data defaultNormalizeOptions)
    defaultNormalizeOptions⟩ : String) = ⟨normalizeChars s.data defaultNormalizeOptions⟩
  rw [normalizeChars_idem]

/-! ## Similarity (source: `computeSimilarity` / `levenshteinDistance`) -/

/-- Row-based rendering of the inner `for j` loop of the source DP: `d` is
`dp[i-1][j-1]`, the head of `ds` is `dp[i-1][j]`, `l` is `dp[i][j-1]`, and the
emitted value is `dp[i][j] = min(dp[i-1][j]+1, dp[i][j-1]+1, dp[i-1][j-1]+cost)`
with `cost = 0` iff the characters agree. -/
def levAux (c1 : Char) : List Char → List Nat → Nat → List Nat
  | [], _, _ => []
  | _ :: _, [], _ => []
  | c2 :: s2, d :: ds, l =>
    let cost : Nat := if c1 = c2 then 0 else 1
    let v := min (min (ds.headD 0 + 1) (l + 1)) (d + cost)
    v :: levAux c1 s2 ds v

/-- Outer `for i` loop of the source DP: folds the rows over `s1`, carrying the
current row `dp[i][0..n]` (whose first entry is the row index `i`). -/
def levLoop (s2 : List Char) : List Char → List Nat → Nat → List Nat
  | [], row, _ => row
  | c1 :: s1, row, i => levLoop s2 s1 ((i + 1) :: levAux c1 s2 row (i + 1)) (i + 1)

/-- Source: `levenshteinDistance(str1, str2)` — the `m = 0` / `n = 0` early
returns, then the DP matrix rendered row by row; the result is `dp[m][n]`, the
last entry of the final row (row 0 is `[0, 1, ..., n]`). -/
def levenshteinDistance (s1 s2 : List Char) : Nat :=
  if s1.length = 0 then s2.length
  else if s2.length = 0 then s1.length
  else (levLoop s2 s1 (List.range (s2.length + 1)) 0).getLastD 0

/-- Source: `computeSimilarity(str1, str2)`; JavaScript number arithmetic
modelled over `ℚ`. -/
def computeSimilarity (str1 str2 : String) : ℚ :=
  let s1 := normalizeTextD str1
  let s2 := normalizeTextD str2
  if s1 = s2 then 1
  else
    let maxLen := max s1.length s2.length
    if maxLen = 0 then 1
    else 1 - (levenshteinDistance s1.data s2.data : ℚ) / (maxLen : ℚ)

/-- `rowBound l i j`: entry `k` of `l` is at most `max i (j + k)`. -/
def rowBound : List Nat → Nat → Nat → Prop
  | [], _, _ => True
  | v :: vs, i, j => v ≤ max i j ∧ rowBound vs i (j + 1)

theorem rowBound_cons {v : Nat} {vs : List Nat} {i j : Nat} :
    rowBound (v :: vs) i j ↔ (v ≤ max i j ∧ rowBound vs i (j + 1)) := Iff.rfl

theorem levAux_bound (c1 : Char) :
    ∀ (s2 : List Char) (prev : List Nat) (l i j : Nat),
      rowBound prev i j → rowBound (levAux c1 s2 prev l) (i + 1) (j + 1) := by
  intro s2
  induction s2 with
  | nil =>
    intro prev l i j _
    exact trivial
  | cons c2 s2 ih =>
    intro prev l i j hprev
    match prev with
    | [] => exact trivial
    | d :: ds =>
      obtain ⟨hd, hds⟩ := rowBound_cons.mp hprev
      simp only [levAux]
      rw [rowBound_cons]
      constructor
      · have hcost : (if c1 = c2 then (0 : Nat) else 1) ≤ 1 := by split <;> omega
      
        have hmin : min (min (ds.headD 0 + 1) (l + 1)) (d + if c1 = c2 then 0 else 1) ≤
            d + if c1 = c2 then 0 else 1 := min_le_right _ _
        rw [Nat.succ_max_succ]
        omega
      · exact ih ds _ i (j + 1) hds

theorem levLoop_bound (s2 : List Char) :
    ∀ (s1 : List Char) (row : List Nat) (i : Nat), rowBound row i 0 →
      rowBound (levLoop s2 s1 row i) (i + s1.length) 0 := by
  intro s1
  induction s1 with
  | nil =>
    intro row i h
    simpa using h
  | cons c1 s1 ih =>
    intro row i h
    rw [levLoop]
    have h2 : rowBound ((i + 1) :: levAux c1 s2 row (i + 1)) (i + 1) 0 := by
      rw [rowBound_cons]
      exact ⟨le_max_left _ _, levAux_bound c1 s2 row (i + 1) i 0 h⟩
    have h3 := ih _ (i + 1) h2
    have heq : i + (c1 :: s1).length = i + 1 + s1.length := by
      simp only [List.length_cons]
      omega
    rw [heq]
    exact h3

theorem rowBound_range2 : ∀ (k j : Nat), rowBound (List.range' j k) 0 j := by
  intro k
  induction k with
  | zero => intro j; exact trivial
  | succ k ih =>
    intro j
    rw [List.range'_succ, rowBound_cons]
    exact ⟨le_max_right _ _, ih (j + 1)⟩

theorem rowBound_getLastD : ∀ (l : List Nat) (i j dflt : Nat), rowBound l i j →
    l ≠ [] → l.getLastD dflt ≤ max i (j + l.length - 1) := by
  intro l
  induction l with
  | nil =>
    intro i j d _ h
    exact absurd rfl h
  | cons v vs ih =>
    intro i j d hb _
    obtain ⟨hv, hvs⟩ := rowBound_cons.mp hb
    match vs with
    | [] => simpa using hv
    | w :: ws =>
      rw [List.getLastD_cons]
      have hrec := ih i (j + 1) v hvs (by simp)
      have heq : max i (j + 1 + (w :: ws).length - 1) =
          max i (j + (v :: w :: ws).length - 1) := by
        simp only [List.length_cons]
        congr 1
        omega
      rw [heq] at hrec
      exact hrec

theorem levAux_length (c1 : Char) : ∀ (s2 : List Char) (prev : List Nat) (l : Nat),
    (levAux c1 s2 prev l).length = min s2.length prev.length := by
  intro s2
  induction s2 with
  | nil => intro prev l; simp [levAux]
  | cons c2 s2 ih =>
    intro prev l
    match prev with
    | [] => simp [levAux]
    | d :: ds =>
      simp only [levAux, List.length_cons, ih ds]
      omega

theorem levLoop_length (s2 : List Char) : ∀ (s1 : List Char) (row : List Nat) (i : Nat),
    row.length = s2.length + 1 → (levLoop s2 s1 row i).length = s2.length + 1 := by
  intro s1
  induction s1 with
  | nil =>
    intro row i h
    exact h
  | cons c1 s1 ih =>
    intro row i h
    rw [levLoop]
    refine ih _ (i + 1) ?_
    rw [List.length_cons, levAux_length, h]
    omega

theorem levenshteinDistance_le (s1 s2 : List Char) :
    levenshteinDistance s1 s2 ≤ max s1.length s2.length := by
  simp only [levenshteinDistance]
  by_cases h1 : s1.length = 0
  · rw [if_pos h1]
    exact le_max_right _ _
  · rw [if_neg h1]
    by_cases h2 : s2.length = 0
    · rw [if_pos h2]
      exact le_max_left _ _
    · rw [if_neg h2]
      have hb0 : rowBound (List.range (s2.length + 1)) 0 0 := by
        rw [List.range_eq_range']
        exact rowBound_range2 (s2.length + 1) 0
      have hb := levLoop_bound s2 s1 _ 0 hb0
      have hlen := levLoop_length s2 s1 (List.range (s2.length + 1)) 0 (by simp)
      have hne : levLoop s2 s1 (List.range (s2.length + 1)) 0 ≠ [] := by
        intro h0
        rw [h0] at hlen
        simp at hlen
      have hfin := rowBound_getLastD _ _ _ 0 hb hne
      rw [hlen] at hfin
      simpa using hfin

/-- C7: `computeSimilarity` always lands in `[0, 1]`; it is `1` exactly on
pairs whose default normalizations agree (including two empty strings), and
otherwise equals one minus the Levenshtein distance of the normalized strings
divided by the maximum of their lengths; `computeSimilarity "abc" "xyz" = 0`
and `computeSimilarity x x = 1`. -/
theorem computeSimilarity_spec :
    (∀ a b : String, 0 ≤ computeSimilarity a b ∧ computeSimilarity a b ≤ 1) ∧
    (∀ a b : String, normalizeTextD a = normalizeTextD b → computeSimilarity a b = 1) ∧
    (∀ a b : String, normalizeTextD a ≠ normalizeTextD b →
      computeSimilarity a b = 1 -
        (levenshteinDistance (normalizeTextD a).data (normalizeTextD b).data : ℚ) /
        (max (normalizeTextD a).length (normalizeTextD b).length : ℚ)) ∧
    computeSimilarity "abc" "xyz" = 0 ∧
    (∀ x : String, computeSimilarity x x = 1) := by
  have hcase : ∀ a b : String, normalizeTextD a ≠ normalizeTextD b →
      computeSimilarity a b = 1 -
        (levenshteinDistance (normalizeTextD a).data (normalizeTextD b).data : ℚ) /
        (max (normalizeTextD a).length (normalizeTextD b).length : ℚ) := by
    intro a b hne
    simp only [computeSimilarity]
    rw [if_neg hne]
    have hm : ¬(max (normalizeTextD a).length (normalizeTextD b).length = 0) := by
      intro h0
      obtain ⟨ha, hb⟩ := Nat.max_eq_zero_iff.mp h0
      refine hne ?_
      have ha2 : (normalizeTextD a).data = [] := List.length_eq_zero.mp ha
      have hb2 : (normalizeTextD b).data = [] := List.length_eq_zero.mp hb
      cases hA : normalizeTextD a with
      | mk dA =>
        cases hB : normalizeTextD b with
        | mk dB =>
          rw [hA] at ha2
          rw [hB] at hb2
          simp only at ha2 hb2
          rw [ha2, hb2]
    rw [if_neg hm, Nat.cast_max]
  refine ⟨?_, ?_, hcase, ?_, ?_⟩
  · intro a b
    by_cases heq : normalizeTextD a = normalizeTextD b
    · have h1 : computeSimilarity a b = 1 := by
        simp only [computeSimilarity]
        rw [if_pos heq]
      rw [h1]
      exact ⟨zero_le_one, le_refl 1⟩
    · rw [hcase a b heq]
      have hm : 0 < max (normalizeTextD a).length (normalizeTextD b).length := by
        rcases Nat.eq_zero_or_pos (max (normalizeTextD a).length
          (normalizeTextD b).length) with h0 | h0
        · exfalso
          obtain ⟨ha, hb⟩ := Nat.max_eq_zero_iff.mp h0
          refine heq ?_
          cases hA : normalizeTextD a with
          | mk dA =>
            cases hB : normalizeTextD b with
            | mk dB =>
              rw [hA] at ha
              rw [hB] at hb
              simp only [String.length] at ha hb
              rw [List.length_eq_zero.mp ha, List.length_eq_zero.mp hb]
        · exact h0
      have hmq : (0 : ℚ) < (max (normalizeTextD a).length (normalizeTextD b).length : ℚ) := by
        exact_mod_cast hm
      have hd : (levenshteinDistance (normalizeTextD a).data (normalizeTextD b).data : ℚ) ≤
          (max (normalizeTextD a).length (normalizeTextD b).length : ℚ) := by
        have := levenshteinDistance_le (normalizeTextD a).data (normalizeTextD b).data
        exact_mod_cast this
      have hd0 : (0 : ℚ) ≤
          (levenshteinDistance (normalizeTextD a).data (normalizeTextD b).data : ℚ) := by
        exact_mod_cast Nat.zero_le _
      constructor
      · have : (levenshteinDistance (normalizeTextD a).data (normalizeTextD b).data : ℚ) /
            (max (normalizeTextD a).length (normalizeTextD b).length : ℚ) ≤ 1 :=
          (div_le_one hmq).mpr hd
        linarith
      · have : 0 ≤ (levenshteinDistance (normalizeTextD a).data
            (normalizeTextD b).data : ℚ) /
            (max (normalizeTextD a).length (normalizeTextD b).length : ℚ) :=
          div_nonneg hd0 (le_of_lt hmq)
        linarith
  · intro a b heq
    simp only [computeSimilarity]
    rw [if_pos heq]
  · have h := hcase "abc" "xyz" (by decide)
    rw [h, show normalizeTextD "abc" = "abc" from by decide,
      show normalizeTextD "xyz" = "xyz" from by decide,
      show levenshteinDistance ("abc" : String).data ("xyz" : String).data = 3 from by decide,
      show ("abc" : String).length = 3 from rfl, show ("xyz" : String).length = 3 from rfl]
    norm_num
  · intro x
    simp [computeSimilarity]

theorem computeSimilarity_spec_witness : computeSimilarity "Hello" "hello" = 1 :=
  computeSimilarity_spec.2.1 "Hello" "hello" (by decide)

/-! ## Position finding (source: `findTextPosition` via `String.prototype.indexOf`) -/

/-- The needle matches at the head of the remaining haystack. -/
def strMatchAt : List Char → List Char → Bool
  | [], _ => true
  | _ :: _, [] => false
  | n :: ns, h :: hs => n == h && strMatchAt ns hs

/-- Scan for the first match position, counting absolute positions from `i`. -/
def jsIndexOfAux (needle : List Char) : List Char → Nat → Option Nat
  | [], i => if strMatchAt needle [] then some i else none
  | h :: hs, i =>
    if strMatchAt needle (h :: hs) then some i
    else jsIndexOfAux needle hs (i + 1)

/-- `String.prototype.indexOf(needle, start)`: the scan begins at
`min start hay.length` — ECMAScript clamps the start position to the string
length — and `none` plays the role of `-1`. -/
def jsIndexOf (hay needle : List Char) (start : Nat) : Option Nat :=
  jsIndexOfAux needle (hay.drop (min start hay.length)) (min start hay.length)

/-- Source: `findTextPosition(haystack, needle, startOffset)`. -/
def findTextPosition (haystack needle : String) (startOffset : Nat) :
    Option (Nat × Nat) :=
  let normalizedHaystack := normalizeTextD haystack
  let normalizedNeedle := normalizeTextD needle
  match jsIndexOf normalizedHaystack.data normalizedNeedle.data startOffset with
  | none => none
  | some i => some (i, i + normalizedNeedle.data.length)

theorem jsIndexOfAux_some {needle : List Char} : ∀ (hay : List Char) (i r : Nat),
    jsIndexOfAux needle hay i = some r →
    i ≤ r ∧ strMatchAt needle (hay.drop (r - i)) = true ∧
    ∀ k, i ≤ k → k < r → strMatchAt needle (hay.drop (k - i)) = false := by
  intro hay
  induction hay with
  | nil =>
    intro i r h
    simp only [jsIndexOfAux] at h
    by_cases hm : strMatchAt needle [] = true
    · rw [if_pos hm] at h
      obtain rfl : i = r := by simpa using h
      exact ⟨le_refl i, by simpa using hm, fun k h1 h2 => absurd h2 (by omega)⟩
    · rw [if_neg hm] at h
      exact absurd h (by simp)
  | cons a hs ih =>
    intro i r h
    simp only [jsIndexOfAux] at h
    by_cases hm : strMatchAt needle (a :: hs) = true
    · rw [if_pos hm] at h
      obtain rfl : i = r := by simpa using h
      exact ⟨le_refl i, by simpa using hm, fun k h1 h2 => absurd h2 (by omega)⟩
    · rw [if_neg hm] at h
      obtain ⟨hge, hmatch, hfirst⟩ := ih (i + 1) r h
      have hgei : i ≤ r := by omega
      refine ⟨hgei, ?_, ?_⟩
      · have hgt : r - i = (r - (i + 1)) + 1 := by omega
        rw [hgt, List.drop_succ_cons]
        exact hmatch
      · intro k h1 h2
        by_cases hk : k = i
        · subst hk
          rw [Nat.sub_self, List.drop_zero]
          exact Bool.not_eq_true _ ▸ hm
        · have hgt : k - i = (k - (i + 1)) + 1 := by omega
          rw [hgt, List.drop_succ_cons]
          exact hfirst k (by omega) h2

theorem jsIndexOfAux_none {needle : List Char} : ∀ (hay : List Char) (i : Nat),
    jsIndexOfAux needle hay i = none →
    ∀ k, strMatchAt needle (hay.drop k) = false := by
  intro hay
  induction hay with
  | nil =>
    intro i h k
    simp only [jsIndexOfAux] at h
    by_cases hm : strMatchAt needle [] = true
    · rw [if_pos hm] at h
      exact absurd h (by simp)
    · rw [List.drop_nil]
      exact Bool.not_eq_true _ ▸ hm
  | cons a hs ih =>
    intro i h k
    simp only [jsIndexOfAux] at h
    by_cases hm : strMatchAt needle (a :: hs) = true
    · rw [if_pos hm] at h
      exact absurd h (by simp)
    · rw [if_neg hm] at h
      match k with
      | 0 =>
        rw [List.drop_zero]
        exact Bool.not_eq_true _ ▸ hm
      | k + 1 =>
        rw [List.drop_succ_cons]
        exact ih (i + 1) h k

/-- C8 (amended): `findTextPosition` normalizes both inputs and searches the
normalized haystack from position `min startOffset length` (the ECMAScript
`indexOf` clamp): on success the returned end offset is the start offset plus
the normalized needle's length, the match lies at or after the clamped start,
it is the first such match, and on failure no match exists at or after the
clamped start; `findTextPosition "The quick brown fox jumps" "brown"` returns
offsets `{10, 15}`. -/
theorem findTextPosition_characterization :
    (∀ (hay nd : String) (s : Nat) (r : Nat × Nat),
      findTextPosition hay nd s = some r →
      r.2 = r.1 + (normalizeTextD nd).data.length ∧
      min s (normalizeTextD hay).data.length ≤ r.1 ∧
      strMatchAt (normalizeTextD nd).data ((normalizeTextD hay).data.drop r.1) = true ∧
      ∀ k, min s (normalizeTextD hay).data.length ≤ k → k < r.1 →
        strMatchAt (normalizeTextD nd).data ((normalizeTextD hay).data.drop k) = false) ∧
    (∀ (hay nd : String) (s : Nat),
      findTextPosition hay nd s = none →
      ∀ k, min s (normalizeTextD hay).data.length ≤ k →
        strMatchAt (normalizeTextD nd).data ((normalizeTextD hay).data.drop k) = false) ∧
    findTextPosition "The quick brown fox jumps" "brown" 0 = some (10, 15) := by
  refine ⟨?_, ?_, by decide⟩
  · intro hay nd s r hr
    simp only [findTextPosition] at hr
    match hj : jsIndexOf (normalizeTextD hay).data (normalizeTextD nd).data s with
    | none =>
      rw [hj] at hr
      exact absurd hr (by simp)
    | some i =>
      rw [hj] at hr
      have hr2 : (i, i + (normalizeTextD nd).data.length) = r := by simpa using hr
      subst hr2
      simp only [jsIndexOf] at hj
      obtain ⟨hge, hmatch, hfirst⟩ := jsIndexOfAux_some _ _ _ hj
      refine ⟨rfl, hge, ?_, ?_⟩
      · rw [List.drop_drop] at hmatch
        have heq : min s (normalizeTextD hay).data.length + (i - min s
            (normalizeTextD hay).data.length) = i := by omega
        rw [heq] at hmatch
        exact hmatch
      · intro k h1 h2
        have := hfirst k h1 h2
        rw [List.drop_drop] at this
        have heq : min s (normalizeTextD hay).data.length + (k - min s
            (normalizeTextD hay).data.length) = k := by omega
        rw [heq] at this
        exact this
  · intro hay nd s h k hk
    simp only [findTextPosition] at h
    match hj : jsIndexOf (normalizeTextD hay).data (normalizeTextD nd).data s with
    | some i =>
      rw [hj] at h
      exact absurd h (by simp)
    | none =>
      simp only [jsIndexOf] at hj
      have := jsIndexOfAux_none _ _ hj (k - min s (normalizeTextD hay).data.length)
      rw [List.drop_drop] at this
      have heq : min s (normalizeTextD hay).data.length + (k - min s
          (normalizeTextD hay).data.length) = k := by omega
      rw [heq] at this
      exact this

theorem findTextPosition_characterization_witness :
    15 = 10 + (normalizeTextD "brown").data.length ∧
    min 0 (normalizeTextD "The quick brown fox jumps").data.length ≤ 10 ∧
    strMatchAt (normalizeTextD "brown").data
      ((normalizeTextD "The quick brown fox jumps").data.drop 10) = true :=
  have h := findTextPosition_characterization.1 "The quick brown fox jumps" "brown" 0
    (10, 15) (by decide)
  ⟨h.1, h.2.1, h.2.2.1⟩

/-- C8 counterexample to the claimed "first occurrence at or after
`startOffset`, else null" contract: with a needle that normalizes to the empty
string and a start offset beyond the end of the haystack, the function returns
offsets strictly below the requested start offset instead of failing, because
JS `indexOf` clamps the search start to the string length. -/
theorem findTextPosition_clamp_counterexample :
    findTextPosition "ab" " " 5 = some (2, 2) ∧ 2 < 5 ∧ normalizeTextD " " = "" := by
  exact ⟨by decide, by decide, by decide⟩

/-! ## Range creation (source: `createRangeFromCharacterOffsets`) -/

/-- The tree-walker loop: text nodes in document order, keeping those with
nonzero normalized length, each recorded with its node index, cumulative
offset, and normalized length. -/
def collectTextNodes : List String → Nat → Nat → List (Nat × Nat × Nat)
  | [], _, _ => []
  | t :: ts, i, cur =>
    let nl := (normalizeTextD t).length
    if nl > 0 then (i, cur, nl) :: collectTextNodes ts (i + 1) (cur + nl)
    else collectTextNodes ts (i + 1) cur

/-- The boundary-search loop over the collected nodes, with the source's early
break once both boundaries are found. -/
def findBoundaries (startOffset endOffset : Nat) :
    List (Nat × Nat × Nat) → Option (Nat × Nat) → Option (Nat × Nat) →
    Option ((Nat × Nat) × (Nat × Nat))
  | [], sN, eN =>
    match sN, eN with
    | some s, some e => some (s, e)
    | _, _ => none
  | (idx, off, len) :: rest, sN, eN =>
    let sN2 := if sN = none ∧ startOffset ≥ off ∧ startOffset < off + len then
      some (idx, startOffset - off) else sN
    let eN2 := if eN = none ∧ endOffset > off ∧ endOffset ≤ off + len then
      some (idx, endOffset - off) else eN
    match sN2, eN2 with
    | some s, some e => some (s, e)
    | _, _ => findBoundaries startOffset endOffset rest sN2 eN2

/-- Source: `createRangeFromCharacterOffsets(container, startOffset,
endOffset)`; the container is modelled by its list of text nodes in document
order, and the returned Range by the two `(node index, local offset)` pairs
passed to `setStart` / `setEnd`. -/
def createRangeFromCharacterOffsets (nodes : List String) (startOffset endOffset : Nat) :
    Option ((Nat × Nat) × (Nat × Nat)) :=
  findBoundaries startOffset endOffset (collectTextNodes nodes 0 0) none none

/-- An already-found boundary wins; otherwise the boundary comes from the
first interval match. -/
def boundaryFromFind (v : Nat) (acc : Option (Nat × Nat))
    (f : Option (Nat × Nat × Nat)) : Option (Nat × Nat) :=
  match acc with
  | some x => some x
  | none =>
    match f with
    | some (i, off, _) => some (i, v - off)
    | none => none

theorem findBoundaries_eq (startOffset endOffset : Nat) :
    ∀ (l : List (Nat × Nat × Nat)) (sN eN : Option (Nat × Nat)),
      findBoundaries startOffset endOffset l sN eN =
        match boundaryFromFind startOffset sN
            (l.find? (fun x => decide (startOffset ≥ x.2.1 ∧ startOffset < x.2.1 + x.2.2))),
          boundaryFromFind endOffset eN
            (l.find? (fun x => decide (endOffset > x.2.1 ∧ endOffset ≤ x.2.1 + x.2.2))) with
        | some s, some e => some (s, e)
        | _, _ => none := by
  intro l
  induction l with
  | nil =>
    intro sN eN
    cases sN <;> cases eN <;> rfl
  | cons x rest ih =>
    intro sN eN
    obtain ⟨idx, off, len⟩ := x
    by_cases hs : startOffset ≥ off ∧ startOffset < off + len <;>
      by_cases he : endOffset > off ∧ endOffset ≤ off + len <;>
        cases sN <;> cases eN <;>
          simp only [findBoundaries, boundaryFromFind, List.find?_cons, hs, he,
            decide_eq_true_eq, ih, Option.some.injEq] <;>
          simp [boundaryFromFind, hs, he]

/-- C9: `createRangeFromCharacterOffsets` walks the container's text nodes in
document order, skipping nodes of zero normalized length and accumulating a
running normalized-length counter; the range start lands in the first node
whose interval `[offset, offset + length)` contains `startOffset`, at local
offset `startOffset - offset`; the range end lands in the first node with
`endOffset > offset ∧ endOffset ≤ offset + length` (the end boundary is
inclusive of the node that exactly completes it); the result is `none`
whenever either boundary node cannot be located. -/
theorem createRangeFromCharacterOffsets_spec :
    (∀ (nodes : List String) (s e : Nat),
      createRangeFromCharacterOffsets nodes s e =
        match
          (collectTextNodes nodes 0 0).find?
            (fun x => decide (s ≥ x.2.1 ∧ s < x.2.1 + x.2.2)),
          (collectTextNodes nodes 0 0).find?
            (fun x => decide (e > x.2.1 ∧ e ≤ x.2.1 + x.2.2)) with
        | some xs, some xe => some ((xs.1, s - xs.2.1), (xe.1, e - xe.2.1))
        | _, _ => none) ∧
    (∀ (nodes : List String), ∀ x ∈ collectTextNodes nodes 0 0, 0 < x.2.2) ∧
    createRangeFromCharacterOffsets ["Hello ", "", "World"] 3 8 = some ((0, 3), (2, 3)) ∧
    createRangeFromCharacterOffsets ["Hello ", "", "World"] 0 5 = some ((0, 0), (0, 5)) ∧
    createRangeFromCharacterOffsets ["Hello ", "", "World"] 3 11 = none := by
  refine ⟨?_, ?_, by decide, by decide, by decide⟩
  · intro nodes s e
    rw [createRangeFromCharacterOffsets, findBoundaries_eq]
    cases h1 : (collectTextNodes nodes 0 0).find?
        (fun x => decide (s ≥ x.2.1 ∧ s < x.2.1 + x.2.2)) with
    | none =>
      cases h2 : (collectTextNodes nodes 0 0).find?
          (fun x => decide (e > x.2.1 ∧ e ≤ x.2.1 + x.2.2)) with
      | none => rfl
      | some xe =>
        obtain ⟨i2, o2, l2⟩ := xe
        rfl
    | some xs =>
      obtain ⟨i1, o1, l1⟩ := xs
      cases h2 : (collectTextNodes nodes 0 0).find?
          (fun x => decide (e > x.2.1 ∧ e ≤ x.2.1 + x.2.2)) with
      | none => rfl
      | some xe =>
        obtain ⟨i2, o2, l2⟩ := xe
        rfl
  · intro nodes
    have hgen : ∀ (ns : List String) (i cur : Nat), ∀ x ∈ collectTextNodes ns i cur,
        0 < x.2.2 := by
      intro ns
      induction ns with
      | nil =>
        intro i cur x hx
        exact absurd hx (by simp [collectTextNodes])
      | cons t ts ih =>
        intro i cur x hx
        simp only [collectTextNodes] at hx
        by_cases hnl : (normalizeTextD t).length > 0
        · rw [if_pos hnl] at hx
          rcases List.mem_cons.mp hx with rfl | hx2
          · exact hnl
          · exact ih (i + 1) (cur + (normalizeTextD t).length) x hx2
        · rw [if_neg hnl] at hx
          exact ih (i + 1) cur x hx
    exact hgen nodes 0 0

theorem createRangeFromCharacterOffsets_spec_witness : (0 : Nat) < 5 :=
  createRangeFromCharacterOffsets_spec.2.1 ["Hello ", "", "World"] (0, 0, 5) (by decide)

/-! ## Context validation (source: `validateTextMatch`) and the exact-match
restore loop (source: `findTextInDOM`) -/

/-- JS `String.prototype.endsWith`. -/
def jsEndsWith (s t : List Char) : Bool :=
  decide (t.length ≤ s.length) && (s.drop (s.length - t.length) == t)

/-- JS `String.prototype.startsWith`. -/
def jsStartsWith (s t : List Char) : Bool := strMatchAt t s

/-- Source: `validateTextMatch(text, searchText, prefix, suffix)`.  The
position is recomputed internally as `findTextPosition(text, search)` with no
start offset: the function always validates the context of the FIRST
occurrence of the search text, whatever occurrence the caller is examining. -/
def validateTextMatch (text searchText pfxCtx sfxCtx : String) : Bool :=
  let normalizedText := normalizeTextD text
  let normalizedSearch := normalizeTextD searchText
  let normalizedPrefix : String := ⟨jsTrim (normalizeChars pfxCtx.data ⟨true, false⟩)⟩
  let normalizedSuffix : String := ⟨jsTrim (normalizeChars sfxCtx.data ⟨true, false⟩)⟩
  match findTextPosition normalizedText normalizedSearch 0 with
  | none => false
  | some (startOffset, endOffset) =>
    if normalizedPrefix = "" ∧ normalizedSuffix = "" then true
    else
      let prefixMatch :=
        if normalizedPrefix = "" then true
        else
          let prefixStart := startOffset - (normalizedPrefix.length + 5)
          let actualPrefix := jsTrim ((normalizedText.data.drop prefixStart).take
            (startOffset - prefixStart))
          jsEndsWith actualPrefix normalizedPrefix.data ||
            (actualPrefix == normalizedPrefix.data)
      let suffixMatch :=
        if normalizedSuffix = "" then true
        else
          let suffixEnd := min normalizedText.data.length
            (endOffset + normalizedSuffix.length + 5)
          let actualSuffix := jsTrim ((normalizedText.data.drop endOffset).take
            (suffixEnd - endOffset))
          jsStartsWith actualSuffix normalizedSuffix.data ||
            (actualSuffix == normalizedSuffix.data)
      prefixMatch && suffixMatch

/-- Source: the `while` loop of `findTextInDOM`, with explicit fuel (`none` =
fuel exhausted; whenever the container text is already normalized the loop
variable strictly increases, so `nct.length + 1` steps suffice).  `some none`
means the loop finished without a validated match; `some (some r)` is a
returned range. -/
def findTextInDOMLoop (nodes : List String) (nct nt pfxCtx sfxCtx : String) :
    Nat → Nat → Option (Option ((Nat × Nat) × (Nat × Nat)))
  | 0, _ => none
  | fuel + 1, searchStartIndex =>
    if searchStartIndex < nct.length then
      match findTextPosition nct nt searchStartIndex with
      | none => some none
      | some (startOffset, endOffset) =>
        if validateTextMatch nct nt pfxCtx sfxCtx then
          match createRangeFromCharacterOffsets nodes startOffset endOffset with
          | some r => some (some r)
          | none => findTextInDOMLoop nodes nct nt pfxCtx sfxCtx fuel (endOffset + 1)
        else findTextInDOMLoop nodes nct nt pfxCtx sfxCtx fuel (endOffset + 1)
    else some none

/-- Source: `findTextInDOM(container, highlight, normalizedContainerText)`. -/
def findTextInDOM (nodes : List String) (nct nt pfxCtx sfxCtx : String) :
    Option (Option ((Nat × Nat) × (Nat × Nat))) :=
  findTextInDOMLoop nodes nct nt pfxCtx sfxCtx (nct.length + 1) 0

/-- C3: in the container text `"a cat b good cat end"` the needle `"cat"`
occurs twice (offsets 2 and 13); only the second occurrence is preceded by
`"good"` and followed by `"end"` (the anchor's contexts) — yet the exact-match
path returns nothing: `validateTextMatch` recomputes the match position from
scratch and always validates the first occurrence, so advancing the search
start never helps and the loop ends without a match. -/
theorem findTextInDOM_first_occurrence_only :
    findTextPosition "a cat b good cat end" "cat" 0 = some (2, 5) ∧
    findTextPosition "a cat b good cat end" "cat" 6 = some (13, 16) ∧
    jsEndsWith (jsTrim ((("a cat b good cat end" : String).data.drop 4).take 9))
      ("good" : String).data = true ∧
    jsStartsWith (jsTrim (("a cat b good cat end" : String).data.drop 16))
      ("end" : String).data = true ∧
    validateTextMatch "a cat b good cat end" "cat" "good" "end" = false ∧
    findTextInDOM ["a cat b good cat end"] "a cat b good cat end" "cat" "good" "end" =
      some none := by
  exact ⟨by decide, by decide, by decide, by decide, by decide, by decide⟩

/-! ## Fuzzy fallback (source: `findTextWithFuzzyMatching`) -/

/-- Source: the `for` loop of `findTextWithFuzzyMatching`, with explicit fuel
(`none` = fuel exhausted).  `chunkSize = nt.length` and
`chunkStep = ⌊nt.length / 4⌋`; the guard compares JavaScript numbers, hence is
taken over `ℤ`. -/
def fuzzyLoop (nodes : List String) (nct nt : String) :
    Nat → Nat → Option (((Nat × Nat) × (Nat × Nat)) × ℚ) →
    Option (Option (((Nat × Nat) × (Nat × Nat)) × ℚ))
  | 0, _, _ => none
  | fuel + 1, i, bestMatch =>
    if (i : ℤ) < (nct.length : ℤ) - (nt.length : ℤ) then
      let chunk : String := ⟨(nct.data.drop i).take nt.length⟩
      let similarity := computeSimilarity nt chunk
      let best2 :=
        if 0.8 ≤ similarity then
          match createRangeFromCharacterOffsets nodes i (i + nt.length) with
          | some r =>
            match bestMatch with
            | none => some (r, similarity)
            | some b => if b.2 < similarity then some (r, similarity) else bestMatch
          | none => bestMatch
        else bestMatch
      fuzzyLoop nodes nct nt fuel (i + nt.length / 4) best2
    else some bestMatch

/-- C4: for the anchor text `"ab"` (length 2, so `chunkStep = ⌊2/4⌋ = 0`) and
container text `"abcdef"`, the window never advances: the loop guard
`0 < 6 - 2` remains true at `i = 0` forever, so no amount of fuel completes
the scan — the source loop does not terminate. -/
theorem fuzzyLoop_diverges :
    ∀ (fuel : Nat) (best : Option (((Nat × Nat) × (Nat × Nat)) × ℚ)),
      fuzzyLoop ["abcdef"] "abcdef" "ab" fuel 0 best = none := by
  intro fuel
  induction fuel with
  | zero =>
    intro best
    rfl
  | succ n ih =>
    intro best
    rw [fuzzyLoop, if_pos (by decide)]
    exact ih _

/-! ## Storage layer (sources: `BaseStorageAdapter.validateHighlight`,
`MemoryStorageAdapter`, `LocalStorageAdapter`, `PostMessageStorageAdapter`,
`Highlighter`) -/

/-- A JavaScript value as far as the `typeof` checks of `validateHighlight`
can distinguish it; an absent field reads as `undef`. -/
inductive JSVal : Type
  | str (s : String)
  | num (q : ℚ)
  | jbool (b : Bool)
  | undef
deriving DecidableEq

def JSVal.isString : JSVal → Bool
  | .str _ => true
  | _ => false

def JSVal.isNumber : JSVal → Bool
  | .num _ => true
  | _ => false

def JSVal.isBoolean : JSVal → Bool
  | .jbool _ => true
  | _ => false

/-- A stored highlight as a bag of JavaScript values (source type
`StoredHighlight`).  The source fields `prefix` and `suffix` are rendered
`prefixCtx` / `suffixCtx`. -/
structure RawHighlight : Type where
  id : JSVal
  text : JSVal
  normalizedText : JSVal
  startOffset : JSVal
  endOffset : JSVal
  prefixCtx : JSVal
  suffixCtx : JSVal
  color : JSVal
  note : JSVal
  createdAt : JSVal
  updatedAt : JSVal
  isCrossElement : JSVal
deriving DecidableEq

/-- Source: `BaseStorageAdapter.validateHighlight`. -/
def validateHighlight (h : RawHighlight) : Bool :=
  h.id.isString && h.text.isString && h.normalizedText.isString &&
  h.startOffset.isNumber && h.endOffset.isNumber &&
  h.prefixCtx.isString && h.suffixCtx.isString && h.createdAt.isString &&
  h.isCrossElement.isBoolean

/-- A `Partial<StoredHighlight>` payload: `none` = field absent. -/
structure PartialHighlight : Type where
  id : Option JSVal
  text : Option JSVal
  normalizedText : Option JSVal
  startOffset : Option JSVal
  endOffset : Option JSVal
  prefixCtx : Option JSVal
  suffixCtx : Option JSVal
  color : Option JSVal
  note : Option JSVal
  createdAt : Option JSVal
  updatedAt : Option JSVal
  isCrossElement : Option JSVal
deriving DecidableEq

/-- `{ ...existing, ...data, id, updatedAt: new Date().toISOString() }`: each
field present in the payload overrides the stored one, then the `id` shorthand
and the fresh `updatedAt` override in turn (so a differing `data.id` is
discarded). -/
def mergeUpdate (old : RawHighlight) (data : PartialHighlight) (id : JSVal)
    (now : String) : RawHighlight where
  id := id
  text := data.text.getD old.text
  normalizedText := data.normalizedText.getD old.normalizedText
  startOffset := data.startOffset.getD old.startOffset
  endOffset := data.endOffset.getD old.endOffset
  prefixCtx := data.prefixCtx.getD old.prefixCtx
  suffixCtx := data.suffixCtx.getD old.suffixCtx
  color := data.color.getD old.color
  note := data.note.getD old.note
  createdAt := data.createdAt.getD old.createdAt
  updatedAt := .str now
  isCrossElement := data.isCrossElement.getD old.isCrossElement

/-- `Map.prototype.set` on an association list. -/
def mapSet {α β : Type} [DecidableEq α] : List (α × β) → α → β → List (α × β)
  | [], k, v => [(k, v)]
  | (k2, v2) :: rest, k, v =>
    if k2 = k then (k, v) :: rest else (k2, v2) :: mapSet rest k v

/-- `Map.prototype.get` on an association list. -/
def mapGet {α β : Type} [DecidableEq α] : List (α × β) → α → Option β
  | [], _ => none
  | (k2, v2) :: rest, k => if k2 = k then some v2 else mapGet rest k

/-- `Map.prototype.delete` on an association list: the new map and whether a
binding was removed. -/
def mapDelete {α β : Type} [DecidableEq α] : List (α × β) → α → List (α × β) × Bool
  | [], _ => ([], false)
  | (k2, v2) :: rest, k =>
    if k2 = k then (rest, true)
    else
      let r := mapDelete rest k
      ((k2, v2) :: r.1, r.2)

/-- Source: `MemoryStorageAdapter.save`. -/
def memorySave (store : List (JSVal × RawHighlight)) (h : RawHighlight) :
    Except String (List (JSVal × RawHighlight)) :=
  if validateHighlight h then .ok (mapSet store h.id h)
  else .error "Invalid highlight data"

/-- Source: `MemoryStorageAdapter.update` — note: no validation. -/
def memoryUpdate (store : List (JSVal × RawHighlight)) (id : String)
    (data : PartialHighlight) (now : String) :
    Except String (List (JSVal × RawHighlight)) :=
  match mapGet store (.str id) with
  | none => .error ("Highlight with id " ++ id ++ " not found")
  | some existing => .ok (mapSet store (.str id) (mergeUpdate existing data (.str id) now))

/-- Source: `LocalStorageAdapter.load` filters out entries rejected by
`validateHighlight`. -/
def lsLoad (arr : List RawHighlight) : List RawHighlight := arr.filter validateHighlight

/-- Source: `LocalStorageAdapter.save`. -/
def lsSave (arr : List RawHighlight) (h : RawHighlight) :
    Except String (List RawHighlight) :=
  if validateHighlight h then .ok (lsLoad arr ++ [h])
  else .error "Invalid highlight data"

/-- The `findIndex` / element-assignment pair of `LocalStorageAdapter.update`:
replace the first element whose `id` strictly equals the given string. -/
def replaceById : List RawHighlight → String → PartialHighlight → String →
    Option (List RawHighlight)
  | [], _, _, _ => none
  | h :: rest, id, data, now =>
    if h.id = .str id then some (mergeUpdate h data (.str id) now :: rest)
    else
      match replaceById rest id data now with
      | none => none
      | some r => some (h :: r)

/-- Source: `LocalStorageAdapter.update` — note: no validation. -/
def lsUpdate (arr : List RawHighlight) (id : String) (data : PartialHighlight)
    (now : String) : Except String (List RawHighlight) :=
  match replaceById (lsLoad arr) id data now with
  | none => .error ("Highlight with id " ++ id ++ " not found")
  | some r => .ok r

/-- Source: `PostMessageStorageAdapter.save` — validates, then posts a
`save_highlight` request carrying the highlight. -/
def pmSave (h : RawHighlight) : Except String (String × RawHighlight) :=
  if validateHighlight h then .ok ("save_highlight", h)
  else .error "Invalid highlight data"

/-- Source: `PostMessageStorageAdapter.update` — posts an `update_highlight`
request with the raw payload; no validation at all. -/
def pmUpdate (id : String) (data : PartialHighlight) :
    String × (String × PartialHighlight) :=
  ("update_highlight", (id, data))

/-- Source: `Highlighter.createHighlight` — the in-memory index mutation and
the guarded storage save.  The storage outcome is passed in as a value; DOM
rendering and callbacks are outside the model.  The `catch` branch only logs,
so the returned index is the mutated one either way; the second component is
the logged storage error, if any. -/
def createHighlightModel (index : List (String × RawHighlight)) (id : String)
    (h : RawHighlight) (saveResult : Except String Unit) :
    List (String × RawHighlight) × Option String :=
  let index2 := mapSet index id h
  match saveResult with
  | .ok _ => (index2, none)
  | .error e => (index2, some e)

/-- Source: `Highlighter.removeHighlight` — an absent id returns silently; the
map deletion happens before the storage call, whose failure is only logged. -/
def removeHighlightModel (index : List (String × RawHighlight)) (id : String)
    (removeResult : Except String Unit) :
    List (String × RawHighlight) × Option String :=
  match mapGet index id with
  | none => (index, none)
  | some _ =>
    let index2 := (mapDelete index id).1
    match removeResult with
    | .ok _ => (index2, none)
    | .error e => (index2, some e)

/-- A well-formed stored highlight used as concrete test data. -/
def sampleHighlight : RawHighlight where
  id := .str "h1"
  text := .str "Hello World"
  normalizedText := .str "hello world"
  startOffset := .num 0
  endOffset := .num 11
  prefixCtx := .str ""
  suffixCtx := .str ""
  color := .str "#ffeb3b"
  note := .undef
  createdAt := .str "2024-01-01T00:00:00.000Z"
  updatedAt := .undef
  isCrossElement := .jbool false

/-- A payload that replaces `text` with a number — malformed as stored data. -/
def malformedPartial : PartialHighlight where
  id := none
  text := some (.num 5)
  normalizedText := none
  startOffset := none
  endOffset := none
  prefixCtx := none
  suffixCtx := none
  color := none
  note := none
  createdAt := none
  updatedAt := none
  isCrossElement := none

/-- A highlight whose `text` field is not a string — rejected by
`validateHighlight`. -/
def malformedHighlight : RawHighlight where
  id := .str "h2"
  text := .num 5
  normalizedText := .str "hello world"
  startOffset := .num 0
  endOffset := .num 11
  prefixCtx := .str ""
  suffixCtx := .str ""
  color := .undef
  note := .undef
  createdAt := .str "2024-01-01T00:00:00.000Z"
  updatedAt := .undef
  isCrossElement := .jbool false

/-- C1 counterexample: a rejected `storage.save` does not keep the index
unchanged — `createHighlight` inserts into the in-memory map before awaiting
the save, and the `catch` only logs, so the entry stays; symmetrically,
`removeHighlight` deletes from the map even when `storage.remove` rejects. -/
theorem highlighter_index_mutated_on_storage_error :
    (createHighlightModel [] "h1" sampleHighlight (Except.error "quota exceeded")).1 =
      [("h1", sampleHighlight)] ∧
    (createHighlightModel [] "h1" sampleHighlight (Except.error "quota exceeded")).1 ≠
      ([] : List (String × RawHighlight)) ∧
    (removeHighlightModel [("h1", sampleHighlight)] "h1"
      (Except.error "disconnected")).1 = [] := by
  refine ⟨rfl, ?_, rfl⟩
  have h1 : (createHighlightModel [] "h1" sampleHighlight (Except.error "quota exceeded")).1 =
      [("h1", sampleHighlight)] := rfl
  rw [h1]
  simp

/-- C1 (amended): the orchestrator mutates its in-memory index
unconditionally, before and regardless of the storage outcome — create inserts
and remove deletes even when the storage operation rejects; the rejection is
only recorded in a log. -/
theorem highlighter_mutates_regardless :
    (∀ (index : List (String × RawHighlight)) (id : String) (h : RawHighlight)
      (res : Except String Unit),
      (createHighlightModel index id h res).1 = mapSet index id h) ∧
    (∀ (index : List (String × RawHighlight)) (id : String) (res : Except String Unit)
      (existing : RawHighlight), mapGet index id = some existing →
      (removeHighlightModel index id res).1 = (mapDelete index id).1) ∧
    (∀ (index : List (String × RawHighlight)) (id : String) (h : RawHighlight)
      (e : String),
      (createHighlightModel index id h (Except.error e)).2 = some e) := by
  refine ⟨?_, ?_, ?_⟩
  · intro index id h res
    cases res <;> rfl
  · intro index id res existing hx
    simp only [removeHighlightModel, hx]
    cases res <;> rfl
  · intro index id h e
    rfl

theorem highlighter_mutates_regardless_witness :
    (removeHighlightModel [("h1", sampleHighlight)] "h1" (Except.error "disconnected")).1 =
      (mapDelete [("h1", sampleHighlight)] "h1").1 :=
  highlighter_mutates_regardless.2.1 [("h1", sampleHighlight)] "h1"
    (Except.error "disconnected") sampleHighlight rfl

/-- C2 counterexample: `update` validates in no adapter.  A payload replacing
`text` with a number is accepted and persisted by the in-memory and
localStorage adapters — the stored record then fails `validateHighlight` —
and the post-message adapter forwards it unvalidated. -/
theorem update_skips_validation_counterexample :
    memoryUpdate [(JSVal.str "h1", sampleHighlight)] "h1" malformedPartial
      "2024-01-02T00:00:00.000Z" = Except.ok [(JSVal.str "h1",
        mergeUpdate sampleHighlight malformedPartial (.str "h1")
          "2024-01-02T00:00:00.000Z")] ∧
    validateHighlight (mergeUpdate sampleHighlight malformedPartial (.str "h1")
      "2024-01-02T00:00:00.000Z") = false ∧
    lsUpdate [sampleHighlight] "h1" malformedPartial "2024-01-02T00:00:00.000Z" =
      Except.ok [mergeUpdate sampleHighlight malformedPartial (.str "h1")
        "2024-01-02T00:00:00.000Z"] ∧
    validateHighlight sampleHighlight = true ∧
    pmUpdate "h1" malformedPartial = ("update_highlight", ("h1", malformedPartial)) := by
  exact ⟨rfl, rfl, rfl, rfl, rfl⟩

/-- C2 (amended): `save` validates in every adapter (in-memory, localStorage,
post-message) and rejects malformed highlights without persisting them;
`update` validates in none of them — it merges or forwards whatever partial
payload it is given. -/
theorem save_validates_update_does_not :
    (∀ (store : List (JSVal × RawHighlight)) (h : RawHighlight),
      validateHighlight h = false →
      memorySave store h = Except.error "Invalid highlight data") ∧
    (∀ (arr : List RawHighlight) (h : RawHighlight), validateHighlight h = false →
      lsSave arr h = Except.error "Invalid highlight data") ∧
    (∀ h : RawHighlight, validateHighlight h = false →
      pmSave h = Except.error "Invalid highlight data") ∧
    (∀ (store : List (JSVal × RawHighlight)) (id : String) (data : PartialHighlight)
      (now : String) (existing : RawHighlight),
      mapGet store (JSVal.str id) = some existing →
      memoryUpdate store id data now =
        Except.ok (mapSet store (.str id) (mergeUpdate existing data (.str id) now))) ∧
    (∀ (id : String) (data : PartialHighlight),
      pmUpdate id data = ("update_highlight", (id, data))) := by
  refine ⟨?_, ?_, ?_, ?_, ?_⟩
  · intro store h hv
    simp [memorySave, hv]
  · intro arr h hv
    simp [lsSave, hv]
  · intro h hv
    simp [pmSave, hv]
  · intro store id data now existing hx
    simp [memoryUpdate, hx]
  · intro id data
    rfl

theorem save_validates_update_does_not_witness :
    memorySave [] malformedHighlight = Except.error "Invalid highlight data" :=
  save_validates_update_does_not.1 [] malformedHighlight (by decide)

theorem mapGet_mapSet_self {α β : Type} [DecidableEq α] :
    ∀ (m : List (α × β)) (k : α) (v : β), mapGet (mapSet m k v) k = some v := by
  intro m
  induction m with
  | nil =>
    intro k v
    simp [mapSet, mapGet]
  | cons p rest ih =>
    intro k v
    obtain ⟨k2, v2⟩ := p
    by_cases hk : k2 = k
    · simp [mapSet, hk, mapGet]
    · simp only [mapSet, if_neg hk, mapGet]
      exact ih k v

theorem replaceById_find : ∀ (l : List RawHighlight) (id : String)
    (data : PartialHighlight) (now : String) (r : List RawHighlight),
    replaceById l id data now = some r →
    ∃ old, l.find? (fun h => decide (h.id = JSVal.str id)) = some old ∧
      r.find? (fun h => decide (h.id = JSVal.str id)) =
        some (mergeUpdate old data (.str id) now) := by
  intro l
  induction l with
  | nil =>
    intro id data now r h
    exact absurd h (by simp [replaceById])
  | cons x rest ih =>
    intro id data now r h
    simp only [replaceById] at h
    by_cases hx : x.id = JSVal.str id
    · rw [if_pos hx] at h
      have hr : mergeUpdate x data (.str id) now :: rest = r := by simpa using h
      subst hr
      refine ⟨x, ?_, ?_⟩
      · rw [List.find?_cons_of_pos]
        simp [hx]
      · rw [List.find?_cons_of_pos]
        simp [mergeUpdate]
    · rw [if_neg hx] at h
      match hrec : replaceById rest id data now with
      | none =>
        rw [hrec] at h
        exact absurd h (by simp)
      | some r2 =>
        rw [hrec] at h
        have hr : x :: r2 = r := by simpa using h
        subst hr
        obtain ⟨old, h1, h2⟩ := ih id data now r2 hrec
        refine ⟨old, ?_, ?_⟩
        · rw [List.find?_cons_of_neg]
          · exact h1
          · simp [hx]
        · rw [List.find?_cons_of_neg]
          · exact h2
          · simp [hx]

/-- C10: for the in-memory and localStorage adapters, `update(id, data)` never
changes the stored record's identifier — even when the payload carries a
different `id` value — sets `updatedAt` to the time of the update, and keeps
every field absent from the payload at its previous value; the record
reachable under `id` after the update is exactly the merged one. -/
theorem update_preserves_id_and_absent_fields :
    (∀ (old : RawHighlight) (data : PartialHighlight) (id : JSVal) (now : String),
      (mergeUpdate old data id now).id = id ∧
      (mergeUpdate old data id now).updatedAt = .str now ∧
      (data.text = none → (mergeUpdate old data id now).text = old.text) ∧
      (data.normalizedText = none →
        (mergeUpdate old data id now).normalizedText = old.normalizedText) ∧
      (data.startOffset = none →
        (mergeUpdate old data id now).startOffset = old.startOffset) ∧
      (data.endOffset = none → (mergeUpdate old data id now).endOffset = old.endOffset) ∧
      (data.prefixCtx = none → (mergeUpdate old data id now).prefixCtx = old.prefixCtx) ∧
      (data.suffixCtx = none → (mergeUpdate old data id now).suffixCtx = old.suffixCtx) ∧
      (data.color = none → (mergeUpdate old data id now).color = old.color) ∧
      (data.note = none → (mergeUpdate old data id now).note = old.note) ∧
      (data.createdAt = none → (mergeUpdate old data id now).createdAt = old.createdAt) ∧
      (data.isCrossElement = none →
        (mergeUpdate old data id now).isCrossElement = old.isCrossElement)) ∧
    (∀ (store : List (JSVal × RawHighlight)) (id : String) (data : PartialHighlight)
      (now : String) (existing : RawHighlight) (s2 : List (JSVal × RawHighlight)),
      mapGet store (JSVal.str id) = some existing →
      memoryUpdate store id data now = Except.ok s2 →
      mapGet s2 (JSVal.str id) = some (mergeUpdate existing data (.str id) now)) ∧
    (∀ (arr : List RawHighlight) (id : String) (data : PartialHighlight) (now : String)
      (r : List RawHighlight) (old : RawHighlight),
      lsUpdate arr id data now = Except.ok r →
      (lsLoad arr).find? (fun h => decide (h.id = JSVal.str id)) = some old →
      r.find? (fun h => decide (h.id = JSVal.str id)) =
        some (mergeUpdate old data (.str id) now)) := by
  refine ⟨?_, ?_, ?_⟩
  · intro old data id now
    refine ⟨rfl, rfl, ?_, ?_, ?_, ?_, ?_, ?_, ?_, ?_, ?_, ?_⟩ <;>
      · intro hnone
        simp [mergeUpdate, hnone]
  · intro store id data now existing s2 hget hupd
    simp only [memoryUpdate, hget] at hupd
    have hs2 : mapSet store (.str id) (mergeUpdate existing data (.str id) now) = s2 := by
      simpa using hupd
    rw [← hs2]
    exact mapGet_mapSet_self store (.str id) _
  · intro arr id data now r old hupd hfind
    simp only [lsUpdate] at hupd
    match hrep : replaceById (lsLoad arr) id data now with
    | none =>
      rw [hrep] at hupd
      exact absurd hupd (by simp)
    | some r2 =>
      rw [hrep] at hupd
      have hr : r2 = r := by simpa using hupd
      subst hr
      obtain ⟨old2, h1, h2⟩ := replaceById_find _ id data now _ hrep
      rw [hfind] at h1
      have : old2 = old := by simpa using h1.symm
      rw [← this]
      exact h2

/-- A payload that tries to overwrite the identifier. -/
def renamePartial : PartialHighlight where
  id := some (.str "other")
  text := none
  normalizedText := none
  startOffset := none
  endOffset := none
  prefixCtx := none
  suffixCtx := none
  color := none
  note := none
  createdAt := none
  updatedAt := none
  isCrossElement := none

theorem update_preserves_id_and_absent_fields_witness :
    mapGet [(JSVal.str "h1",
        mergeUpdate sampleHighlight renamePartial (JSVal.str "h1")
          "2024-01-02T00:00:00.000Z")] (JSVal.str "h1") =
      some (mergeUpdate sampleHighlight renamePartial (JSVal.str "h1")
        "2024-01-02T00:00:00.000Z") :=
  update_preserves_id_and_absent_fields.2.1 [(JSVal.str "h1", sampleHighlight)] "h1"
    renamePartial "2024-01-02T00:00:00.000Z" sampleHighlight
    [(JSVal.str "h1", mergeUpdate sampleHighlight renamePartial (JSVal.str "h1")
      "2024-01-02T00:00:00.000Z")] rfl rfl
